import Mathlib

/-!
# Chisel: the DSL readers, the statement loop and the construct-body parser

A shallow embedding of the Go package `chisel` (files `readers.go`, `tokens.go`,
`construct.go`, `data.go`, `read.go`, `regex.go`).

* A Go `string` / `[]byte` is a list of byte values (`Bytes`).
* A `*bufio.Reader` over a string is a `Reader`: the bytes not yet delivered together
  with the `lastByte` field that `UnreadByte` restores.
* The mutually recursive closures of `createConstructValueWithStack` take a fuel
  argument; `Result.timeout` is "the fuel ran out", every other outcome is an outcome
  of the Go code. The loops of `CreateTokens` and `ReadAndWrite` take fuel likewise.
* The library functions `strconv.Unquote` and `sort.Slice` are parameters (`unquote`,
  `sortSlice`) of the functions that call them. The implementation of `sort.Slice` in
  the package `sort` of Go 1.19 and later, `pdqsort_func`, is embedded as `Slice`.
-/

namespace Chisel

/-- A Go string: its bytes, each a value below 256. -/
abbrev Bytes := List Nat

/-- The bytes of an ASCII string literal: one byte per character, its code. -/
def bytes (s : String) : Bytes := s.toList.map Char.toNat

/-! ## Errors and results -/

/-- The error values of the embedded code, one constructor per error site. -/
inductive Error where
  /-- Go's `io.EOF`. -/
  | EOF
  /-- Go's `bufio.ErrInvalidUnreadByte`. -/
  | ErrInvalidUnreadByte
  /-- The error "expected at least one factor in term" of `parseTerm`. -/
  | expectedFactor
  /-- The error "expected closing ')'" of `parseAtom`, at end of input. -/
  | expectedClosing
  /-- The error "expected closing ')', got 'c'" of `parseAtom`. -/
  | expectedClosingGot (c : Nat)
  /-- The error "failed to find token or construct of name: 'name'" of `parseAtom`. -/
  | undefinedName (name : Bytes)
  /-- The error "unexpected character: 'c'" of `parseAtom`. -/
  | unexpectedCharacter (c : Nat)
  /-- The error "No syntax tokens found!" of `syntaxReader`. -/
  | noSyntaxTokens
  /-- The error "Invalid string literal!" of `stringReader`. -/
  | invalidStringLiteral
  /-- The error that `strconv.Unquote` returns for the literal `lit`. -/
  | unquoteFailed (lit : Bytes)
  /-- The error that `strconv.Atoi` returns for the text `s`. -/
  | atoiFailed (s : Bytes)
  /-- The error "Expected opener: o, got c!" of `scopeReader`. -/
  | expectedOpener (opener c : Nat)
  /-- The error "Unterminated opener: o!" of `scopeReader`. -/
  | unterminatedOpener (opener : Nat)
  /-- The error "Expected '=', got 'item'!" of `createToken`. -/
  | expectedEqInToken (got : Bytes)
  /-- The error "Bad token!" of `createToken`. -/
  | badToken
  /-- The error "Expected '=', got 'item'" of `ReadAndWrite`. -/
  | expectedEqInConstruct (got : Bytes)
  deriving DecidableEq, Repr

/-- Outcome of a fuelled run: a value, a Go error, or fuel exhaustion. -/
inductive Result (α : Type) where
  | ok (a : α)
  | error (e : Error)
  | timeout
  deriving Repr

/-! ## `bufio.Reader` -/

/-- The observable state of a `bufio.Reader` over a string: the bytes still to be
delivered and `lastByte` (`none` is Go's `-1`). -/
structure Reader where
  rest : Bytes
  lastByte : Option Nat
  deriving DecidableEq, Repr

/-- Go's `bufio.NewReader(strings.NewReader(value))`. -/
def NewReader (value : Bytes) : Reader := ⟨value, none⟩

/-- Go's `(*bufio.Reader).ReadByte`: at end of input it returns `(0, io.EOF)` and leaves
`lastByte` as it was. -/
def ReadByte (r : Reader) : Nat × Option Error × Reader :=
  match r.rest with
  | [] => (0, some Error.EOF, r)
  | c :: cs => (c, none, ⟨cs, some c⟩)

/-- Go's `(*bufio.Reader).UnreadByte`: puts `lastByte` back in front of the input, also
after a `ReadByte` that failed with `io.EOF`; fails when there is no `lastByte`. -/
def UnreadByte (r : Reader) : Option Error × Reader :=
  match r.lastByte with
  | none => (some Error.ErrInvalidUnreadByte, r)
  | some b => (none, ⟨b :: r.rest, none⟩)

/-- Go's `unicode.IsSpace(rune(c))` for a byte `c` (Latin-1 range). -/
def IsSpace (c : Nat) : Bool :=
  c == 9 || c == 10 || c == 11 || c == 12 || c == 13 || c == 32 || c == 0x85 || c == 0xA0

/-- The function `isValidId` of `readers.go`. -/
def isValidId (c : Nat) : Bool :=
  (65 ≤ c && c ≤ 90) || (97 ≤ c && c ≤ 122) || (48 ≤ c && c ≤ 57) || c == 95

/-- The function `isValidIdStarter` of `readers.go`. -/
def isValidIdStarter (c : Nat) : Bool :=
  (65 ≤ c && c ≤ 90) || (97 ≤ c && c ≤ 122) || c == 95

/-- The `for` loop of `skipWhitespace`: `ReadByte` until the byte read is not a space;
a failed read yields the byte `0`, which is not a space. -/
def skipWhitespaceLoop : Bytes → Option Nat → Reader
  | [], last => ⟨[], last⟩
  | c :: cs, _ => if IsSpace c then skipWhitespaceLoop cs (some c) else ⟨cs, some c⟩

/-- The function `skipWhitespace` of `readers.go`: the loop, then one `UnreadByte` whose error is
returned. -/
def skipWhitespace (r : Reader) : Option Error × Reader :=
  UnreadByte (skipWhitespaceLoop r.rest r.lastByte)

/-! ## Tokens, constructs, the regex AST -/

/-- The `Token` interface with its three implementations (`tokens.go`). -/
inductive Token where
  | SimpleToken (Name : Bytes)
  | LiteralToken (Name : Bytes) (Literal : Bytes) (Precedence : Int)
  | FunctionToken (Name : Bytes) (Code : Bytes) (Precedence : Int)
  deriving DecidableEq, Repr

/-- The function `TokenName` of `tokens.go`. -/
def TokenName : Token → Bytes
  | .SimpleToken n => n
  | .LiteralToken n _ _ => n
  | .FunctionToken n _ _ => n

/-- The function `TokenPrecedence` of `tokens.go`. -/
def TokenPrecedence : Token → Int
  | .SimpleToken _ => 0
  | .LiteralToken _ _ p => p
  | .FunctionToken _ _ p => p

/-- The struct `SimpleConstruct` of `construct.go`: a name and the raw body text. -/
structure SimpleConstruct where
  Name : Bytes
  Value : Bytes
  deriving DecidableEq, Repr

/-- The struct `Counter` of `regex.go`, embedded in the AST nodes. -/
structure Counter where
  Count : Int
  Prototyped : Bool
  deriving DecidableEq, Repr

/-- The zero value of `Counter`, which every node built by the parser carries. -/
def Counter.zero : Counter := ⟨0, false⟩

/-- The implementations of the `Regex` interface (`regex.go`). `NestedRegex` holds a
`Construct{Name, Value}` whose `Value` may be `nil` (`none`). -/
inductive Regex where
  | UnitRegex (c : Counter) (Token : Token)
  | NestedRegex (c : Counter) (Name : Bytes) (Value : Option Regex)
  | ChainRegex (c : Counter) (Chain : List Regex)
  | OrRegex (c : Counter) (Chain : List Regex)
  | CapturedRegex (Prototyped : Bool) (Inner : Regex)
  | MultiplierRegex (c : Counter) (RequireOne : Bool) (Inner : Regex)
  | OptionalRegex (c : Counter) (Inner : Regex)

/-- The struct `Construct` of `construct.go`. -/
structure Construct where
  Name : Bytes
  Value : Option Regex

/-- The struct `ChiselData` of `data.go`. -/
structure ChiselData where
  Prefixes : List Bytes
  Suffixes : List Bytes
  Tokens : List Token
  SkipTokens : List Token
  SimpleConstructs : List SimpleConstruct
  Constructs : List Construct

/-! ## The expression parser and reference resolver (`regex.go`) -/

/-- The identifier loop of `parseAtom`: bytes are appended while `isValidId`; the first
other byte is unread; end of input ends the loop with the reader as it is. -/
def readIdentifier : Bytes → Bytes → Option Nat → Bytes × Reader
  | acc, [], last => (acc, ⟨[], last⟩)
  | acc, c :: cs, _ =>
    if isValidId c then readIdentifier (acc ++ [c]) cs (some c)
    else (acc, (UnreadByte ⟨cs, some c⟩).2)

/-- End of `parseExpression`: one alternative is returned as it is, several become an
`OrRegex`. -/
def finishExpression (alternatives : List Regex) : Regex :=
  match alternatives with
  | [a] => a
  | _ => .OrRegex Counter.zero alternatives

/-- End of `parseTerm`: no factor is an error, one factor is returned as it is, several
become a `ChainRegex`. -/
def finishTerm (factors : List Regex) (r : Reader) : Result (Regex × Reader) :=
  match factors with
  | [] => .error .expectedFactor
  | [f] => .ok (f, r)
  | _ => .ok (.ChainRegex Counter.zero factors, r)

mutual

/-- The closure `parseExpression`: `term ('|' term)*`. -/
def parseExpression : Nat → ChiselData → List Bytes → Reader → Result (Regex × Reader)
  | 0, _, _, _ => .timeout
  | fuel + 1, data, expandStack, r =>
    match parseTerm fuel data expandStack r with
    | .timeout => .timeout
    | .error e => .error e
    | .ok (left, r1) => parseExpressionLoop fuel data expandStack [left] r1

/-- The `for` loop of `parseExpression` with the alternatives collected so far. -/
def parseExpressionLoop :
    Nat → ChiselData → List Bytes → List Regex → Reader → Result (Regex × Reader)
  | 0, _, _, _, _ => .timeout
  | fuel + 1, data, expandStack, alternatives, r =>
    match skipWhitespace r with
    | (some e, r1) =>
      if e = Error.EOF then .ok (finishExpression alternatives, r1) else .error e
    | (none, r1) =>
      match ReadByte r1 with
      | (_, some e, r2) =>
        if e = Error.EOF then .ok (finishExpression alternatives, r2) else .error e
      | (b, none, r2) =>
        if b = 124 then
          match parseTerm fuel data expandStack r2 with
          | .timeout => .timeout
          | .error e => .error e
          | .ok (right, r3) =>
            parseExpressionLoop fuel data expandStack (alternatives ++ [right]) r3
        else .ok (finishExpression alternatives, (UnreadByte r2).2)

/-- The closure `parseTerm`: `factor+`. -/
def parseTerm : Nat → ChiselData → List Bytes → Reader → Result (Regex × Reader)
  | 0, _, _, _ => .timeout
  | fuel + 1, data, expandStack, r => parseTermLoop fuel data expandStack [] r

/-- The `for` loop of `parseTerm` with the factors collected so far. -/
def parseTermLoop :
    Nat → ChiselData → List Bytes → List Regex → Reader → Result (Regex × Reader)
  | 0, _, _, _, _ => .timeout
  | fuel + 1, data, expandStack, factors, r =>
    match skipWhitespace r with
    | (some e, r1) => if e = Error.EOF then finishTerm factors r1 else .error e
    | (none, r1) =>
      match ReadByte r1 with
      | (_, some e, r2) => if e = Error.EOF then finishTerm factors r2 else .error e
      | (b, none, r2) =>
        if b = 41 ∨ b = 124 ∨ b = 59 then finishTerm factors (UnreadByte r2).2
        else
          match parseFactor fuel data expandStack (UnreadByte r2).2 with
          | .timeout => .timeout
          | .error e => .error e
          | .ok (factor, r3) => parseTermLoop fuel data expandStack (factors ++ [factor]) r3

/-- The closure `parseFactor`: an atom with an optional postfix operator. -/
def parseFactor : Nat → ChiselData → List Bytes → Reader → Result (Regex × Reader)
  | 0, _, _, _ => .timeout
  | fuel + 1, data, expandStack, r =>
    match parseAtom fuel data expandStack r with
    | .timeout => .timeout
    | .error e => .error e
    | .ok (atom, r1) =>
      match skipWhitespace r1 with
      | (some e, r2) => if e = Error.EOF then .ok (atom, r2) else .error e
      | (none, r2) =>
        match ReadByte r2 with
        | (_, some e, r3) => if e = Error.EOF then .ok (atom, r3) else .error e
        | (b, none, r3) =>
          if b = 42 then .ok (.MultiplierRegex Counter.zero false atom, r3)
          else if b = 43 then .ok (.MultiplierRegex Counter.zero true atom, r3)
          else if b = 63 then .ok (.OptionalRegex Counter.zero atom, r3)
          else .ok (atom, (UnreadByte r3).2)

/-- The closure `parseAtom`: a parenthesised expression or an identifier, the identifier looked up
among the tokens, then among the unresolved constructs. -/
def parseAtom : Nat → ChiselData → List Bytes → Reader → Result (Regex × Reader)
  | 0, _, _, _ => .timeout
  | fuel + 1, data, expandStack, r =>
    match skipWhitespace r with
    | (some e, _) => .error e
    | (none, r1) =>
      match ReadByte r1 with
      | (_, some e, _) => .error e
      | (c, none, r2) =>
        if c = 40 then
          match parseExpression fuel data expandStack r2 with
          | .timeout => .timeout
          | .error e => .error e
          | .ok (inner, r3) =>
            match skipWhitespace r3 with
            | (some e, _) => .error e
            | (none, r4) =>
              match ReadByte r4 with
              | (_, some _, _) => .error .expectedClosing
              | (closing, none, r5) =>
                if closing ≠ 41 then .error (.expectedClosingGot closing)
                else .ok (inner, r5)
        else if isValidIdStarter c then
          match readIdentifier [c] r2.rest r2.lastByte with
          | (name, r3) =>
            match data.Tokens.find? (fun token => TokenName token == name) with
            | some token => .ok (.UnitRegex Counter.zero token, r3)
            | none =>
              match data.SimpleConstructs.find? (fun construct => construct.Name == name) with
              | some construct =>
                if expandStack.contains construct.Name then
                  .ok (.NestedRegex Counter.zero construct.Name none, r3)
                else
                  match createConstructValueWithStack fuel data construct.Value
                      (construct.Name :: expandStack) with
                  | .timeout => .timeout
                  | .error e => .error e
                  | .ok regex => .ok (.NestedRegex Counter.zero construct.Name (some regex), r3)
              | none => .error (.undefinedName name)
        else .error (.unexpectedCharacter c)

/-- The function `createConstructValueWithStack`: a fresh reader over `value`, then
`parseExpression`. The map `expandStack` is a list of the names present; the pair
`expandStack[name] = true` / `delete(expandStack, name)` around the recursive call
adds a name that was absent and removes it again, so the map each closure sees is the
one passed here. -/
def createConstructValueWithStack :
    Nat → ChiselData → Bytes → List Bytes → Result Regex
  | 0, _, _, _ => .timeout
  | fuel + 1, data, value, expandStack =>
    match parseExpression fuel data expandStack (NewReader value) with
    | .timeout => .timeout
    | .error e => .error e
    | .ok (result, _) => .ok result

end

/-- The function `CreateConstructValue`: `createConstructValueWithStack` with an empty
map. -/
def CreateConstructValue (fuel : Nat) (data : ChiselData) (value : Bytes) : Result Regex :=
  createConstructValueWithStack fuel data value []

/-! ## The DSL tokeniser and its contextual readers (`readers.go`) -/

/-- Go's `(*bufio.Reader).Peek`: the next `n` bytes, or the bytes left and `io.EOF` when
there are fewer; no byte is consumed and `lastByte` is reset. -/
def Peek (n : Nat) (r : Reader) : Bytes × Option Error × Reader :=
  (r.rest.take n, if r.rest.length < n then some Error.EOF else none, ⟨r.rest, none⟩)

/-- Go's `(*bufio.Reader).Discard` of `n ≥ 1` bytes that a `Peek` has shown to be there;
`lastByte` is reset. -/
def Discard (n : Nat) (r : Reader) : Reader := ⟨r.rest.drop n, none⟩

/-- The type `splitterTokenType` of `readers.go`. -/
inductive splitterTokenType where
  | PREFIX | SUFFIX | TOK | SKIP
  | O_BRACE | C_BRACE | EQ | OR | OPTIONAL | STAR | PLUS | O_PAREN | C_PAREN
  | ID | STRING | SCOPER
  deriving DecidableEq, Repr

/-- The function `syntaxTokenType` of `readers.go`; the token is not empty where it is
called. -/
def syntaxTokenType (token : Bytes) : splitterTokenType :=
  if token = bytes "prefix" then .PREFIX
  else if token = bytes "suffix" then .SUFFIX
  else if token = bytes "tok" then .TOK
  else if token = bytes "skip" then .SKIP
  else if token = bytes "\x7b" then .O_BRACE
  else if token = bytes "\x7d" then .C_BRACE
  else if token = bytes "=" then .EQ
  else if token = bytes "|" then .OR
  else if token = bytes "?" then .OPTIONAL
  else if token = bytes "*" then .STAR
  else if token = bytes "+" then .PLUS
  else if token = bytes "(" then .O_PAREN
  else if token = bytes ")" then .C_PAREN
  else if token.head? = some 39 ∨ token.head? = some 34 then .STRING
  else if token.head? = some 123 ∨ token.head? = some 40 then .SCOPER
  else .ID

/-- The list `reserved` of `syntaxReader`, in its order. -/
def reserved : List Bytes :=
  [bytes "prefix", bytes "suffix", bytes "tok", bytes "skip", bytes "\x7b", bytes "\x7d",
   bytes "=", bytes "|", bytes "?", bytes "*", bytes "+", bytes "(", bytes ")", bytes ";"]

/-- The loop of `syntaxReader` over `reserved`: the first reserved item that the input
starts with is discarded from the input and returned. -/
def syntaxReaderReserved : Reader → List Bytes → Option (Bytes × Reader)
  | _, [] => none
  | r, res :: more =>
    match Peek res.length r with
    | (_, some _, r1) => syntaxReaderReserved r1 more
    | (b, none, r1) =>
      if b = res then some (res, Discard res.length r1) else syntaxReaderReserved r1 more

/-- The identifier loop of `syntaxReader`, with the `UnreadByte` that follows it: bytes
are appended while `isValidId`; the byte that ends the loop is unread, and at end of
input it is the last byte read that is unread. -/
def syntaxReaderIdentifier : Bytes → Bytes → Option Nat → Bytes × Reader
  | buffer, [], last => (buffer, (UnreadByte ⟨[], last⟩).2)
  | buffer, c :: cs, _ =>
    if isValidId c then syntaxReaderIdentifier (buffer ++ [c]) cs (some c)
    else (buffer, (UnreadByte ⟨cs, some c⟩).2)

/-- The function `syntaxReader` of `readers.go`: the next item of the DSL, a reserved
item or an identifier. -/
def syntaxReader (r : Reader) : Bytes × Option Error × Reader :=
  match skipWhitespace r with
  | (some e, r1) => ([], some e, r1)
  | (none, r1) =>
    match syntaxReaderReserved r1 reserved with
    | some (res, r2) => (res, none, r2)
    | none =>
      match Peek 1 r1 with
      | (_, some e, r2) => ([], some e, r2)
      | (b, none, r2) =>
        if isValidIdStarter (b.headD 0) then
          ((syntaxReaderIdentifier [] r2.rest r2.lastByte).1, none,
            (syntaxReaderIdentifier [] r2.rest r2.lastByte).2)
        else ([], some Error.noSyntaxTokens, r2)

/-- The loop of `stringReader`: bytes are kept up to the closing quote, a `\` keeping
the byte after it; the literal is then passed to `strconv.Unquote`, here `unquote`. -/
def stringReaderLoop (unquote : Bytes → Option Bytes) (quote : Nat) :
    Bool → Bytes → Bytes → Option Nat → Bytes × Option Error × Reader
  | _, _, [], last => ([], some Error.EOF, ⟨[], last⟩)
  | slash, buffer, c :: cs, _ =>
    if slash then stringReaderLoop unquote quote false (buffer ++ [c]) cs (some c)
    else if c = 92 then stringReaderLoop unquote quote true (buffer ++ [c]) cs (some c)
    else if c = quote then
      match unquote (buffer ++ [c]) with
      | none => ([], some (Error.unquoteFailed (buffer ++ [c])), ⟨cs, some c⟩)
      | some unquoted => (unquoted, none, ⟨cs, some c⟩)
    else stringReaderLoop unquote quote false (buffer ++ [c]) cs (some c)

/-- The function `stringReader` of `readers.go`; `unquote` stands for `strconv.Unquote`
(`none` when it returns an error). -/
def stringReader (unquote : Bytes → Option Bytes) (r : Reader) :
    Bytes × Option Error × Reader :=
  match skipWhitespace r with
  | (some e, r1) => ([], some e, r1)
  | (none, r1) =>
    match Peek 1 r1 with
    | (_, some e, r2) => ([], some e, r2)
    | (b, none, r2) =>
      if b.headD 0 ≠ 34 ∧ b.headD 0 ≠ 39 then ([], some Error.invalidStringLiteral, r2)
      else
        match ReadByte r2 with
        | (_, some e, r3) => ([], some e, r3)
        | (quote, none, r3) => stringReaderLoop unquote quote false [quote] r3.rest r3.lastByte

/-- The `for` loop of `scopeReader`. Its init and post statement is a `ReadByte`, its
condition `count != 0`: when the count reaches zero one more byte has been read, and it
is dropped. A failed read ends the loop. -/
def scopeReaderLoop (opener closer : Nat) : Bytes → Option Nat → Int → Bytes →
    Int × Bytes × Reader
  | [], last, count, buffer => (count, buffer, ⟨[], last⟩)
  | c :: cs, _, count, buffer =>
    if count = 0 then (count, buffer, ⟨cs, some c⟩)
    else
      scopeReaderLoop opener closer cs (some c)
        (if c = opener then count + 1 else if c = closer then count - 1 else count)
        (buffer ++ [c])

/-- The function `scopeReader` of `readers.go`. -/
def scopeReader (opener closer : Nat) (r : Reader) : Bytes × Option Error × Reader :=
  match skipWhitespace r with
  | (some e, r1) => ([], some e, r1)
  | (none, r1) =>
    match ReadByte r1 with
    | (_, some e, r2) => ([], some e, r2)
    | (c, none, r2) =>
      if c ≠ opener then ([], some (Error.expectedOpener opener c), r2)
      else
        match scopeReaderLoop opener closer r2.rest r2.lastByte 1 [c] with
        | (count, buffer, r3) =>
          if count ≠ 0 then ([], some (Error.unterminatedOpener opener), r3)
          else (buffer, none, r3)

/-- The loop of `constructReader`: a `\` and the byte after it are both left out, every
other byte is kept, and the first `;` that is kept ends the body. -/
def constructReaderLoop : Bool → Bytes → Bytes → Option Nat → Bytes × Option Error × Reader
  | _, _, [], last => ([], some Error.EOF, ⟨[], last⟩)
  | slash, buffer, c :: cs, _ =>
    if slash then constructReaderLoop false buffer cs (some c)
    else if c = 92 then constructReaderLoop true buffer cs (some c)
    else if c = 59 then (buffer ++ [c], none, ⟨cs, some c⟩)
    else constructReaderLoop false (buffer ++ [c]) cs (some c)

/-- The function `constructReader` of `readers.go`. -/
def constructReader (r : Reader) : Bytes × Option Error × Reader :=
  match skipWhitespace r with
  | (some e, r1) => ([], some e, r1)
  | (none, r1) => constructReaderLoop false [] r1.rest r1.lastByte


/-! ## Token declarations (`tokens.go`) -/

/-- The digit loop of `createToken`, with the `UnreadByte` that follows it: decimal
digits are appended; the byte that ends the loop is unread, and at end of input it is
the last byte read that is unread. -/
def createTokenDigits : Bytes → Bytes → Option Nat → Bytes × Reader
  | s, [], last => (s, (UnreadByte ⟨[], last⟩).2)
  | s, c :: cs, _ =>
    if 48 ≤ c ∧ c ≤ 57 then createTokenDigits (s ++ [c]) cs (some c)
    else (s, (UnreadByte ⟨cs, some c⟩).2)

/-- The number that a text of decimal digits writes. -/
def decimalValue (s : Bytes) : Nat := s.foldl (fun n c => 10 * n + (c - 48)) 0

/-- Go's `strconv.Atoi` on the texts that `createToken` passes to it, with a 64-bit
`int`: a non-empty text of decimal digits gives its value when that is below `2^63`;
`none` is the error. -/
def Atoi (s : Bytes) : Option Int :=
  if s ≠ [] ∧ (∀ c ∈ s, 48 ≤ c ∧ c ≤ 57) ∧ decimalValue s < 2 ^ 63 then
    some (decimalValue s)
  else none

/-- The start of `createToken`: the optional leading decimal `num`. -/
def createTokenPrecedence (r : Reader) : Except Error (Int × Reader) :=
  match skipWhitespace r with
  | (some e, _) => .error e
  | (none, r1) =>
    match ReadByte r1 with
    | (_, some e, _) => .error e
    | (b, none, r2) =>
      if b < 48 ∨ b > 57 then .ok (0, (UnreadByte r2).2)
      else
        match Atoi (createTokenDigits [b] r2.rest r2.lastByte).1 with
        | none => .error (Error.atoiFailed (createTokenDigits [b] r2.rest r2.lastByte).1)
        | some n => .ok (n, (createTokenDigits [b] r2.rest r2.lastByte).2)

/-- The rest of `createToken`, from `next := syntaxReader(r)` on: the name, then a
simple token when a letter or `_` follows, else `=` and a string literal or a
parenthesised group with a brace group. -/
def createTokenNamed (unquote : Bytes → Option Bytes) (num : Int) (r : Reader) :
    Except Error (Token × Reader) :=
  match syntaxReader r with
  | (_, some e, _) => .error e
  | (name, none, r1) =>
    match skipWhitespace r1 with
    | (some e, _) => .error e
    | (none, r2) =>
      match ReadByte r2 with
      | (_, some e, _) => .error e
      | (b, none, r3) =>
        if (97 ≤ b ∧ b ≤ 122) ∨ (65 ≤ b ∧ b ≤ 90) ∨ b = 95 then
          .ok (.SimpleToken name, (UnreadByte r3).2)
        else
          match syntaxReader (UnreadByte r3).2 with
          | (_, some e, _) => .error e
          | (eq, none, r4) =>
            if eq ≠ bytes "=" then .error (Error.expectedEqInToken eq)
            else
              match stringReader unquote r4 with
              | (literal, none, r5) => .ok (.LiteralToken name literal num, r5)
              | (_, some _, r5) =>
                match scopeReader 40 41 r5 with
                | (_, some _, _) => .error Error.badToken
                | (params, none, r6) =>
                  match scopeReader 123 125 r6 with
                  | (_, some e, _) => .error e
                  | (code, none, r7) => .ok (.FunctionToken name (params ++ code) num, r7)

/-- The function `createToken` of `tokens.go`. -/
def createToken (unquote : Bytes → Option Bytes) (r : Reader) :
    Except Error (Token × Reader) :=
  match createTokenPrecedence r with
  | .error e => .error e
  | .ok (num, r1) => createTokenNamed unquote num r1

/-- The `for` loop of `CreateTokens` over a parenthesised group: declarations are read
until the next byte that is not a space is `)`, which is peeked at and left unread. -/
def CreateTokensLoop (unquote : Bytes → Option Bytes) :
    Nat → List Token → Reader → Result (List Token × Reader)
  | 0, _, _ => .timeout
  | fuel + 1, toks, r =>
    match createToken unquote r with
    | .error e => .error e
    | .ok (tok, r1) =>
      match skipWhitespace r1 with
      | (some e, _) => .error e
      | (none, r2) =>
        match Peek 1 r2 with
        | (_, some e, _) => .error e
        | (b, none, r3) =>
          if b.headD 0 = 41 then .ok (toks ++ [tok], r3)
          else CreateTokensLoop unquote fuel (toks ++ [tok]) r3

/-- The function `CreateTokens` of `tokens.go`. -/
def CreateTokens (unquote : Bytes → Option Bytes) (fuel : Nat) (r : Reader) :
    Result (List Token × Reader) :=
  match skipWhitespace r with
  | (some e, _) => .error e
  | (none, r1) =>
    match ReadByte r1 with
    | (_, some e, _) => .error e
    | (c, none, r2) =>
      if c ≠ 40 then
        match UnreadByte r2 with
        | (some e, _) => .error e
        | (none, r3) =>
          match createToken unquote r3 with
          | .error e => .error e
          | .ok (tok, r4) => .ok ([tok], r4)
      else CreateTokensLoop unquote fuel [] r2

/-! ## The grammar model and the statement loop (`data.go`, `read.go`) -/

/-- The method `AddPrefix` of `data.go`. -/
def ChiselData.AddPrefix (d : ChiselData) (s : Bytes) : ChiselData :=
  { d with Prefixes := d.Prefixes ++ [s] }

/-- The method `AddSuffix` of `data.go`. -/
def ChiselData.AddSuffix (d : ChiselData) (s : Bytes) : ChiselData :=
  { d with Suffixes := d.Suffixes ++ [s] }

/-- The method `AddTokens` of `data.go`. -/
def ChiselData.AddTokens (d : ChiselData) (t : List Token) : ChiselData :=
  { d with Tokens := d.Tokens ++ t }

/-- The method `AddSkipTokens` of `data.go`. -/
def ChiselData.AddSkipTokens (d : ChiselData) (t : List Token) : ChiselData :=
  { d with SkipTokens := d.SkipTokens ++ t }

/-- The method `AddSimpleConstruct` of `data.go`. -/
def ChiselData.AddSimpleConstruct (d : ChiselData) (c : SimpleConstruct) : ChiselData :=
  { d with SimpleConstructs := d.SimpleConstructs ++ [c] }

/-- The loop of `PopulateConstructs` over the unresolved constructs still to do. -/
def PopulateConstructsLoop (fuel : Nat) : ChiselData → List SimpleConstruct → Result ChiselData
  | d, [] => .ok d
  | d, c :: cs =>
    match CreateConstructValue fuel d c.Value with
    | .timeout => .timeout
    | .error e => .error e
    | .ok r =>
      PopulateConstructsLoop fuel { d with Constructs := d.Constructs ++ [⟨c.Name, some r⟩] } cs

/-- The method `PopulateConstructs` of `data.go`. -/
def PopulateConstructs (fuel : Nat) (d : ChiselData) : Result ChiselData :=
  PopulateConstructsLoop fuel d d.SimpleConstructs

/-- The statement loop of `ReadAndWrite`, entered where `next()` is called for the
leading item of a statement. It ends, with the model read so far, when that call
returns an error; an error inside a statement is returned. -/
def ReadAndWriteLoop (unquote : Bytes → Option Bytes) :
    Nat → ChiselData → Reader → Result ChiselData
  | 0, _, _ => .timeout
  | fuel + 1, data, r =>
    match syntaxReader r with
    | (_, some _, _) => .ok data
    | (token, none, r1) =>
      if token = bytes ";" then ReadAndWriteLoop unquote fuel data r1
      else if token = bytes "prefix" then
        match scopeReader 123 125 r1 with
        | (_, some e, _) => .error e
        | (scope, none, r2) => ReadAndWriteLoop unquote fuel (data.AddPrefix scope) r2
      else if token = bytes "suffix" then
        match scopeReader 123 125 r1 with
        | (_, some e, _) => .error e
        | (scope, none, r2) => ReadAndWriteLoop unquote fuel (data.AddSuffix scope) r2
      else if token = bytes "tok" then
        match CreateTokens unquote fuel r1 with
        | .timeout => .timeout
        | .error e => .error e
        | .ok (toks, r2) => ReadAndWriteLoop unquote fuel (data.AddTokens toks) r2
      else if token = bytes "skip" then
        match CreateTokens unquote fuel r1 with
        | .timeout => .timeout
        | .error e => .error e
        | .ok (toks, r2) => ReadAndWriteLoop unquote fuel (data.AddSkipTokens toks) r2
      else if syntaxTokenType token = .ID then
        match syntaxReader r1 with
        | (_, some e, _) => .error e
        | (eq, none, r2) =>
          if syntaxTokenType eq ≠ .EQ then .error (Error.expectedEqInConstruct eq)
          else
            match constructReader r2 with
            | (_, some e, _) => .error e
            | (c, none, r3) =>
              ReadAndWriteLoop unquote fuel (data.AddSimpleConstruct ⟨token, c⟩) r3
      else ReadAndWriteLoop unquote fuel data r1

/-- The function `ReadAndWrite` of `read.go` up to its call `data.WriteFile(outputPath)`:
`.ok data` says that the statements were read, the constructs resolved and `WriteFile`
called on `data` (whose result, nil unless the file system fails, is then returned);
`.error e` says that `e` was returned before and nothing was written. -/
def ReadAndWrite (unquote : Bytes → Option Bytes) (fuel : Nat) (file : Bytes) :
    Result ChiselData :=
  match ReadAndWriteLoop unquote fuel ⟨[], [], [], [], [], []⟩ (NewReader file) with
  | .timeout => .timeout
  | .error e => .error e
  | .ok data => PopulateConstructs fuel data

/-- The text `prolog` that `WriteFile` writes first: the fixed include, then every
prefix. -/
def prolog (d : ChiselData) : Bytes :=
  bytes "#include <istream>\n" ++ d.Prefixes.flatten

/-- The text `epilog` that `WriteFile` writes last: every suffix. -/
def epilog (d : ChiselData) : Bytes := d.Suffixes.flatten

/-! ## The lexer section (`data.go`) -/

/-- The function `TokenCall` of `tokens.go`. -/
def TokenCall (t : Token) (args : List Bytes) : Bytes :=
  match t with
  | .SimpleToken _ => []
  | .LiteralToken name _ _ =>
    bytes "Token::token_" ++ name ++ bytes "(" ++ (bytes ",").intercalate args ++ bytes ")"
  | .FunctionToken name _ _ =>
    bytes "Token::token_" ++ name ++ bytes "(" ++ (bytes ",").intercalate args ++ bytes ")"

/-- The `for` loop of `writeLexer` over the sorted tokens: a simple token is passed
over, every other token gets one attempt. -/
def writeLexerLoop : List Token → Bytes
  | [] => []
  | .SimpleToken _ :: tokens => writeLexerLoop tokens
  | token :: tokens =>
    bytes "token = " ++ TokenCall token [bytes "*this->reader"] ++ bytes ";\n" ++
      bytes "if (token) return token;" ++ writeLexerLoop tokens

/-- The method `writeLexer` of `data.go` up to the text of `lexBuilder`: `d.Tokens` is
sorted in place with `sort.Slice`, here the parameter `sortSlice`, and the text that
fills the template is built. The template file is not part of the embedding. -/
def writeLexer (sortSlice : (Token → Token → Bool) → List Token → List Token)
    (d : ChiselData) : ChiselData × Bytes :=
  let tokens := sortSlice (fun a b => decide (TokenPrecedence a < TokenPrecedence b)) d.Tokens
  ({ d with Tokens := tokens },
    bytes "Token token;\n" ++ writeLexerLoop tokens ++ bytes "return Token::failed;")

/-! ## The library function `sort.Slice` (package `sort`, Go 1.19 and later) -/

/-- The method `Less` of `lessSwap` for the closure that `writeLexer` hands to
`sort.Slice`: `less` of the elements that are at the indices `i` and `j` now. The
indices that `pdqsort_func` asks for lie inside the slice. -/
def lessSwap.Less {α : Type} (less : α → α → Bool) (data : List α) (i j : Nat) : Bool :=
  match data[i]?, data[j]? with
  | some x, some y => less x y
  | _, _ => false

/-- The method `Swap` of `lessSwap`, made by `reflectlite.Swapper`: the elements at `i`
and `j` change places. -/
def lessSwap.Swap {α : Type} (data : List α) (i j : Nat) : List α :=
  match data[i]?, data[j]? with
  | some x, some y => (data.set i y).set j x
  | _, _ => data

/-- Go's `bits.Len`, by halving at most `fuel` times. -/
def bitsLenLoop : Nat → Nat → Nat
  | 0, _ => 0
  | fuel + 1, x => if x = 0 then 0 else bitsLenLoop fuel (x / 2) + 1

/-- Go's `bits.Len(uint(x))`: the number of bits that `x` takes. -/
def bitsLen (x : Nat) : Nat := bitsLenLoop x x

/-- The inner loop of `insertionSort_func`:
`for j := i; j > a && data.Less(j, j-1); j-- { data.Swap(j, j-1) }`. -/
def insertionSortInner {α : Type} (less : α → α → Bool) (a : Nat) : Nat → List α → List α
  | 0, data => data
  | j + 1, data =>
    if a < j + 1 ∧ lessSwap.Less less data (j + 1) j = true then
      insertionSortInner less a j (lessSwap.Swap data (j + 1) j)
    else data

/-- The outer loop of `insertionSort_func`, from `i` on for `n` rounds. -/
def insertionSortOuter {α : Type} (less : α → α → Bool) (a : Nat) :
    Nat → Nat → List α → List α
  | 0, _, data => data
  | n + 1, i, data => insertionSortOuter less a n (i + 1) (insertionSortInner less a i data)

/-- The function `insertionSort_func` of package `sort`: sorts `data[a:b]`. -/
def insertionSort_func {α : Type} (less : α → α → Bool) (data : List α) (a b : Nat) :
    List α :=
  insertionSortOuter less a (b - (a + 1)) (a + 1) data

/-- The loop of `siftDown_func`; `root` grows in every round and stays below `hi`. -/
def siftDownLoop {α : Type} (less : α → α → Bool) (hi first : Nat) :
    Nat → Nat → List α → List α
  | 0, _, data => data
  | fuel + 1, root, data =>
    if 2 * root + 1 ≥ hi then data
    else
      let child :=
        if 2 * root + 1 + 1 < hi ∧
            lessSwap.Less less data (first + (2 * root + 1)) (first + (2 * root + 1) + 1) = true
        then 2 * root + 1 + 1 else 2 * root + 1
      if lessSwap.Less less data (first + root) (first + child) = false then data
      else siftDownLoop less hi first fuel child (lessSwap.Swap data (first + root) (first + child))

/-- The function `siftDown_func` of package `sort`. -/
def siftDown_func {α : Type} (less : α → α → Bool) (data : List α) (lo hi first : Nat) :
    List α :=
  siftDownLoop less hi first hi lo data

/-- The first loop of `heapSort_func`, `for i := (hi - 1) / 2; i >= 0; i--`: the rounds
`i = n - 1, ..., 0`. -/
def heapSortBuild {α : Type} (less : α → α → Bool) (hi first : Nat) : Nat → List α → List α
  | 0, data => data
  | i + 1, data => heapSortBuild less hi first i (siftDown_func less data i hi first)

/-- The second loop of `heapSort_func`, `for i := hi - 1; i >= 0; i--`: the rounds
`i = n - 1, ..., 0`. -/
def heapSortPop {α : Type} (less : α → α → Bool) (first : Nat) : Nat → List α → List α
  | 0, data => data
  | i + 1, data =>
    heapSortPop less first i (siftDown_func less (lessSwap.Swap data first (first + i)) 0 i first)

/-- The function `heapSort_func` of package `sort`. -/
def heapSort_func {α : Type} (less : α → α → Bool) (data : List α) (a b : Nat) : List α :=
  heapSortPop less a (b - a) (heapSortBuild less (b - a) a ((b - a - 1) / 2 + 1) data)

/-- The type `sortedHint` of package `sort`. -/
inductive sortedHint where
  | unknownHint
  | increasingHint
  | decreasingHint
  deriving DecidableEq, Repr

/-- The loop `for i <= j && data.Less(i, a) { i++ }` of `partition_func`. -/
def partitionUp {α : Type} (less : α → α → Bool) (data : List α) (a j : Nat) :
    Nat → Nat → Nat
  | 0, i => i
  | fuel + 1, i =>
    if i ≤ j ∧ lessSwap.Less less data i a = true then partitionUp less data a j fuel (i + 1)
    else i

/-- The loop `for i <= j && !data.Less(j, a) { j-- }` of `partition_func`; `i` is
above `a`, so `j` does not get below `0`. -/
def partitionDown {α : Type} (less : α → α → Bool) (data : List α) (a i : Nat) : Nat → Nat
  | 0 => 0
  | j + 1 =>
    if i ≤ j + 1 ∧ lessSwap.Less less data (j + 1) a = false then
      partitionDown less data a i j
    else j + 1

/-- The endless `for` loop of `partition_func`, left by its `break`. -/
def partitionLoop {α : Type} (less : α → α → Bool) (a : Nat) :
    Nat → List α → Nat → Nat → List α × Nat × Nat
  | 0, data, i, j => (data, i, j)
  | fuel + 1, data, i, j =>
    let i1 := partitionUp less data a j (j + 1 - i) i
    let j1 := partitionDown less data a i1 j
    if i1 > j1 then (data, i1, j1)
    else partitionLoop less a fuel (lessSwap.Swap data i1 j1) (i1 + 1) (j1 - 1)

/-- The function `partition_func` of package `sort`: the data, `newpivot` and
`alreadyPartitioned`. -/
def partition_func {α : Type} (less : α → α → Bool) (data : List α) (a b pivot : Nat) :
    List α × Nat × Bool :=
  let data1 := lessSwap.Swap data a pivot
  let i := partitionUp less data1 a (b - 1) (b - 1 + 1 - (a + 1)) (a + 1)
  let j := partitionDown less data1 a i (b - 1)
  if i > j then (lessSwap.Swap data1 j a, j, true)
  else
    match partitionLoop less a (b - a) (lessSwap.Swap data1 i j) (i + 1) (j - 1) with
    | (data2, _, j2) => (lessSwap.Swap data2 j2 a, j2, false)

/-- The loop `for i <= j && !data.Less(a, i) { i++ }` of `partitionEqual_func`. -/
def partitionEqualUp {α : Type} (less : α → α → Bool) (data : List α) (a j : Nat) :
    Nat → Nat → Nat
  | 0, i => i
  | fuel + 1, i =>
    if i ≤ j ∧ lessSwap.Less less data a i = false then
      partitionEqualUp less data a j fuel (i + 1)
    else i

/-- The loop `for i <= j && data.Less(a, j) { j-- }` of `partitionEqual_func`. -/
def partitionEqualDown {α : Type} (less : α → α → Bool) (data : List α) (a i : Nat) :
    Nat → Nat
  | 0 => 0
  | j + 1 =>
    if i ≤ j + 1 ∧ lessSwap.Less less data a (j + 1) = true then
      partitionEqualDown less data a i j
    else j + 1

/-- The endless `for` loop of `partitionEqual_func`, left by its `break`. -/
def partitionEqualLoop {α : Type} (less : α → α → Bool) (a : Nat) :
    Nat → List α → Nat → Nat → List α × Nat
  | 0, data, i, _ => (data, i)
  | fuel + 1, data, i, j =>
    let i1 := partitionEqualUp less data a j (j + 1 - i) i
    let j1 := partitionEqualDown less data a i1 j
    if i1 > j1 then (data, i1)
    else partitionEqualLoop less a fuel (lessSwap.Swap data i1 j1) (i1 + 1) (j1 - 1)

/-- The function `partitionEqual_func` of package `sort`: the data and `newpivot`. -/
def partitionEqual_func {α : Type} (less : α → α → Bool) (data : List α) (a b pivot : Nat) :
    List α × Nat :=
  partitionEqualLoop less a (b - a + 1) (lessSwap.Swap data a pivot) (a + 1) (b - 1)

/-- The loop `for i < b && !data.Less(i, i-1) { i++ }` of `partialInsertionSort_func`. -/
def partialInsertionSortScan {α : Type} (less : α → α → Bool) (data : List α) (b : Nat) :
    Nat → Nat → Nat
  | 0, i => i
  | fuel + 1, i =>
    if i < b ∧ lessSwap.Less less data i (i - 1) = false then
      partialInsertionSortScan less data b fuel (i + 1)
    else i

/-- The loop `for j := i - 1; j >= 1; j--` of `partialInsertionSort_func`, which shifts
the smaller element to the left. -/
def partialInsertionSortLeft {α : Type} (less : α → α → Bool) : Nat → List α → List α
  | 0, data => data
  | j + 1, data =>
    if lessSwap.Less less data (j + 1) j = false then data
    else partialInsertionSortLeft less j (lessSwap.Swap data (j + 1) j)

/-- The loop `for j := i + 1; j < b; j++` of `partialInsertionSort_func`, which shifts
the greater element to the right. -/
def partialInsertionSortRight {α : Type} (less : α → α → Bool) :
    Nat → Nat → List α → List α
  | 0, _, data => data
  | n + 1, j, data =>
    if lessSwap.Less less data j (j - 1) = false then data
    else partialInsertionSortRight less n (j + 1) (lessSwap.Swap data j (j - 1))

/-- The loop `for j := 0; j < maxSteps; j++` of `partialInsertionSort_func`, with
`shortestShifting = 50`: the data and the value returned. -/
def partialInsertionSortLoop {α : Type} (less : α → α → Bool) (a b : Nat) :
    Nat → Nat → List α → List α × Bool
  | 0, _, data => (data, false)
  | steps + 1, i, data =>
    let i1 := partialInsertionSortScan less data b (b - i) i
    if i1 = b then (data, true)
    else if b - a < 50 then (data, false)
    else
      let data1 := lessSwap.Swap data i1 (i1 - 1)
      let data2 := if i1 - a ≥ 2 then partialInsertionSortLeft less (i1 - 1) data1 else data1
      let data3 :=
        if b - i1 ≥ 2 then partialInsertionSortRight less (b - (i1 + 1)) (i1 + 1) data2
        else data2
      partialInsertionSortLoop less a b steps i1 data3

/-- The function `partialInsertionSort_func` of package `sort`, with `maxSteps = 5`. -/
def partialInsertionSort_func {α : Type} (less : α → α → Bool) (data : List α) (a b : Nat) :
    List α × Bool :=
  partialInsertionSortLoop less a b 5 (a + 1) data

/-- The function `nextPowerOfTwo` of package `sort`. -/
def nextPowerOfTwo (length : Nat) : Nat := 1 <<< bitsLen length

/-- The loop `for i := 0; i < 3; i++` of `breakPatterns_func`; `random` is the state of
the `xorshift` generator and `next` its method `Next`. -/
def breakPatternsLoop {α : Type} (next : Nat → Nat) (a length modulus idx : Nat) :
    Nat → Nat → Nat → List α → List α
  | 0, _, _, data => data
  | n + 1, i, random, data =>
    let other := next random &&& (modulus - 1)
    let other1 := if other ≥ length then other - length else other
    breakPatternsLoop next a length modulus idx n (i + 1) (next random)
      (lessSwap.Swap data (idx - 1 + i) (a + other1))

/-- The function `breakPatterns_func` of package `sort`. The method `Next` of its
`xorshift` generator, whose shift constants are not the same in every release of Go, is
the parameter `next`. -/
def breakPatterns_func {α : Type} (next : Nat → Nat) (data : List α) (a b : Nat) : List α :=
  if b - a ≥ 8 then
    breakPatternsLoop next a (b - a) (nextPowerOfTwo (b - a)) (a + (b - a) / 4 * 2 - 1) 3 0
      (b - a) data
  else data

/-- The function `order2_func` of package `sort`, the counter `*swaps` passed through. -/
def order2_func {α : Type} (less : α → α → Bool) (data : List α) (a b swaps : Nat) :
    Nat × Nat × Nat :=
  if lessSwap.Less less data b a = true then (b, a, swaps + 1) else (a, b, swaps)

/-- The function `median_func` of package `sort`. -/
def median_func {α : Type} (less : α → α → Bool) (data : List α) (a b c swaps : Nat) :
    Nat × Nat :=
  match order2_func less data a b swaps with
  | (a1, b1, swaps1) =>
    match order2_func less data b1 c swaps1 with
    | (b2, _, swaps2) =>
      match order2_func less data a1 b2 swaps2 with
      | (_, b3, swaps3) => (b3, swaps3)

/-- The function `medianAdjacent_func` of package `sort`. -/
def medianAdjacent_func {α : Type} (less : α → α → Bool) (data : List α) (a swaps : Nat) :
    Nat × Nat :=
  median_func less data (a - 1) a (a + 1) swaps

/-- The function `choosePivot_func` of package `sort`, with `shortestNinther = 50` and
`maxSwaps = 4 * 3`. -/
def choosePivot_func {α : Type} (less : α → α → Bool) (data : List α) (a b : Nat) :
    Nat × sortedHint :=
  let l := b - a
  let i := a + l / 4 * 1
  let j := a + l / 4 * 2
  let k := a + l / 4 * 3
  let chosen : Nat × Nat :=
    if l ≥ 8 then
      if l ≥ 50 then
        match medianAdjacent_func less data i 0 with
        | (i1, swaps1) =>
          match medianAdjacent_func less data j swaps1 with
          | (j1, swaps2) =>
            match medianAdjacent_func less data k swaps2 with
            | (k1, swaps3) => median_func less data i1 j1 k1 swaps3
      else median_func less data i j k 0
    else (j, 0)
  if chosen.2 = 0 then (chosen.1, .increasingHint)
  else if chosen.2 = 4 * 3 then (chosen.1, .decreasingHint)
  else (chosen.1, .unknownHint)

/-- The loop of `reverseRange_func`. -/
def reverseRangeLoop {α : Type} : Nat → Nat → Nat → List α → List α
  | 0, _, _, data => data
  | n + 1, i, j, data =>
    if i < j then reverseRangeLoop n (i + 1) (j - 1) (lessSwap.Swap data i j) else data

/-- The function `reverseRange_func` of package `sort`. -/
def reverseRange_func {α : Type} (data : List α) (a b : Nat) : List α :=
  reverseRangeLoop (b - a) a (b - 1) data

/-- The `for` loop of `pdqsort_func` with its variables `wasBalanced` and
`wasPartitioned`, `maxInsertion = 12`. Every round and every recursive call is on a
shorter `data[a:b]`; the fuel counts them, and `none` says that it ran out. -/
def pdqsortLoop {α : Type} (next : Nat → Nat) (less : α → α → Bool) :
    Nat → List α → Nat → Nat → Nat → Bool → Bool → Option (List α)
  | 0, _, _, _, _, _, _ => none
  | fuel + 1, data, a, b, limit, wasBalanced, wasPartitioned =>
    if b - a ≤ 12 then some (insertionSort_func less data a b)
    else if limit = 0 then some (heapSort_func less data a b)
    else
      let data1 := if wasBalanced = false then breakPatterns_func next data a b else data
      let limit1 := if wasBalanced = false then limit - 1 else limit
      match choosePivot_func less data1 a b with
      | (pivot0, hint0) =>
        let data2 := if hint0 = .decreasingHint then reverseRange_func data1 a b else data1
        let pivot := if hint0 = .decreasingHint then (b - 1) - (pivot0 - a) else pivot0
        let hint := if hint0 = .decreasingHint then sortedHint.increasingHint else hint0
        let tried : List α × Bool :=
          if wasBalanced = true ∧ wasPartitioned = true ∧ hint = .increasingHint then
            partialInsertionSort_func less data2 a b
          else (data2, false)
        if tried.2 = true then some tried.1
        else if a > 0 ∧ lessSwap.Less less tried.1 (a - 1) pivot = false then
          match partitionEqual_func less tried.1 a b pivot with
          | (data3, mid) => pdqsortLoop next less fuel data3 mid b limit1 wasBalanced wasPartitioned
        else
          match partition_func less tried.1 a b pivot with
          | (data3, mid, alreadyPartitioned) =>
            if mid - a < b - mid then
              match pdqsortLoop next less fuel data3 a mid limit1 true true with
              | none => none
              | some data4 =>
                pdqsortLoop next less fuel data4 (mid + 1) b limit1
                  (decide (mid - a ≥ (b - a) / 8)) alreadyPartitioned
            else
              match pdqsortLoop next less fuel data3 (mid + 1) b limit1 true true with
              | none => none
              | some data4 =>
                pdqsortLoop next less fuel data4 a mid limit1
                  (decide (b - mid ≥ (b - a) / 8)) alreadyPartitioned

/-- The function `pdqsort_func` of package `sort`: sorts `data[a:b]`. -/
def pdqsort_func {α : Type} (next : Nat → Nat) (less : α → α → Bool) (fuel : Nat)
    (data : List α) (a b limit : Nat) : Option (List α) :=
  pdqsortLoop next less fuel data a b limit true true

/-- The function `sort.Slice` for a `less` that compares the elements:
`pdqsort_func(lessSwap{less, swap}, 0, length, bits.Len(uint(length)))`, with fuel
for one round more than the slice is long, which is enough (`Slice_eq_pdqsort`). -/
def Slice {α : Type} (next : Nat → Nat) (less : α → α → Bool) (data : List α) : List α :=
  match pdqsort_func next less (data.length + 1) data 0 data.length (bitsLen data.length) with
  | some sorted => sorted
  | none => data

/-! ## Lowering to C++ (`regex.go`, `construct.go`, `data.go`) -/

/-- The verb `%d` of `fmt.Sprintf` on an `int`. -/
def formatInt : Int → Bytes
  | .ofNat n => (Nat.toDigits 10 n).map Char.toNat
  | .negSucc n => 45 :: (Nat.toDigits 10 (n + 1)).map Char.toNat

/-- Go's `strings.Join(args, ",")`. -/
def joinArgs (args : List Bytes) : Bytes := (bytes ",").intercalate args

/-- The function `RegexCall` of `regex.go` on a node that is not nil: the name of the
routine of the node, made of its variant and its `Count`, applied to `args`. A
`CapturedRegex` stands for its inner node. -/
def RegexCall : Regex → List Bytes → Bytes
  | .UnitRegex c _, args =>
    bytes "parse_" ++ bytes "unit" ++ bytes "_" ++ formatInt c.Count ++ bytes "(" ++
      joinArgs args ++ bytes ")"
  | .NestedRegex c _ _, args =>
    bytes "parse_" ++ bytes "nested" ++ bytes "_" ++ formatInt c.Count ++ bytes "(" ++
      joinArgs args ++ bytes ")"
  | .ChainRegex c _, args =>
    bytes "parse_" ++ bytes "chain" ++ bytes "_" ++ formatInt c.Count ++ bytes "(" ++
      joinArgs args ++ bytes ")"
  | .OrRegex c _, args =>
    bytes "parse_" ++ bytes "or" ++ bytes "_" ++ formatInt c.Count ++ bytes "(" ++
      joinArgs args ++ bytes ")"
  | .CapturedRegex _ inner, args => RegexCall inner args
  | .MultiplierRegex c _ _, args =>
    bytes "parse_" ++ bytes "multiplier" ++ bytes "_" ++ formatInt c.Count ++ bytes "(" ++
      joinArgs args ++ bytes ")"
  | .OptionalRegex c _, args =>
    bytes "parse_" ++ bytes "optional" ++ bytes "_" ++ formatInt c.Count ++ bytes "(" ++
      joinArgs args ++ bytes ")"

/-- The method `Call` of `Construct` (`construct.go`); only the name is used. -/
def Construct.Call (name : Bytes) (args : List Bytes) : Bytes :=
  bytes "construct_" ++ name ++ bytes "(" ++ joinArgs args ++ bytes ")"

/-- The package variables `unitRegexNum`, `nestedRegexNum`, `chainRegexNum`,
`orRegexNum`, `multiplierRegexNum` and `optionalRegexNum` of `regex.go`. They start at
zero and are only ever incremented, once for each node numbered, so they are naturals. -/
structure Counters where
  unitRegexNum : Nat
  nestedRegexNum : Nat
  chainRegexNum : Nat
  orRegexNum : Nat
  multiplierRegexNum : Nat
  optionalRegexNum : Nat
  deriving DecidableEq, Repr

/-- The counters when the program starts. -/
def Counters.zero : Counters := ⟨0, 0, 0, 0, 0, 0⟩

/-- The test `re.(*UnitRegex)` with `v.Token.(SimpleToken)` of the chain loops: the
node is a `UnitRegex` over a simple token. -/
def isSimpleUnit : Regex → Bool
  | .UnitRegex _ (.SimpleToken _) => true
  | _ => false

/-- Go's `strings.TrimSpace` on the texts that the chain loops build, which are ASCII
at both ends: the bytes `\t`, `\n`, `\v`, `\f`, `\r` and the blank are cut off at both
ends. -/
def TrimSpace (s : Bytes) : Bytes :=
  ((s.dropWhile (fun c => (9 ≤ c && c ≤ 13) || c == 32)).reverse.dropWhile
    (fun c => (9 ≤ c && c ≤ 13) || c == 32)).reverse

/-- Go's `strings.Trim(s, cutset)` for a cutset of the one byte `cut`. -/
def Trim (s : Bytes) (cut : Nat) : Bytes :=
  ((s.dropWhile (fun c => c == cut)).reverse.dropWhile (fun c => c == cut)).reverse

/-- The format of `UnitRegex.RegexToCppFunction`, filled with the `Count` of the node and the
call of its token. -/
def unitFunctionText (count : Int) (call : Bytes) : Bytes :=
  bytes "\n" ++ bytes "\t\tbool Parser::parse_unit_" ++ formatInt count ++
    bytes "(std::istream &reader, std::vector<Parser::Node> &nodes) \x7b\n" ++
    bytes "\t\t\tToken::skip(reader);\n" ++ bytes "\t\t\tauto token = " ++ call ++
    bytes "; // already undoes on fail so we gucci\n" ++
    bytes "\t\t\tif (token) nodes.emplace_back(std::move(token));\n" ++
    bytes "\t\t\treturn token;\n" ++ bytes "\t\t\x7d\n" ++ bytes "\t\t"

/-- The format of `RegexToCppPrototype` for a `UnitRegex` and a `NestedRegex`, filled with the
`RegexCall` of the node. -/
def prototypeText (call : Bytes) : Bytes :=
  bytes "\n" ++ bytes "\t\tstatic bool " ++ call ++ bytes ";\n" ++ bytes "\t\t"

/-- The format of `NestedRegex.RegexToCppFunction`, filled with the `Count` of the node and
the call of its construct. -/
def nestedFunctionText (count : Int) (call : Bytes) : Bytes :=
  bytes "\n" ++ bytes "\t\tbool Parser::parse_nested_" ++ formatInt count ++
    bytes "(std::istream &reader, std::vector<Parser::Node> &nodes) \x7b\n" ++
    bytes "\t\t\tToken::skip(reader);\n" ++ bytes "\t\t\tauto construct = " ++ call ++
    bytes "; // Should automatically undo on fail so we still gucci\n" ++
    bytes "\t\t\tif (construct) nodes.emplace_back(construct);\n" ++
    bytes "\t\t\treturn construct;\n" ++ bytes "\t\t\x7d\n" ++ bytes "\t\t"

/-- The format of `ChainRegex.RegexToCppFunction`, filled with the routines of the children,
the `Count` of the node and the chain expression. -/
def chainFunctionText (b : Bytes) (count : Int) (c : Bytes) : Bytes :=
  bytes "\n" ++ bytes "\t\t" ++ b ++ bytes "\n" ++ bytes "\t\tbool Parser::parse_chain_" ++
    formatInt count ++ bytes "(std::istream &reader, std::vector<Parser::Node> &nodes) \x7b\n" ++
    bytes "\t\t\tToken::skip(reader);\n" ++ bytes "\t\t\tauto start = reader.tellg();\n" ++
    bytes "\t\t\tbool result = " ++ c ++ bytes ";\n" ++ bytes "\t\t\tif (!result) \x7b\n" ++
    bytes "\t\t\t\treader.clear();\n" ++ bytes "\t\t\t\treader.seekg(start, std::ios::beg);\n" ++
    bytes "\t\t\t\x7d\n" ++ bytes "\t\t\treturn result;\n" ++ bytes "\t\t\x7d\n" ++ bytes "\t\t"

/-- The format of `RegexToCppPrototype` for the nodes with children, filled with the
prototypes of the children and the `RegexCall` of the node. -/
def prototypeTextWith (b call : Bytes) : Bytes :=
  bytes "\n" ++ bytes "\t\t" ++ b ++ bytes "\n" ++ bytes "\t\tstatic bool " ++ call ++
    bytes ";\n" ++ bytes "\t\t"

/-- The format of `OrRegex.RegexToCppFunction`, filled with the routines of the children, the
`Count` of the node and the alternation expression. -/
def orFunctionText (b : Bytes) (count : Int) (c : Bytes) : Bytes :=
  bytes "\n" ++ bytes "\t\t" ++ b ++ bytes "\n" ++ bytes "\t\tbool Parser::parse_or_" ++
    formatInt count ++ bytes "(std::istream &reader, std::vector<Parser::Node> &nodes) \x7b\n" ++
    bytes "\t\t\tToken::skip(reader);\n" ++ bytes "\t\t\tauto start = reader.tellg();\n" ++
    bytes "\t\t\tbool result = " ++ c ++ bytes ";\n" ++ bytes "\t\t\tif (!result) \x7b\n" ++
    bytes "\t\t\t\treader.clear();\n" ++ bytes "\t\t\t\treader.seekg(start, std::ios::beg);\n" ++
    bytes "\t\t\t\x7d\n" ++ bytes "\t\t\treturn result;\n" ++ bytes "\t\t\x7d\n" ++ bytes "\t\t"

/-- The format of `MultiplierRegex.RegexToCppFunction` when `RequireOne` is set, filled with
the routine of the inner node, the `Count` of the node and, twice, the call of the inner
node. -/
def multiplierOneFunctionText (inner : Bytes) (count : Int) (call : Bytes) : Bytes :=
  bytes "\n" ++ bytes "\t\t\t" ++ inner ++ bytes "\n" ++
    bytes "\t\t\tbool Parser::parse_multiplier_" ++ formatInt count ++
    bytes "(std::istream &reader, std::vector<Parser::Node> &nodes) \x7b\n" ++
    bytes "\t\t\t\tToken::skip(reader);\n" ++ bytes "\t\t\t\tauto start = reader.tellg();\n" ++
    bytes "\t\t\t\tauto first = " ++ call ++ bytes ";\n" ++ bytes "\t\t\t\tif (!first) \x7b\n" ++
    bytes "\t\t\t\t\treader.clear();\n" ++
    bytes "\t\t\t\t\treader.seekg(start, std::ios::beg);\n" ++
    bytes "\t\t\t\t\treturn false;\n" ++ bytes "\t\t\t\t\x7d\n" ++
    bytes "\t\t\t\tfor (auto result = first; result; result = " ++ call ++ bytes ") \x7b\n" ++
    bytes "\t\t\t\t\tstart = reader.tellg();\n" ++ bytes "\t\t\t\t\x7d\n" ++
    bytes "\t\t\t\treader.clear();\n" ++ bytes "\t\t\t\treader.seekg(start, std::ios::beg);\n" ++
    bytes "\t\t\t\treturn true;\n" ++ bytes "\t\t\t\x7d\n" ++ bytes "\t\t\t"

/-- The format of `MultiplierRegex.RegexToCppFunction` when `RequireOne` is not set, filled
likewise. -/
def multiplierFunctionText (inner : Bytes) (count : Int) (call : Bytes) : Bytes :=
  bytes "\n" ++ bytes "\t\t" ++ inner ++ bytes "\n" ++
    bytes "\t\tbool Parser::parse_multiplier_" ++ formatInt count ++
    bytes "(std::istream &reader, std::vector<Parser::Node> &nodes) \x7b\n" ++
    bytes "\t\t\tToken::skip(reader);\n" ++ bytes "\t\t\tauto start = reader.tellg();\n" ++
    bytes "\t\t\tfor (auto result = " ++ call ++ bytes "; result; result = " ++ call ++
    bytes ") \x7b\n" ++ bytes "\t\t\t\tstart = reader.tellg();\n" ++ bytes "\t\t\t\x7d\n" ++
    bytes "\t\t\treader.clear();\n" ++ bytes "\t\t\treader.seekg(start, std::ios::beg);\n" ++
    bytes "\t\t\treturn true;\n" ++ bytes "\t\t\x7d\n" ++ bytes "\t\t"

/-- The format of `OptionalRegex.RegexToCppFunction`, filled with the routine of the inner
node, the `Count` of the node and the call of the inner node. -/
def optionalFunctionText (inner : Bytes) (count : Int) (call : Bytes) : Bytes :=
  bytes "\n" ++ bytes "\t\t" ++ inner ++ bytes "\n" ++
    bytes "\t\tbool Parser::parse_optional_" ++ formatInt count ++
    bytes "(std::istream &reader, std::vector<Parser::Node> &nodes) \x7b\n" ++
    bytes "\t\t\tToken::skip(reader);\n" ++ bytes "\t\t\tauto start = reader.tellg();\n" ++
    bytes "\t\t\tif (!" ++ call ++ bytes ") \x7b\n" ++ bytes "\t\t\t\treader.clear();\n" ++
    bytes "\t\t\t\treader.seekg(start, std::ios::beg);\n" ++ bytes "\t\t\t\treturn true;\n" ++
    bytes "\t\t\t\x7d\n" ++ bytes "\t\t\treturn true;\n" ++ bytes "\t\t\x7d\n" ++ bytes "\t\t"

/-- The format of `ConstructToCppFunction`, filled with the name of the construct, twice,
and the `RegexCall` of its value. -/
def constructFunctionText (name call : Bytes) : Bytes :=
  bytes "\n" ++ bytes "\t\tParser::Node Parser::construct_" ++ name ++
    bytes "(std::istream &reader) \x7b\n" ++
    bytes "\t\t\tNode node(new ParseNode(ParseNode::Type::" ++ name ++ bytes "));\n" ++
    bytes "\t\t\tif (!" ++ call ++ bytes ") \x7b\n" ++ bytes "\t\t\t\treturn Node::failed;\n" ++
    bytes "\t\t\t\x7d\n" ++ bytes "\t\t\treturn node;\n" ++ bytes "\t\t\x7d\n" ++ bytes "\t\t"

mutual

/-- The methods `RegexToCppFunction` of the seven node types (`regex.go`), on a node that
is not nil: the C++ text returned, the counters and the node after the call. A node
whose `Count` is not zero returns the empty text; else the counter of its variant is
incremented and stored in the node before its children are lowered. A `NestedRegex`
does not lower the value of its construct. -/
def RegexToCppFunction : Counters → Regex → Bytes × Counters × Regex
  | k, .UnitRegex c (.SimpleToken name) => ([], k, .UnitRegex c (.SimpleToken name))
  | k, .UnitRegex c token =>
    if c.Count ≠ 0 then ([], k, .UnitRegex c token)
    else
      (unitFunctionText (k.unitRegexNum + 1 : Nat) (TokenCall token [bytes "reader"]),
        { k with unitRegexNum := k.unitRegexNum + 1 },
        .UnitRegex { c with Count := (k.unitRegexNum + 1 : Nat) } token)
  | k, .NestedRegex c name value =>
    if c.Count ≠ 0 then ([], k, .NestedRegex c name value)
    else
      (nestedFunctionText (k.nestedRegexNum + 1 : Nat) (Construct.Call name [bytes "reader"]),
        { k with nestedRegexNum := k.nestedRegexNum + 1 },
        .NestedRegex { c with Count := (k.nestedRegexNum + 1 : Nat) } name value)
  | k, .ChainRegex c chain =>
    if c.Count ≠ 0 then ([], k, .ChainRegex c chain)
    else
      match RegexToCppFunctionLoop (bytes " && ")
          { k with chainRegexNum := k.chainRegexNum + 1 } chain with
      | (b, text, k1, chain1) =>
        (chainFunctionText b (k.chainRegexNum + 1 : Nat) (Trim (TrimSpace text) 38), k1,
          .ChainRegex { c with Count := (k.chainRegexNum + 1 : Nat) } chain1)
  | k, .OrRegex c chain =>
    if c.Count ≠ 0 then ([], k, .OrRegex c chain)
    else
      match RegexToCppFunctionLoop (bytes " || ")
          { k with orRegexNum := k.orRegexNum + 1 } chain with
      | (b, text, k1, chain1) =>
        (orFunctionText b (k.orRegexNum + 1 : Nat) (Trim (TrimSpace text) 124), k1,
          .OrRegex { c with Count := (k.orRegexNum + 1 : Nat) } chain1)
  | k, .CapturedRegex prototyped inner =>
    match RegexToCppFunction k inner with
    | (text, k1, inner1) => (text, k1, .CapturedRegex prototyped inner1)
  | k, .MultiplierRegex c requireOne inner =>
    if c.Count ≠ 0 then ([], k, .MultiplierRegex c requireOne inner)
    else
      match RegexToCppFunction { k with multiplierRegexNum := k.multiplierRegexNum + 1 }
          inner with
      | (text, k1, inner1) =>
        (if requireOne then
            multiplierOneFunctionText text (k.multiplierRegexNum + 1 : Nat)
              (RegexCall inner1 [bytes "reader", bytes "nodes"])
          else
            multiplierFunctionText text (k.multiplierRegexNum + 1 : Nat)
              (RegexCall inner1 [bytes "reader", bytes "nodes"]),
          k1, .MultiplierRegex { c with Count := (k.multiplierRegexNum + 1 : Nat) }
            requireOne inner1)
  | k, .OptionalRegex c inner =>
    if c.Count ≠ 0 then ([], k, .OptionalRegex c inner)
    else
      match RegexToCppFunction { k with optionalRegexNum := k.optionalRegexNum + 1 }
          inner with
      | (text, k1, inner1) =>
        (optionalFunctionText text (k.optionalRegexNum + 1 : Nat)
            (RegexCall inner1 [bytes "reader", bytes "nodes"]),
          k1, .OptionalRegex { c with Count := (k.optionalRegexNum + 1 : Nat) } inner1)

/-- The loop `for i, re := range r.Chain` of `ChainRegex.RegexToCppFunction` and of
`OrRegex.RegexToCppFunction`, over the children still to do: the texts of the builders
`b` and `chain`, the counters and the children after the loop. The test
`i < len(r.Chain)-1` holds when children follow `re`; `sep` is ` && ` or ` || `. -/
def RegexToCppFunctionLoop (sep : Bytes) : Counters → List Regex →
    Bytes × Bytes × Counters × List Regex
  | k, [] => ([], [], k, [])
  | k, re :: rest =>
    match RegexToCppFunction k re with
    | (text, k1, re1) =>
      match RegexToCppFunctionLoop sep k1 rest with
      | (b, chain, k2, rest1) =>
        (text ++ bytes "\n" ++ b,
          (if isSimpleUnit re1 then []
            else if 0 < rest.length then
              bytes "(" ++ RegexCall re1 [bytes "reader", bytes "nodes"] ++ bytes ")" ++ sep
            else bytes "(" ++ RegexCall re1 [bytes "reader", bytes "nodes"] ++ bytes ")") ++
            chain,
          k2, re1 :: rest1)

end

mutual

/-- The methods `RegexToCppPrototype` of the seven node types (`regex.go`), on a node that
is not nil: the text returned and the node after the call. A node that is `Prototyped`
returns the empty text, and so does a `UnitRegex` over a simple token, which is never
marked. -/
def RegexToCppPrototype : Regex → Bytes × Regex
  | .UnitRegex c (.SimpleToken name) => ([], .UnitRegex c (.SimpleToken name))
  | .UnitRegex c token =>
    if c.Prototyped then ([], .UnitRegex c token)
    else
      (prototypeText (RegexCall (.UnitRegex { c with Prototyped := true } token)
          [bytes "std::istream &", bytes "std::vector<Parser::Node> &"]),
        .UnitRegex { c with Prototyped := true } token)
  | .NestedRegex c name value =>
    if c.Prototyped then ([], .NestedRegex c name value)
    else
      (prototypeText (RegexCall (.NestedRegex { c with Prototyped := true } name value)
          [bytes "std::istream &", bytes "std::vector<Parser::Node> &"]),
        .NestedRegex { c with Prototyped := true } name value)
  | .ChainRegex c chain =>
    if c.Prototyped then ([], .ChainRegex c chain)
    else
      match RegexToCppPrototypeLoop chain with
      | (b, chain1) =>
        (prototypeTextWith b (RegexCall (.ChainRegex { c with Prototyped := true } chain1)
            [bytes "std::istream &", bytes "std::vector<Parser::Node> &"]),
          .ChainRegex { c with Prototyped := true } chain1)
  | .OrRegex c chain =>
    if c.Prototyped then ([], .OrRegex c chain)
    else
      match RegexToCppPrototypeLoop chain with
      | (b, chain1) =>
        (prototypeTextWith b (RegexCall (.OrRegex { c with Prototyped := true } chain1)
            [bytes "std::istream &", bytes "std::vector<Parser::Node> &"]),
          .OrRegex { c with Prototyped := true } chain1)
  | .CapturedRegex prototyped inner =>
    if prototyped then ([], .CapturedRegex prototyped inner)
    else
      match RegexToCppPrototype inner with
      | (text, inner1) => (text, .CapturedRegex true inner1)
  | .MultiplierRegex c requireOne inner =>
    if c.Prototyped then ([], .MultiplierRegex c requireOne inner)
    else
      match RegexToCppPrototype inner with
      | (text, inner1) =>
        (prototypeTextWith text
            (RegexCall (.MultiplierRegex { c with Prototyped := true } requireOne inner1)
              [bytes "std::istream &", bytes "std::vector<Parser::Node> &"]),
          .MultiplierRegex { c with Prototyped := true } requireOne inner1)
  | .OptionalRegex c inner =>
    if c.Prototyped then ([], .OptionalRegex c inner)
    else
      match RegexToCppPrototype inner with
      | (text, inner1) =>
        (prototypeTextWith text
            (RegexCall (.OptionalRegex { c with Prototyped := true } inner1)
              [bytes "std::istream &", bytes "std::vector<Parser::Node> &"]),
          .OptionalRegex { c with Prototyped := true } inner1)

/-- The loop `for _, re := range r.Chain` of `ChainRegex.RegexToCppPrototype` and of
`OrRegex.RegexToCppPrototype`: the text of the builder `b` and the children after the
loop. -/
def RegexToCppPrototypeLoop : List Regex → Bytes × List Regex
  | [] => ([], [])
  | re :: rest =>
    match RegexToCppPrototype re with
    | (text, re1) =>
      match RegexToCppPrototypeLoop rest with
      | (b, rest1) => (text ++ bytes "\n" ++ b, re1 :: rest1)

end

/-- The method `ConstructToCppFunction` of `construct.go`, with the keys of the map
`createdConstructs` before and after the call. On a construct whose value is nil
`RegexCall` ends the program with `log.Fatalf`: `none`. -/
def ConstructToCppFunction (createdConstructs : List Bytes) (c : Construct) :
    Option (Bytes × List Bytes) :=
  if createdConstructs.contains c.Name then some ([], createdConstructs)
  else
    match c.Value with
    | none => none
    | some value =>
      some (constructFunctionText c.Name
          (RegexCall value [bytes "reader", bytes "node.get_node()->get_children()"]),
        c.Name :: createdConstructs)

/-- The method `ConstructToCppPrototype` of `construct.go`, with the keys of the map
`prototypedConstructs` before and after the call. -/
def ConstructToCppPrototype (prototypedConstructs : List Bytes) (c : Construct) :
    Bytes × List Bytes :=
  if prototypedConstructs.contains c.Name then ([], prototypedConstructs)
  else
    (bytes "static Node " ++ Construct.Call c.Name [bytes "std::istream &"] ++ bytes ";",
      c.Name :: prototypedConstructs)

/-- The package variables that lowering reads and writes: the six counters and the keys
of the maps `prototypedConstructs` and `createdConstructs`. -/
structure LoweringState where
  counters : Counters
  prototypedConstructs : List Bytes
  createdConstructs : List Bytes

/-- The package variables when the program starts. -/
def LoweringState.zero : LoweringState := ⟨Counters.zero, [], []⟩

/-- The texts of the builders `typesBuilder`, `rProtoBuilder`, `protoBuilder`,
`rDefBuilder` and `defBuilder` of `writeParser`. -/
structure ParserBuilders where
  typesBuilder : Bytes
  rProtoBuilder : Bytes
  protoBuilder : Bytes
  rDefBuilder : Bytes
  defBuilder : Bytes
  deriving DecidableEq, Repr

/-- The loop `for _, c := range d.Constructs` of `writeParser` (`data.go`), over the
constructs still to do: the builders, the package variables and the constructs after
it. A construct whose value is nil makes `c.Value.RegexToCppFunction()` panic: `none`. -/
def writeParserLoop : ParserBuilders → LoweringState → List Construct →
    Option (ParserBuilders × LoweringState × List Construct)
  | out, s, [] => some (out, s, [])
  | out, s, c :: cs =>
    match c.Value with
    | none => none
    | some value =>
      match ConstructToCppPrototype s.prototypedConstructs c with
      | (proto, prototyped1) =>
        match RegexToCppFunction s.counters value with
        | (rDef, counters1, value1) =>
          match RegexToCppPrototype value1 with
          | (rProto, value2) =>
            match ConstructToCppFunction s.createdConstructs ⟨c.Name, some value2⟩ with
            | none => none
            | some (defText, created1) =>
              match writeParserLoop
                  { typesBuilder := out.typesBuilder ++ c.Name ++ bytes ",\n",
                    rProtoBuilder := out.rProtoBuilder ++ rProto,
                    protoBuilder := out.protoBuilder ++ proto ++ bytes "\n",
                    rDefBuilder := out.rDefBuilder ++ rDef,
                    defBuilder := out.defBuilder ++ defText ++ bytes "\n" }
                  ⟨counters1, prototyped1, created1⟩ cs with
              | none => none
              | some (out1, s1, cs1) => some (out1, s1, ⟨c.Name, some value2⟩ :: cs1)

/-- The method `writeParser` of `data.go` up to the texts of its builders; the template
file is not part of the embedding. -/
def writeParser (s : LoweringState) (d : ChiselData) :
    Option (ParserBuilders × LoweringState × ChiselData) :=
  match writeParserLoop ⟨[], [], [], [], []⟩ s d.Constructs with
  | none => none
  | some (out, s1, constructs) => some (out, s1, { d with Constructs := constructs })

/-! ## Specification vocabulary -/

/-- The relation `Occurs anc node ast`: `node` is a node of the AST `ast` (`ast` itself, or a
node below it, the resolved bodies of `NestedRegex` nodes included), and `anc` lists,
outermost first, the names of the `NestedRegex` nodes with a non-nil body that enclose
it inside `ast`. -/
inductive Occurs : List Bytes → Regex → Regex → Prop where
  | here (node : Regex) : Occurs [] node node
  | nested {anc node body} (c : Counter) (name : Bytes) :
      Occurs anc node body → Occurs (name :: anc) node (.NestedRegex c name (some body))
  | chain {anc node x} (c : Counter) (ch : List Regex) :
      x ∈ ch → Occurs anc node x → Occurs anc node (.ChainRegex c ch)
  | or {anc node x} (c : Counter) (ch : List Regex) :
      x ∈ ch → Occurs anc node x → Occurs anc node (.OrRegex c ch)
  | captured {anc node inner} (prototyped : Bool) :
      Occurs anc node inner → Occurs anc node (.CapturedRegex prototyped inner)
  | multiplier {anc node inner} (c : Counter) (requireOne : Bool) :
      Occurs anc node inner → Occurs anc node (.MultiplierRegex c requireOne inner)
  | optional {anc node inner} (c : Counter) :
      Occurs anc node inner → Occurs anc node (.OptionalRegex c inner)

/-- The ASTs that the closures can build when the expansion stack is `S`: counters are
zero, a `UnitRegex` holds a token of `data.Tokens`, a placeholder names a construct that
is on the stack, a resolved `NestedRegex` holds a body built with its name pushed,
`ChainRegex` and `OrRegex` have two children or more, and there is no `CapturedRegex`. -/
inductive Shape (data : ChiselData) : List Bytes → Regex → Prop where
  | unit (S : List Bytes) (token : Token) : token ∈ data.Tokens →
      Shape data S (.UnitRegex Counter.zero token)
  | placeholder (S : List Bytes) (name : Bytes) : name ∈ S →
      Shape data S (.NestedRegex Counter.zero name none)
  | nested (S : List Bytes) (name : Bytes) (body : Regex) : Shape data (name :: S) body →
      Shape data S (.NestedRegex Counter.zero name (some body))
  | chain (S : List Bytes) (ch : List Regex) : 2 ≤ ch.length → (∀ x ∈ ch, Shape data S x) →
      Shape data S (.ChainRegex Counter.zero ch)
  | or (S : List Bytes) (ch : List Regex) : 2 ≤ ch.length → (∀ x ∈ ch, Shape data S x) →
      Shape data S (.OrRegex Counter.zero ch)
  | multiplier (S : List Bytes) (requireOne : Bool) (inner : Regex) : Shape data S inner →
      Shape data S (.MultiplierRegex Counter.zero requireOne inner)
  | optional (S : List Bytes) (inner : Regex) : Shape data S inner →
      Shape data S (.OptionalRegex Counter.zero inner)

/-- An identifier of the DSL, `[A-Za-z_][A-Za-z0-9_]*`: the bytes `parseAtom` reads as one
name. -/
def IsIdentifier (name : Bytes) : Prop :=
  ∃ c cs, name = c :: cs ∧ isValidIdStarter c = true ∧ ∀ x ∈ cs, isValidId x = true

/-- The text `tail` does not continue an identifier that ends right before it: it is
empty or starts with a byte that is not an identifier byte. -/
def EndsIdentifier (tail : Bytes) : Prop :=
  ∀ x ∈ tail.head?, isValidId x = false

/-- One activation of a closure of `createConstructValueWithStack` (or of the function
itself): the fuel left, the expansion stack and the state of the reader on entry. -/
inductive Call where
  | expression (fuel : Nat) (expandStack : List Bytes) (r : Reader)
  | expressionLoop (fuel : Nat) (expandStack : List Bytes) (alternatives : List Regex)
      (r : Reader)
  | term (fuel : Nat) (expandStack : List Bytes) (r : Reader)
  | termLoop (fuel : Nat) (expandStack : List Bytes) (factors : List Regex) (r : Reader)
  | factor (fuel : Nat) (expandStack : List Bytes) (r : Reader)
  | atom (fuel : Nat) (expandStack : List Bytes) (r : Reader)
  | create (fuel : Nat) (value : Bytes) (expandStack : List Bytes)

/-- The activation returns the error `e`. -/
def Call.fails (data : ChiselData) : Call → Error → Prop
  | .expression n S r, e => parseExpression n data S r = .error e
  | .expressionLoop n S a r, e => parseExpressionLoop n data S a r = .error e
  | .term n S r, e => parseTerm n data S r = .error e
  | .termLoop n S a r, e => parseTermLoop n data S a r = .error e
  | .factor n S r, e => parseFactor n data S r = .error e
  | .atom n S r, e => parseAtom n data S r = .error e
  | .create n v S, e => createConstructValueWithStack n data v S = .error e

/-- The call sites of `createConstructValueWithStack`: `Calls data a b` when activation
`a`, while it runs, makes the call `b`, one constructor per call site of the source
with the conditions under which control gets there. -/
inductive Calls (data : ChiselData) : Call → Call → Prop where
  /-- The call `result, err := parseExpression()` at the end of `createConstructValueWithStack`. -/
  | create_expression (n : Nat) (v : Bytes) (S : List Bytes) :
      Calls data (.create (n + 1) v S) (.expression n S (NewReader v))
  /-- The call `left, err := parseTerm()`. -/
  | expression_term (n : Nat) (S : List Bytes) (r : Reader) :
      Calls data (.expression (n + 1) S r) (.term n S r)
  /-- The loop of `parseExpression` is entered once the first term is parsed. -/
  | expression_loop (n : Nat) (S : List Bytes) (r : Reader) (left : Regex) (r1 : Reader) :
      parseTerm n data S r = .ok (left, r1) →
      Calls data (.expression (n + 1) S r) (.expressionLoop n S [left] r1)
  /-- The call `right, err := parseTerm()` after a `|`. -/
  | expressionLoop_term (n : Nat) (S : List Bytes) (a : List Regex) (r r1 r2 : Reader) :
      skipWhitespace r = (none, r1) → ReadByte r1 = (124, none, r2) →
      Calls data (.expressionLoop (n + 1) S a r) (.term n S r2)
  /-- The next iteration of the loop of `parseExpression`. -/
  | expressionLoop_next (n : Nat) (S : List Bytes) (a : List Regex) (r r1 r2 : Reader)
      (right : Regex) (r3 : Reader) :
      skipWhitespace r = (none, r1) → ReadByte r1 = (124, none, r2) →
      parseTerm n data S r2 = .ok (right, r3) →
      Calls data (.expressionLoop (n + 1) S a r) (.expressionLoop n S (a ++ [right]) r3)
  /-- The loop of `parseTerm` starts with no factor. -/
  | term_loop (n : Nat) (S : List Bytes) (r : Reader) :
      Calls data (.term (n + 1) S r) (.termLoop n S [] r)
  /-- The call `factor, err := parseFactor()` when the next byte is none of `)`, `|`, `;`. -/
  | termLoop_factor (n : Nat) (S : List Bytes) (a : List Regex) (r r1 r2 : Reader) (b : Nat) :
      skipWhitespace r = (none, r1) → ReadByte r1 = (b, none, r2) →
      ¬ (b = 41 ∨ b = 124 ∨ b = 59) →
      Calls data (.termLoop (n + 1) S a r) (.factor n S (UnreadByte r2).2)
  /-- The next iteration of the loop of `parseTerm`. -/
  | termLoop_next (n : Nat) (S : List Bytes) (a : List Regex) (r r1 r2 : Reader) (b : Nat)
      (factor : Regex) (r3 : Reader) :
      skipWhitespace r = (none, r1) → ReadByte r1 = (b, none, r2) →
      ¬ (b = 41 ∨ b = 124 ∨ b = 59) →
      parseFactor n data S (UnreadByte r2).2 = .ok (factor, r3) →
      Calls data (.termLoop (n + 1) S a r) (.termLoop n S (a ++ [factor]) r3)
  /-- The call `atom, err := parseAtom()`. -/
  | factor_atom (n : Nat) (S : List Bytes) (r : Reader) :
      Calls data (.factor (n + 1) S r) (.atom n S r)
  /-- The call `inner, err := parseExpression()` after a `(`. -/
  | atom_expression (n : Nat) (S : List Bytes) (r r1 r2 : Reader) :
      skipWhitespace r = (none, r1) → ReadByte r1 = (40, none, r2) →
      Calls data (.atom (n + 1) S r) (.expression n S r2)
  /-- The recursive `createConstructValueWithStack` on the body of a construct that is
  named by the atom, shadowed by no token and not on the expansion stack. -/
  | atom_create (n : Nat) (S : List Bytes) (r r1 r2 : Reader) (c : Nat)
      (construct : SimpleConstruct) :
      skipWhitespace r = (none, r1) → ReadByte r1 = (c, none, r2) → c ≠ 40 →
      isValidIdStarter c = true →
      data.Tokens.find? (fun token =>
        TokenName token == (readIdentifier [c] r2.rest r2.lastByte).1) = none →
      data.SimpleConstructs.find? (fun construct =>
        construct.Name == (readIdentifier [c] r2.rest r2.lastByte).1) = some construct →
      S.contains construct.Name = false →
      Calls data (.atom (n + 1) S r) (.create n construct.Value (construct.Name :: S))

/-- The text that follows the first name of an alternation of names: ` | name` for
every further name, then `;`. -/
def orTail : List Bytes → Bytes
  | [] => bytes ";"
  | name :: names => bytes " | " ++ name ++ orTail names

/-- The body `t1 | t2 | ... | tn;` for the names `t1, ..., tn`. -/
def orBody : List Bytes → Bytes
  | [] => bytes ";"
  | name :: names => name ++ orTail names

/-- The atom `name` is an identifier that names a token, `tok` being the first token of
that name in declaration order. -/
def ResolvesToToken (data : ChiselData) (name : Bytes) (tok : Token) : Prop :=
  IsIdentifier name ∧ data.Tokens.find? (fun token => TokenName token == name) = some tok

/-- Outcome of a parsing closure that did not run out of fuel and, when it succeeded,
left a reader that still holds a `;` and is at least `k` bytes shorter than `bound`. -/
def Progress (bound k : Nat) : Result (Regex × Reader) → Prop
  | .timeout => False
  | .error _ => True
  | .ok (_, r') => 59 ∈ r'.rest ∧ r'.rest.length + k ≤ bound

/-- Number of unresolved constructs whose name is not on the expansion stack. -/
def offStack (data : ChiselData) (S : List Bytes) : Nat :=
  (data.SimpleConstructs.filter (fun c => !S.contains c.Name)).length

/-- Grammar used as an instance: tokens `A`, `B`, `C`, `D`, and the constructs
`X = B | X;` (self-referential), `Y = D;` and `Z = Y Y;`. -/
def sampleData : ChiselData :=
  { Prefixes := [], Suffixes := [],
    Tokens := [.LiteralToken (bytes "A") (bytes "a") 0, .LiteralToken (bytes "B") (bytes "b") 0,
      .SimpleToken (bytes "C"), .LiteralToken (bytes "D") (bytes "x") 0],
    SkipTokens := [],
    SimpleConstructs := [⟨bytes "X", bytes "B | X;"⟩, ⟨bytes "Y", bytes "D;"⟩,
      ⟨bytes "Z", bytes "Y Y;"⟩],
    Constructs := [] }

/-- The `lastByte` of a reader after the bytes `t` have been read one by one. -/
def lastRead : Bytes → Option Nat → Option Nat
  | [], last => last
  | c :: cs, _ => lastRead cs (some c)

/-- The text `s` is a scope of the pair `opener`, `closer`: it starts with `opener`,
holds as many `closer` bytes as `opener` bytes, and no shorter prefix of it does. -/
def IsScope (opener closer : Nat) (s : Bytes) : Prop :=
  s.head? = some opener ∧ s.count opener = s.count closer ∧
    ∀ p ∈ s.inits, p ≠ [] → p ≠ s → p.count opener ≠ p.count closer

instance (opener closer : Nat) (s : Bytes) : Decidable (IsScope opener closer s) := by
  unfold IsScope; infer_instance

/-- The text `body` starts with `opener` and ends before its openers and closers
balance: no prefix of it holds as many `closer` bytes as `opener` bytes. -/
def NeverBalanced (opener closer : Nat) (body : Bytes) : Prop :=
  body.head? = some opener ∧ ∀ p ∈ body.inits, p ≠ [] → p.count opener ≠ p.count closer

instance (opener closer : Nat) (s : Bytes) : Decidable (NeverBalanced opener closer s) := by
  unfold NeverBalanced; infer_instance

/-- The contract of Go's `sort.Slice` for a `less` that compares a key: the slice is
permuted so that the keys ascend. The sort is not guaranteed to be stable, so the
contract says nothing on the order of elements with equal keys. -/
def SortSliceContract (sortSlice : (Token → Token → Bool) → List Token → List Token) : Prop :=
  ∀ (key : Token → Int) (l : List Token),
    (sortSlice (fun a b => decide (key a < key b)) l).Perm l ∧
    (sortSlice (fun a b => decide (key a < key b)) l).Pairwise (fun a b => key a ≤ key b)

/-- A sort that meets the contract of `sort.Slice` and is not stable: an insertion sort
of the reversed slice, which leaves elements that compare equal in reverse order. -/
def unstableSort (less : Token → Token → Bool) (l : List Token) : List Token :=
  l.reverse.insertionSort (fun a b => less b a = false)

/-- A token that is not a `SimpleToken`: the tokens that the loop of `writeLexer` does
not pass over. -/
def notSimple : Token → Bool
  | .SimpleToken _ => false
  | _ => true

/-- The text of one attempt in the lexer, as the loop of `writeLexer` writes it. -/
def attempt (token : Token) : Bytes :=
  bytes "token = " ++ TokenCall token [bytes "*this->reader"] ++ bytes ";\n" ++
    bytes "if (token) return token;"

/-- The try-sequence of the lexer: the tokens, in the order of the sorted `d.Tokens`,
for which `writeLexer` writes an attempt. -/
def trySequence (sortSlice : (Token → Token → Bool) → List Token → List Token)
    (d : ChiselData) : List Token :=
  (writeLexer sortSlice d).1.Tokens.filter notSimple

/-- Thirteen literal tokens in the order of their declaration, `A` to `M`: `A` has
precedence `1`, the twelve after it have precedence `0`. -/
def thirteenTokens : List Token :=
  [.LiteralToken (bytes "A") (bytes "a") 1,
   .LiteralToken (bytes "B") (bytes "b") 0,
   .LiteralToken (bytes "C") (bytes "c") 0,
   .LiteralToken (bytes "D") (bytes "d") 0,
   .LiteralToken (bytes "E") (bytes "e") 0,
   .LiteralToken (bytes "F") (bytes "f") 0,
   .LiteralToken (bytes "G") (bytes "g") 0,
   .LiteralToken (bytes "H") (bytes "h") 0,
   .LiteralToken (bytes "I") (bytes "i") 0,
   .LiteralToken (bytes "J") (bytes "j") 0,
   .LiteralToken (bytes "K") (bytes "k") 0,
   .LiteralToken (bytes "L") (bytes "l") 0,
   .LiteralToken (bytes "M") (bytes "m") 0]

/-- The tokens of `thirteenTokens` as `sort.Slice` leaves them. -/
def thirteenTokensSorted : List Token :=
  [.LiteralToken (bytes "G") (bytes "g") 0,
   .LiteralToken (bytes "B") (bytes "b") 0,
   .LiteralToken (bytes "C") (bytes "c") 0,
   .LiteralToken (bytes "D") (bytes "d") 0,
   .LiteralToken (bytes "E") (bytes "e") 0,
   .LiteralToken (bytes "F") (bytes "f") 0,
   .LiteralToken (bytes "H") (bytes "h") 0,
   .LiteralToken (bytes "I") (bytes "i") 0,
   .LiteralToken (bytes "J") (bytes "j") 0,
   .LiteralToken (bytes "K") (bytes "k") 0,
   .LiteralToken (bytes "L") (bytes "l") 0,
   .LiteralToken (bytes "M") (bytes "m") 0,
   .LiteralToken (bytes "A") (bytes "a") 1]


/-- The tokens of `thirteenTokens` after the partition that `pdqsort_func` starts with:
`G`, the pivot, and `A` have changed places. -/
def thirteenTokensSwapped : List Token :=
  [.LiteralToken (bytes "G") (bytes "g") 0,
   .LiteralToken (bytes "B") (bytes "b") 0,
   .LiteralToken (bytes "C") (bytes "c") 0,
   .LiteralToken (bytes "D") (bytes "d") 0,
   .LiteralToken (bytes "E") (bytes "e") 0,
   .LiteralToken (bytes "F") (bytes "f") 0,
   .LiteralToken (bytes "A") (bytes "a") 1,
   .LiteralToken (bytes "H") (bytes "h") 0,
   .LiteralToken (bytes "I") (bytes "i") 0,
   .LiteralToken (bytes "J") (bytes "j") 0,
   .LiteralToken (bytes "K") (bytes "k") 0,
   .LiteralToken (bytes "L") (bytes "l") 0,
   .LiteralToken (bytes "M") (bytes "m") 0]

/-- The variants of node that carry a `Count`. -/
inductive Variant where
  | unit | nested | chain | or | multiplier | optional
  deriving DecidableEq, Repr

/-- The counter of a variant. -/
def Counters.get (k : Counters) : Variant → Nat
  | .unit => k.unitRegexNum
  | .nested => k.nestedRegexNum
  | .chain => k.chainRegexNum
  | .or => k.orRegexNum
  | .multiplier => k.multiplierRegexNum
  | .optional => k.optionalRegexNum

/-- The ID of a node of variant `w` as an entry of the list of IDs of variant `v`: the
`Count`, when the variant is `v` and an ID has been given (the `Count` is not zero). -/
def ownId (v w : Variant) (c : Counter) : List Int :=
  if v = w ∧ c.Count ≠ 0 then [c.Count] else []

mutual

/-- The IDs that the nodes of variant `v` of an AST have received, in depth-first
left-to-right order with a node before its children; the value of the construct of a
`NestedRegex` is taken as its child. -/
def ids (v : Variant) : Regex → List Int
  | .UnitRegex c _ => ownId v .unit c
  | .NestedRegex c _ none => ownId v .nested c
  | .NestedRegex c _ (some body) => ownId v .nested c ++ ids v body
  | .ChainRegex c chain => ownId v .chain c ++ idsOfList v chain
  | .OrRegex c chain => ownId v .or c ++ idsOfList v chain
  | .CapturedRegex _ inner => ids v inner
  | .MultiplierRegex c _ inner => ownId v .multiplier c ++ ids v inner
  | .OptionalRegex c inner => ownId v .optional c ++ ids v inner

/-- The IDs of variant `v` in a list of ASTs, one AST after the other. -/
def idsOfList (v : Variant) : List Regex → List Int
  | [] => []
  | re :: rest => ids v re ++ idsOfList v rest

end

/-- No node of the AST has received an ID: every `Count` is zero, as in the ASTs that
the parser builds. -/
def Fresh (r : Regex) : Prop := ∀ v, ids v r = []

/-- The IDs of variant `v` in the values of a list of constructs, in declaration
order. -/
def idsOfConstructs (v : Variant) : List Construct → List Int
  | [] => []
  | ⟨_, none⟩ :: rest => idsOfConstructs v rest
  | ⟨_, some value⟩ :: rest => ids v value ++ idsOfConstructs v rest

/-- The IDs `first, first + 1, ...`, `n` of them. -/
def consecutive (first n : Nat) : List Int := (List.range' first n).map Int.ofNat

/-- What one call of `RegexToCppFunction` (or of its loop) does to the counter of
variant `v` and to the IDs of that variant: `n` nodes are numbered, with the IDs that
follow the counter. -/
def Numbers (v : Variant) (k k1 : Counters) (given : List Int) : Prop :=
  ∃ n, k1.get v = k.get v + n ∧ given = consecutive (k.get v + 1) n

/-- Constructs used as an instance of lowering: `r` with the body
`Chain[A, Multiplier(false, B)]` and `s` with the body `Or[B, Chain[A, C]]`, over the
tokens of `sampleData` (`C` is simple), as the parser builds them. -/
def sampleConstructs : List Construct :=
  [⟨bytes "r", some (.ChainRegex Counter.zero
      [.UnitRegex Counter.zero (.LiteralToken (bytes "A") (bytes "a") 0),
       .MultiplierRegex Counter.zero false
         (.UnitRegex Counter.zero (.LiteralToken (bytes "B") (bytes "b") 0))])⟩,
   ⟨bytes "s", some (.OrRegex Counter.zero
      [.UnitRegex Counter.zero (.LiteralToken (bytes "B") (bytes "b") 0),
       .ChainRegex Counter.zero
         [.UnitRegex Counter.zero (.LiteralToken (bytes "A") (bytes "a") 0),
          .UnitRegex Counter.zero (.SimpleToken (bytes "C"))]])⟩]

/-- The ID in the routine name that `RegexCall` writes for a node: its `Count`, and for
a `CapturedRegex` that of its inner node. -/
def callId : Regex → Int
  | .UnitRegex c _ => c.Count
  | .NestedRegex c _ _ => c.Count
  | .ChainRegex c _ => c.Count
  | .OrRegex c _ => c.Count
  | .CapturedRegex _ inner => callId inner
  | .MultiplierRegex c _ _ => c.Count
  | .OptionalRegex c _ => c.Count

mutual

/-- The nodes of an AST that lowering visits, and that can be called: the node, then
the nodes of its children; the value of the construct of a `NestedRegex` is not
visited. -/
def visited : Regex → List Regex
  | .UnitRegex c token => [.UnitRegex c token]
  | .NestedRegex c name value => [.NestedRegex c name value]
  | .ChainRegex c chain => .ChainRegex c chain :: visitedOfList chain
  | .OrRegex c chain => .OrRegex c chain :: visitedOfList chain
  | .CapturedRegex p inner => .CapturedRegex p inner :: visited inner
  | .MultiplierRegex c requireOne inner => .MultiplierRegex c requireOne inner :: visited inner
  | .OptionalRegex c inner => .OptionalRegex c inner :: visited inner

/-- The nodes that lowering visits in a list of ASTs. -/
def visitedOfList : List Regex → List Regex
  | [] => []
  | re :: rest => visited re ++ visitedOfList rest

end

/-- The ASTs that the closures build when the expansion stack is `S`, with what a
resolved `NestedRegex` holds, the bodies of such nodes apart: the AST that
`createConstructValueWithStack` returns on the body text of the first unresolved
construct of its name, with that name pushed on `S`. A placeholder names a construct
that is on `S`. -/
inductive Expanded (data : ChiselData) : List Bytes → Regex → Prop where
  | unit (S : List Bytes) (token : Token) : token ∈ data.Tokens →
      Expanded data S (.UnitRegex Counter.zero token)
  | placeholder (S : List Bytes) (name : Bytes) : name ∈ S →
      Expanded data S (.NestedRegex Counter.zero name none)
  | nested (S : List Bytes) (construct : SimpleConstruct) (body : Regex) (fuel : Nat) :
      data.SimpleConstructs.find? (fun c => c.Name == construct.Name) = some construct →
      createConstructValueWithStack fuel data construct.Value (construct.Name :: S) =
        .ok body →
      Expanded data S (.NestedRegex Counter.zero construct.Name (some body))
  | chain (S : List Bytes) (ch : List Regex) : 2 ≤ ch.length →
      (∀ x ∈ ch, Expanded data S x) → Expanded data S (.ChainRegex Counter.zero ch)
  | or (S : List Bytes) (ch : List Regex) : 2 ≤ ch.length → (∀ x ∈ ch, Expanded data S x) →
      Expanded data S (.OrRegex Counter.zero ch)
  | multiplier (S : List Bytes) (requireOne : Bool) (inner : Regex) : Expanded data S inner →
      Expanded data S (.MultiplierRegex Counter.zero requireOne inner)
  | optional (S : List Bytes) (inner : Regex) : Expanded data S inner →
      Expanded data S (.OptionalRegex Counter.zero inner)

/-- Grammar used as an instance of a self-reference: the tokens `P` and `Q` and the
construct `e = P e Q | P Q;`. -/
def selfReferenceData : ChiselData :=
  ⟨[], [], [.LiteralToken (bytes "P") (bytes "p") 0, .LiteralToken (bytes "Q") (bytes "q") 0],
    [], [⟨bytes "e", bytes "P e Q | P Q;"⟩], []⟩

/-- The AST `Or[Chain[P, Nested(e, Or[Chain[P, Nested(e, nil), Q], Chain[P, Q]]), Q],
Chain[P, Q]]`. -/
def selfReferenceAst : Regex :=
  .OrRegex Counter.zero
    [.ChainRegex Counter.zero
      [.UnitRegex Counter.zero (.LiteralToken (bytes "P") (bytes "p") 0),
       .NestedRegex Counter.zero (bytes "e")
        (some (.OrRegex Counter.zero
          [.ChainRegex Counter.zero
            [.UnitRegex Counter.zero (.LiteralToken (bytes "P") (bytes "p") 0),
             .NestedRegex Counter.zero (bytes "e") none,
             .UnitRegex Counter.zero (.LiteralToken (bytes "Q") (bytes "q") 0)],
           .ChainRegex Counter.zero
            [.UnitRegex Counter.zero (.LiteralToken (bytes "P") (bytes "p") 0),
             .UnitRegex Counter.zero (.LiteralToken (bytes "Q") (bytes "q") 0)]])),
       .UnitRegex Counter.zero (.LiteralToken (bytes "Q") (bytes "q") 0)],
     .ChainRegex Counter.zero
      [.UnitRegex Counter.zero (.LiteralToken (bytes "P") (bytes "p") 0),
       .UnitRegex Counter.zero (.LiteralToken (bytes "Q") (bytes "q") 0)]]

/-- No `;` of the text is unescaped: read from the left, a `\` escapes the byte after
it, and `slash` says that the first byte is escaped. -/
def unterminated : Bool → Bytes → Bool
  | _, [] => true
  | true, _ :: cs => unterminated false cs
  | false, c :: cs =>
    if c = 92 then unterminated true cs else if c = 59 then false else unterminated false cs

/-- The text ends with `;`, holds no other `;` and holds no `\`. -/
def IsBodyText (s : Bytes) : Prop :=
  ∃ body : Bytes, s = body ++ [59] ∧ 59 ∉ body ∧ 92 ∉ body

/-- The model that `ReadAndWrite` builds from the file `tok A r = A \; A;`. -/
def bodyTextData : ChiselData :=
  ⟨[], [], [.SimpleToken (bytes "A")], [], [⟨bytes "r", bytes "A  A;"⟩],
    [⟨bytes "r", some (.ChainRegex Counter.zero
      [.UnitRegex Counter.zero (.SimpleToken (bytes "A")),
       .UnitRegex Counter.zero (.SimpleToken (bytes "A"))])⟩]⟩

/-! ## Reader lemmas -/

theorem skipWhitespaceLoop_of_dropWhile {rest : Bytes} {last : Option Nat} {c : Nat}
    {tail : Bytes} (h : rest.dropWhile IsSpace = c :: tail) :
    skipWhitespaceLoop rest last = ⟨tail, some c⟩ := by
  induction rest generalizing last with
  | nil => simp at h
  | cons x xs ih =>
    rw [skipWhitespaceLoop]
    by_cases hx : IsSpace x = true
    · rw [if_pos hx]
      rw [List.dropWhile_cons_of_pos hx] at h
      exact ih h
    · rw [if_neg hx]
      rw [List.dropWhile_cons_of_neg hx] at h
      injection h with h1 h2
      rw [h1, h2]

theorem skipWhitespace_of_dropWhile {r : Reader} {c : Nat} {tail : Bytes}
    (h : r.rest.dropWhile IsSpace = c :: tail) :
    skipWhitespace r = (none, ⟨c :: tail, none⟩) := by
  rw [skipWhitespace, skipWhitespaceLoop_of_dropWhile h]
  rfl

theorem readIdentifier_of_dropWhile {acc rest : Bytes} {last : Option Nat} {c : Nat}
    {tail : Bytes} (h : rest.dropWhile isValidId = c :: tail) :
    readIdentifier acc rest last = (acc ++ rest.takeWhile isValidId, ⟨c :: tail, none⟩) := by
  induction rest generalizing acc last with
  | nil => simp at h
  | cons x xs ih =>
    rw [readIdentifier]
    by_cases hx : isValidId x = true
    · rw [if_pos hx]
      rw [List.dropWhile_cons_of_pos hx] at h
      rw [ih h, List.takeWhile_cons_of_pos hx]
      simp
    · rw [if_neg hx]
      rw [List.dropWhile_cons_of_neg hx] at h
      rw [List.takeWhile_cons_of_neg hx]
      injection h with h1 h2
      simp [UnreadByte, h1, h2]

theorem mem_dropWhile_of_mem {p : Nat → Bool} {x : Nat} {l : Bytes} (hx : x ∈ l)
    (hp : p x = false) : x ∈ l.dropWhile p := by
  induction l with
  | nil => simp at hx
  | cons y ys ih =>
    by_cases hy : p y = true
    · rw [List.dropWhile_cons_of_pos hy]
      rcases List.mem_cons.mp hx with h | h
      · rw [h] at hp; rw [hp] at hy; exact absurd hy (by simp)
      · exact ih h
    · rw [List.dropWhile_cons_of_neg hy]; exact hx

theorem length_dropWhile_le_length (p : Nat → Bool) (l : Bytes) :
    (l.dropWhile p).length ≤ l.length := by
  induction l with
  | nil => simp
  | cons y ys ih =>
    by_cases hy : p y = true
    · rw [List.dropWhile_cons_of_pos hy]; simp; omega
    · rw [List.dropWhile_cons_of_neg hy]

theorem isSpace_false_of_isValidIdStarter {c : Nat} (h : isValidIdStarter c = true) :
    IsSpace c = false := by
  simp only [isValidIdStarter, Bool.or_eq_true, Bool.and_eq_true, decide_eq_true_eq,
    beq_iff_eq] at h
  simp only [IsSpace, Bool.or_eq_false_iff, beq_eq_false_iff_ne, ne_eq]
  omega

theorem ne_paren_of_isValidIdStarter {c : Nat} (h : isValidIdStarter c = true) : c ≠ 40 := by
  simp only [isValidIdStarter, Bool.or_eq_true, Bool.and_eq_true, decide_eq_true_eq,
    beq_iff_eq] at h
  omega

theorem dropWhile_append_stop {p : Nat → Bool} {ws : Bytes} {c : Nat} {t : Bytes}
    (hws : ∀ x ∈ ws, p x = true) (hc : p c = false) :
    (ws ++ c :: t).dropWhile p = c :: t := by
  induction ws with
  | nil => simp [List.dropWhile_cons, hc]
  | cons w ws ih =>
    rw [List.cons_append, List.dropWhile_cons_of_pos (hws w (List.mem_cons_self _ _))]
    exact ih (fun x hx => hws x (List.mem_cons_of_mem _ hx))

theorem takeWhile_append_stop {p : Nat → Bool} {cs tail : Bytes}
    (hcs : ∀ x ∈ cs, p x = true) (ht : ∀ x ∈ tail.head?, p x = false) :
    (cs ++ tail).takeWhile p = cs := by
  induction cs with
  | nil =>
    cases tail with
    | nil => rfl
    | cons x t =>
      have := ht x (by simp)
      simp [List.takeWhile_cons, this]
  | cons c cs ih =>
    rw [List.cons_append, List.takeWhile_cons_of_pos (hcs c (List.mem_cons_self _ _))]
    rw [ih (fun x hx => hcs x (List.mem_cons_of_mem _ hx))]

theorem readIdentifier_fst (acc rest : Bytes) (last : Option Nat) :
    (readIdentifier acc rest last).1 = acc ++ rest.takeWhile isValidId := by
  induction rest generalizing acc last with
  | nil => simp [readIdentifier]
  | cons x xs ih =>
    rw [readIdentifier]
    by_cases hx : isValidId x = true
    · rw [if_pos hx, ih, List.takeWhile_cons_of_pos hx]; simp
    · rw [if_neg hx, List.takeWhile_cons_of_neg hx]; simp

theorem find?_first {α : Type} (p : α → Bool) (pre : List α) (x : α) (post : List α)
    (hpre : ∀ t ∈ pre, p t = false) (hx : p x = true) :
    (pre ++ x :: post).find? p = some x := by
  induction pre with
  | nil => simp [List.find?_cons, hx]
  | cons a as ih =>
    rw [List.cons_append, List.find?_cons, hpre a (List.mem_cons_self _ _)]
    exact ih (fun t ht => hpre t (List.mem_cons_of_mem _ ht))

theorem find?_eq_none_of_forall {α : Type} (p : α → Bool) (l : List α)
    (h : ∀ x ∈ l, p x = false) : l.find? p = none := by
  induction l with
  | nil => rfl
  | cons a as ih =>
    rw [List.find?_cons, h a (List.mem_cons_self _ _)]
    exact ih (fun x hx => h x (List.mem_cons_of_mem _ hx))

/-- One identifier atom: what `parseAtom` does up to the lookup of the name. -/
theorem parseAtom_identifier (fuel : Nat) (data : ChiselData) (S : List Bytes)
    (ws : Bytes) (c : Nat) (cs tail : Bytes) (last : Option Nat)
    (hws : ∀ x ∈ ws, IsSpace x = true) (hc : isValidIdStarter c = true)
    (hcs : ∀ x ∈ cs, isValidId x = true) (htail : EndsIdentifier tail) :
    parseAtom (fuel + 1) data S ⟨ws ++ (c :: cs) ++ tail, last⟩ =
      match data.Tokens.find? (fun token => TokenName token == c :: cs) with
      | some token =>
        .ok (.UnitRegex Counter.zero token, (readIdentifier [c] (cs ++ tail) (some c)).2)
      | none =>
        match data.SimpleConstructs.find? (fun construct => construct.Name == c :: cs) with
        | some construct =>
          if S.contains construct.Name then
            .ok (.NestedRegex Counter.zero construct.Name none,
              (readIdentifier [c] (cs ++ tail) (some c)).2)
          else
            match createConstructValueWithStack fuel data construct.Value
                (construct.Name :: S) with
            | .timeout => .timeout
            | .error e => .error e
            | .ok regex => .ok (.NestedRegex Counter.zero construct.Name (some regex),
                (readIdentifier [c] (cs ++ tail) (some c)).2)
        | none => .error (.undefinedName (c :: cs)) := by
  have hd : (ws ++ (c :: cs) ++ tail).dropWhile IsSpace = c :: (cs ++ tail) := by
    rw [List.append_assoc, List.cons_append]
    exact dropWhile_append_stop hws (isSpace_false_of_isValidIdStarter hc)
  have hname : (readIdentifier [c] (cs ++ tail) (some c)).1 = c :: cs := by
    rw [readIdentifier_fst, takeWhile_append_stop hcs htail]; rfl
  rw [parseAtom, skipWhitespace_of_dropWhile hd]
  simp only [ReadByte, if_neg (ne_paren_of_isValidIdStarter hc), if_pos hc, hname]

theorem readIdentifier_snd_of_stop (c : Nat) (cs : Bytes) (x : Nat) (t : Bytes)
    (hcs : ∀ y ∈ cs, isValidId y = true) (hx : isValidId x = false) :
    (readIdentifier [c] (cs ++ x :: t) (some c)).2 = ⟨x :: t, none⟩ := by
  rw [readIdentifier_of_dropWhile (dropWhile_append_stop hcs hx)]

theorem parseFactor_token (k : Nat) (data : ChiselData) (S : List Bytes)
    (ws : Bytes) (c : Nat) (cs tail : Bytes) (last : Option Nat) (tok : Token)
    (y : Nat) (t : Bytes)
    (hws : ∀ x ∈ ws, IsSpace x = true) (hc : isValidIdStarter c = true)
    (hcs : ∀ x ∈ cs, isValidId x = true) (htail : EndsIdentifier tail)
    (hd : tail.dropWhile IsSpace = y :: t) (hy : y ≠ 42 ∧ y ≠ 43 ∧ y ≠ 63)
    (hfind : data.Tokens.find? (fun token => TokenName token == c :: cs) = some tok) :
    parseFactor (k + 2) data S ⟨ws ++ (c :: cs) ++ tail, last⟩ =
      .ok (.UnitRegex Counter.zero tok, ⟨y :: t, none⟩) := by
  rw [parseFactor, parseAtom_identifier k data S ws c cs tail last hws hc hcs htail, hfind]
  dsimp only
  cases tail with
  | nil => simp at hd
  | cons x xs =>
    have hx : isValidId x = false := htail x (by simp)
    rw [readIdentifier_snd_of_stop c cs x xs hcs hx]
    have hs : skipWhitespace ⟨x :: xs, none⟩ = (none, ⟨y :: t, none⟩) :=
      skipWhitespace_of_dropWhile hd
    rw [hs]
    simp only [ReadByte, if_neg hy.1, if_neg hy.2.1, if_neg hy.2.2, UnreadByte]

theorem isSpace_false_of_terminator {y : Nat} (hy : y = 41 ∨ y = 124 ∨ y = 59) :
    IsSpace y = false := by
  rcases hy with h | h | h <;> subst h <;> rfl

theorem not_terminator_of_isValidIdStarter {c : Nat} (h : isValidIdStarter c = true) :
    ¬ (c = 41 ∨ c = 124 ∨ c = 59) := by
  simp only [isValidIdStarter, Bool.or_eq_true, Bool.and_eq_true, decide_eq_true_eq,
    beq_iff_eq] at h
  omega

theorem parseTerm_token (k : Nat) (data : ChiselData) (S : List Bytes)
    (ws : Bytes) (c : Nat) (cs tail : Bytes) (last : Option Nat) (tok : Token)
    (y : Nat) (t : Bytes)
    (hws : ∀ x ∈ ws, IsSpace x = true) (hc : isValidIdStarter c = true)
    (hcs : ∀ x ∈ cs, isValidId x = true) (htail : EndsIdentifier tail)
    (hd : tail.dropWhile IsSpace = y :: t) (hy : y = 41 ∨ y = 124 ∨ y = 59)
    (hfind : data.Tokens.find? (fun token => TokenName token == c :: cs) = some tok) :
    parseTerm (k + 4) data S ⟨ws ++ (c :: cs) ++ tail, last⟩ =
      .ok (.UnitRegex Counter.zero tok, ⟨y :: t, none⟩) := by
  have hd0 : (ws ++ (c :: cs) ++ tail).dropWhile IsSpace = c :: (cs ++ tail) := by
    rw [List.append_assoc, List.cons_append]
    exact dropWhile_append_stop hws (isSpace_false_of_isValidIdStarter hc)
  have hF := parseFactor_token k data S [] c cs tail none tok y t
    (fun x hx => absurd hx (List.not_mem_nil x)) hc hcs htail hd (by omega) hfind
  have hd1 : (y :: t).dropWhile IsSpace = y :: t := by
    rw [List.dropWhile_cons_of_neg (by rw [isSpace_false_of_terminator hy]; simp)]
  rw [parseTerm, parseTermLoop, skipWhitespace_of_dropWhile hd0]
  simp only [ReadByte, if_neg (not_terminator_of_isValidIdStarter hc), UnreadByte]
  simp only [List.nil_append, List.cons_append] at hF
  simp only [List.nil_append, hF]
  rw [parseTermLoop, skipWhitespace_of_dropWhile hd1]
  simp only [ReadByte, if_pos hy, UnreadByte, finishTerm]

theorem endsIdentifier_orTail (names : List Bytes) : EndsIdentifier (orTail names) := by
  cases names with
  | nil => intro x hx; have : x = 59 := by simpa [orTail, bytes] using hx.symm
           rw [this]; rfl
  | cons n ns => intro x hx; have : x = 32 := by simpa [orTail, bytes] using hx.symm
                 rw [this]; rfl

theorem dropWhile_orTail (names : List Bytes) :
    ∃ y t, (orTail names).dropWhile IsSpace = y :: t ∧ (y = 41 ∨ y = 124 ∨ y = 59) := by
  cases names with
  | nil => exact ⟨59, [], rfl, by omega⟩
  | cons n ns => exact ⟨124, 32 :: (n ++ orTail ns), rfl, by omega⟩

theorem parseExpressionLoop_orTail (data : ChiselData) (S : List Bytes)
    (names : List Bytes) (toks : List Token)
    (hres : List.Forall₂ (ResolvesToToken data) names toks) :
    ∀ (alts : List Regex) (k : Nat),
      parseExpressionLoop (k + names.length + 4) data S alts
          ⟨(orTail names).dropWhile IsSpace, none⟩ =
        .ok (finishExpression (alts ++ toks.map (.UnitRegex Counter.zero)),
          ⟨bytes ";", none⟩) := by
  induction hres with
  | nil =>
    intro alts k
    rw [parseExpressionLoop]
    simp
    rfl
  | @cons name tok names toks hhead _ ih =>
    intro alts k
    obtain ⟨⟨c, cs, hn, hc, hcs⟩, hfind⟩ := hhead
    subst hn
    obtain ⟨y, t, hd, hy⟩ := dropWhile_orTail names
    have hT := parseTerm_token (k + names.length) data S [32] c cs (orTail names) (some 124)
      tok y t (by decide) hc hcs (endsIdentifier_orTail names) hd hy hfind
    have hfuel : k + ((c :: cs) :: names).length + 4 = (k + names.length + 4) + 1 := by
      simp only [List.length_cons]; omega
    have hstart : (orTail ((c :: cs) :: names)).dropWhile IsSpace =
        124 :: ([32] ++ (c :: cs) ++ orTail names) := rfl
    have hs : skipWhitespace ⟨124 :: ([32] ++ (c :: cs) ++ orTail names), none⟩ =
        (none, ⟨124 :: ([32] ++ (c :: cs) ++ orTail names), none⟩) :=
      skipWhitespace_of_dropWhile rfl
    rw [hfuel, hstart, parseExpressionLoop, hs]
    simp only [ReadByte, if_true, hT]
    rw [← hd, ih (alts ++ [Regex.UnitRegex Counter.zero tok]) k]
    simp

/-! ## Fuel -/

theorem Result.ne_timeout_of_ok {α : Type} {x : Result α} {a : α} (h : x = .ok a) :
    x ≠ .timeout := by
  rw [h]; exact fun h => Result.noConfusion h

theorem Result.ne_timeout_of_error {α : Type} {x : Result α} {e : Error} (h : x = .error e) :
    x ≠ .timeout := by
  rw [h]; exact fun h => Result.noConfusion h

theorem fuel_step (n : Nat) :
    (∀ d S r, parseExpression n d S r ≠ .timeout →
      parseExpression (n + 1) d S r = parseExpression n d S r) ∧
    (∀ d S a r, parseExpressionLoop n d S a r ≠ .timeout →
      parseExpressionLoop (n + 1) d S a r = parseExpressionLoop n d S a r) ∧
    (∀ d S r, parseTerm n d S r ≠ .timeout →
      parseTerm (n + 1) d S r = parseTerm n d S r) ∧
    (∀ d S a r, parseTermLoop n d S a r ≠ .timeout →
      parseTermLoop (n + 1) d S a r = parseTermLoop n d S a r) ∧
    (∀ d S r, parseFactor n d S r ≠ .timeout →
      parseFactor (n + 1) d S r = parseFactor n d S r) ∧
    (∀ d S r, parseAtom n d S r ≠ .timeout →
      parseAtom (n + 1) d S r = parseAtom n d S r) ∧
    (∀ d v S, createConstructValueWithStack n d v S ≠ .timeout →
      createConstructValueWithStack (n + 1) d v S = createConstructValueWithStack n d v S) := by
  induction n with
  | zero =>
    refine ⟨?_, ?_, ?_, ?_, ?_, ?_, ?_⟩ <;> intros <;> rename_i h <;> exact absurd rfl h
  | succ n ih =>
    obtain ⟨ihE, ihEL, ihT, ihTL, ihF, ihA, ihC⟩ := ih
    refine ⟨?_, ?_, ?_, ?_, ?_, ?_, ?_⟩
    · intro d S r h
      rw [parseExpression] at h
      rw [parseExpression, parseExpression]
      cases hT : parseTerm n d S r with
      | timeout => rw [hT] at h; exact absurd rfl h
      | error e => rw [ihT d S r (Result.ne_timeout_of_error hT), hT]
      | ok p =>
        rw [ihT d S r (Result.ne_timeout_of_ok hT), hT]
        rw [hT] at h
        exact ihEL d S _ _ h
    · intro d S a r h
      rw [parseExpressionLoop] at h
      rw [parseExpressionLoop, parseExpressionLoop]
      split
      · rfl
      · split
        · rfl
        · split
          · rename_i _ r1 hs _ b r2 hr hb
            simp only [hs, hr, hb, if_true] at h
            cases hT : parseTerm n d S r2 with
            | timeout => rw [hT] at h; exact absurd rfl h
            | error e => rw [ihT d S _ (Result.ne_timeout_of_error hT), hT]
            | ok p =>
              rw [ihT d S _ (Result.ne_timeout_of_ok hT), hT]
              rw [hT] at h
              exact ihEL d S _ _ h
          · rfl
    · intro d S r h
      rw [parseTerm] at h
      rw [parseTerm, parseTerm]
      exact ihTL d S _ _ h
    · intro d S a r h
      rw [parseTermLoop] at h
      rw [parseTermLoop, parseTermLoop]
      split
      · rfl
      · split
        · rfl
        · split
          · rfl
          · rename_i _ r1 hs _ b r2 hr hb
            simp only [hs, hr, hb, if_false] at h
            cases hT : parseFactor n d S (UnreadByte r2).2 with
            | timeout => rw [hT] at h; exact absurd rfl h
            | error e => rw [ihF d S _ (Result.ne_timeout_of_error hT), hT]
            | ok p =>
              rw [ihF d S _ (Result.ne_timeout_of_ok hT), hT]
              rw [hT] at h
              exact ihTL d S _ _ h
    · intro d S r h
      rw [parseFactor] at h
      rw [parseFactor, parseFactor]
      cases hT : parseAtom n d S r with
      | timeout => rw [hT] at h; exact absurd rfl h
      | error e => rw [ihA d S r (Result.ne_timeout_of_error hT), hT]
      | ok p => rw [ihA d S r (Result.ne_timeout_of_ok hT), hT]
    · intro d S r h
      rw [parseAtom] at h
      rw [parseAtom, parseAtom]
      split
      · rfl
      · split
        · rfl
        · split
          · rename_i _ r1 hs _ c r2 hr hc
            simp only [hs, hr, hc, if_true] at h
            cases hT : parseExpression n d S r2 with
            | timeout => rw [hT] at h; exact absurd rfl h
            | error e => rw [ihE d S _ (Result.ne_timeout_of_error hT), hT]
            | ok p => rw [ihE d S _ (Result.ne_timeout_of_ok hT), hT]
          · split
            · rename_i _ r1 hs _ c r2 hr hc hid
              simp only [hs, hr, hc, hid, if_true, if_false] at h
              split
              rename_i _ name r3 hn
              rw [hn] at h
              dsimp only at h
              split
              · rfl
              · split
                · split
                  · rfl
                  · rename_i _ htok _ construct hcon hstack
                    simp only [htok, hcon, hstack] at h
                    cases hT : createConstructValueWithStack n d construct.Value
                        (construct.Name :: S) with
                    | timeout => rw [hT] at h; simp at h
                    | error e => rw [ihC d _ _ (Result.ne_timeout_of_error hT), hT]
                    | ok p => rw [ihC d _ _ (Result.ne_timeout_of_ok hT), hT]
                · rfl
            · rfl
    · intro d v S h
      rw [createConstructValueWithStack] at h
      rw [createConstructValueWithStack, createConstructValueWithStack]
      cases hT : parseExpression n d S (NewReader v) with
      | timeout => rw [hT] at h; exact absurd rfl h
      | error e => rw [ihE d S _ (Result.ne_timeout_of_error hT), hT]
      | ok p => rw [ihE d S _ (Result.ne_timeout_of_ok hT), hT]

theorem fuel_mono_of_step {α : Type} (f : Nat → Result α)
    (hstep : ∀ n, f n ≠ .timeout → f (n + 1) = f n) {n m : Nat} (hnm : n ≤ m)
    (h : f n ≠ .timeout) : f m = f n := by
  induction hnm with
  | refl => rfl
  | step _ ih => rw [hstep _ (by rw [ih]; exact h), ih]

theorem parseExpression_mono {n m : Nat} (hnm : n ≤ m) {d : ChiselData} {S : List Bytes}
    {r : Reader} (h : parseExpression n d S r ≠ .timeout) :
    parseExpression m d S r = parseExpression n d S r :=
  fuel_mono_of_step (fun k => parseExpression k d S r) (fun k => (fuel_step k).1 d S r) hnm h

theorem parseExpressionLoop_mono {n m : Nat} (hnm : n ≤ m) {d : ChiselData} {S : List Bytes}
    {a : List Regex} {r : Reader} (h : parseExpressionLoop n d S a r ≠ .timeout) :
    parseExpressionLoop m d S a r = parseExpressionLoop n d S a r :=
  fuel_mono_of_step (fun k => parseExpressionLoop k d S a r)
    (fun k => (fuel_step k).2.1 d S a r) hnm h

theorem parseTerm_mono {n m : Nat} (hnm : n ≤ m) {d : ChiselData} {S : List Bytes}
    {r : Reader} (h : parseTerm n d S r ≠ .timeout) :
    parseTerm m d S r = parseTerm n d S r :=
  fuel_mono_of_step (fun k => parseTerm k d S r) (fun k => (fuel_step k).2.2.1 d S r) hnm h

theorem parseTermLoop_mono {n m : Nat} (hnm : n ≤ m) {d : ChiselData} {S : List Bytes}
    {a : List Regex} {r : Reader} (h : parseTermLoop n d S a r ≠ .timeout) :
    parseTermLoop m d S a r = parseTermLoop n d S a r :=
  fuel_mono_of_step (fun k => parseTermLoop k d S a r)
    (fun k => (fuel_step k).2.2.2.1 d S a r) hnm h

theorem parseFactor_mono {n m : Nat} (hnm : n ≤ m) {d : ChiselData} {S : List Bytes}
    {r : Reader} (h : parseFactor n d S r ≠ .timeout) :
    parseFactor m d S r = parseFactor n d S r :=
  fuel_mono_of_step (fun k => parseFactor k d S r) (fun k => (fuel_step k).2.2.2.2.1 d S r) hnm h

theorem parseAtom_mono {n m : Nat} (hnm : n ≤ m) {d : ChiselData} {S : List Bytes}
    {r : Reader} (h : parseAtom n d S r ≠ .timeout) :
    parseAtom m d S r = parseAtom n d S r :=
  fuel_mono_of_step (fun k => parseAtom k d S r) (fun k => (fuel_step k).2.2.2.2.2.1 d S r) hnm h

theorem createConstructValueWithStack_mono {n m : Nat} (hnm : n ≤ m) {d : ChiselData}
    {v : Bytes} {S : List Bytes} (h : createConstructValueWithStack n d v S ≠ .timeout) :
    createConstructValueWithStack m d v S = createConstructValueWithStack n d v S :=
  fuel_mono_of_step (fun k => createConstructValueWithStack k d v S)
    (fun k => (fuel_step k).2.2.2.2.2.2 d v S) hnm h

/-! ## Termination on bodies that hold a `;` -/

theorem Progress.ne_timeout {bound k : Nat} {res : Result (Regex × Reader)}
    (h : Progress bound k res) : res ≠ .timeout := by
  intro h'; rw [h'] at h; exact h

theorem Progress.weaken {bound k bound' k' : Nat} {res : Result (Regex × Reader)}
    (h : Progress bound k res) (hb : bound + k' ≤ bound' + k) : Progress bound' k' res := by
  match res, h with
  | .error _, _ => trivial
  | .ok (_, r'), h => exact ⟨h.1, by have := h.2; omega⟩

theorem semicolon_ready {l : Bytes} (h : 59 ∈ l) :
    ∃ c tail, l.dropWhile IsSpace = c :: tail ∧ 59 ∈ c :: tail ∧
      (c :: tail).length ≤ l.length := by
  have hm : 59 ∈ l.dropWhile IsSpace := mem_dropWhile_of_mem h (by decide)
  have hl := length_dropWhile_le_length IsSpace l
  cases hd : l.dropWhile IsSpace with
  | nil => rw [hd] at hm; simp at hm
  | cons c tail => rw [hd] at hm hl; exact ⟨c, tail, rfl, hm, hl⟩

theorem halts_atom (data : ChiselData) (S : List Bytes)
    (HC : ∀ c ∈ data.SimpleConstructs, S.contains c.Name = false →
      ∃ n, createConstructValueWithStack n data c.Value (c.Name :: S) ≠ .timeout)
    (len : Nat)
    (hE : ∀ r : Reader, r.rest.length ≤ len → 59 ∈ r.rest →
      ∃ n, Progress r.rest.length 0 (parseExpression n data S r))
    (r : Reader) (hlen : r.rest.length ≤ len + 1) (hsemi : 59 ∈ r.rest) :
    ∃ n, Progress r.rest.length 1 (parseAtom n data S r) := by
  obtain ⟨c, tail, hd, hm, hl⟩ := semicolon_ready hsemi
  by_cases hc : c = 40
  · subst hc
    have hm' : 59 ∈ tail := by simpa using hm
    have hlt : tail.length ≤ len := by simp at hl; omega
    obtain ⟨n, hn⟩ := hE ⟨tail, some 40⟩ hlt hm'
    refine ⟨n + 1, ?_⟩
    rw [parseAtom, skipWhitespace_of_dropWhile hd]
    simp only [ReadByte, if_true]
    cases hT : parseExpression n data S ⟨tail, some 40⟩ with
    | timeout => rw [hT] at hn; exact hn.elim
    | error e => trivial
    | ok p =>
      obtain ⟨inner, r3⟩ := p
      rw [hT] at hn
      obtain ⟨c2, tail2, hd2, hm2, hl2⟩ := semicolon_ready hn.1
      dsimp only
      rw [skipWhitespace_of_dropWhile hd2]
      simp only [ReadByte]
      by_cases hc2 : c2 = 41
      · subst hc2
        simp only [ne_eq, not_true_eq_false, if_false]
        refine ⟨by simpa using hm2, ?_⟩
        have := hn.2
        simp at hl hl2 this ⊢
        omega
      · simp only [ne_eq, hc2, not_false_eq_true, if_true]
        trivial
  · by_cases hid : isValidIdStarter c = true
    · have hm' : 59 ∈ tail := by
        rcases List.mem_cons.mp hm with h | h
        · rw [← h] at hid; exact absurd hid (by decide)
        · exact h
      have hmd : 59 ∈ tail.dropWhile isValidId := mem_dropWhile_of_mem hm' (by decide)
      have hld := length_dropWhile_le_length isValidId tail
      cases hdd : tail.dropWhile isValidId with
      | nil => rw [hdd] at hmd; simp at hmd
      | cons c3 tail3 =>
        rw [hdd] at hmd hld
        have hfin : (c3 :: tail3).length + 1 ≤ r.rest.length := by
          simp at hl hld ⊢; omega
        have hrd : readIdentifier [c] tail (some c) =
            ([c] ++ tail.takeWhile isValidId, ⟨c3 :: tail3, none⟩) :=
          readIdentifier_of_dropWhile hdd
        cases htok : data.Tokens.find? (fun token => TokenName token ==
            [c] ++ tail.takeWhile isValidId) with
        | some token =>
          refine ⟨1, ?_⟩
          rw [parseAtom, skipWhitespace_of_dropWhile hd]
          simp only [ReadByte, if_neg hc, if_pos hid, hrd, htok]
          exact ⟨hmd, hfin⟩
        | none =>
          cases hcon : data.SimpleConstructs.find? (fun construct => construct.Name ==
              [c] ++ tail.takeWhile isValidId) with
          | none =>
            refine ⟨1, ?_⟩
            rw [parseAtom, skipWhitespace_of_dropWhile hd]
            simp only [ReadByte, if_neg hc, if_pos hid, hrd, htok, hcon]
            trivial
          | some construct =>
            by_cases hst : S.contains construct.Name = true
            · refine ⟨1, ?_⟩
              rw [parseAtom, skipWhitespace_of_dropWhile hd]
              simp only [ReadByte, if_neg hc, if_pos hid, hrd, htok, hcon, if_pos hst]
              exact ⟨hmd, hfin⟩
            · obtain ⟨n, hn⟩ := HC construct (List.mem_of_find?_eq_some hcon)
                (by simpa using hst)
              refine ⟨n + 1, ?_⟩
              rw [parseAtom, skipWhitespace_of_dropWhile hd]
              simp only [ReadByte, if_neg hc, if_pos hid, hrd, htok, hcon, if_neg hst]
              cases hT : createConstructValueWithStack n data construct.Value
                  (construct.Name :: S) with
              | timeout => exact absurd hT hn
              | error e => trivial
              | ok regex => exact ⟨hmd, hfin⟩
    · refine ⟨1, ?_⟩
      rw [parseAtom, skipWhitespace_of_dropWhile hd]
      simp only [ReadByte, if_neg hc, if_neg hid]
      trivial

theorem halts_factor (data : ChiselData) (S : List Bytes) (r : Reader)
    (hA : ∃ n, Progress r.rest.length 1 (parseAtom n data S r)) :
    ∃ n, Progress r.rest.length 1 (parseFactor n data S r) := by
  obtain ⟨n, hn⟩ := hA
  refine ⟨n + 1, ?_⟩
  rw [parseFactor]
  cases hT : parseAtom n data S r with
  | timeout => rw [hT] at hn; exact hn.elim
  | error e => trivial
  | ok p =>
    obtain ⟨atom, r1⟩ := p
    rw [hT] at hn
    obtain ⟨c, tail, hd, hm, hl⟩ := semicolon_ready hn.1
    have h2 := hn.2
    dsimp only
    rw [skipWhitespace_of_dropWhile hd]
    simp only [ReadByte]
    have hm' : c ≠ 59 → 59 ∈ tail := by
      intro hc
      rcases List.mem_cons.mp hm with h | h
      · exact absurd h.symm hc
      · exact h
    have hlt : tail.length + 1 ≤ r.rest.length := by simp at hl; omega
    by_cases h42 : c = 42
    · rw [if_pos h42]; exact ⟨hm' (by omega), hlt⟩
    · rw [if_neg h42]
      by_cases h43 : c = 43
      · rw [if_pos h43]; exact ⟨hm' (by omega), hlt⟩
      · rw [if_neg h43]
        by_cases h63 : c = 63
        · rw [if_pos h63]; exact ⟨hm' (by omega), hlt⟩
        · rw [if_neg h63]
          exact ⟨hm, by simp [UnreadByte] at hl ⊢; omega⟩

theorem halts_termLoop (data : ChiselData) (S : List Bytes) (len : Nat)
    (hF : ∀ r : Reader, r.rest.length ≤ len + 1 → 59 ∈ r.rest →
      ∃ n, Progress r.rest.length 1 (parseFactor n data S r))
    (hTL : ∀ (r : Reader) (a : List Regex), r.rest.length ≤ len → 59 ∈ r.rest →
      ∃ n, Progress r.rest.length 0 (parseTermLoop n data S a r))
    (r : Reader) (a : List Regex) (hlen : r.rest.length ≤ len + 1) (hsemi : 59 ∈ r.rest) :
    ∃ n, Progress r.rest.length 0 (parseTermLoop n data S a r) := by
  obtain ⟨c, tail, hd, hm, hl⟩ := semicolon_ready hsemi
  by_cases hc : c = 41 ∨ c = 124 ∨ c = 59
  · refine ⟨1, ?_⟩
    rw [parseTermLoop, skipWhitespace_of_dropWhile hd]
    simp only [ReadByte, if_pos hc, UnreadByte]
    match a with
    | [] => trivial
    | [f] => exact ⟨hm, hl⟩
    | f :: g :: t => exact ⟨hm, hl⟩
  · obtain ⟨n1, hn1⟩ := hF ⟨c :: tail, none⟩ (le_trans hl hlen) hm
    cases hT : parseFactor n1 data S ⟨c :: tail, none⟩ with
    | timeout => rw [hT] at hn1; exact hn1.elim
    | error e =>
      refine ⟨n1 + 1, ?_⟩
      rw [parseTermLoop, skipWhitespace_of_dropWhile hd]
      simp only [ReadByte, if_neg hc, UnreadByte, hT]
      trivial
    | ok p =>
      obtain ⟨factor, r3⟩ := p
      rw [hT] at hn1
      have h3 : r3.rest.length ≤ len := by
        have := hn1.2; simp at this hl; omega
      obtain ⟨n2, hn2⟩ := hTL r3 (a ++ [factor]) h3 hn1.1
      refine ⟨max n1 n2 + 1, ?_⟩
      rw [parseTermLoop, skipWhitespace_of_dropWhile hd]
      simp only [ReadByte, if_neg hc, UnreadByte]
      rw [parseFactor_mono (le_max_left n1 n2) (Result.ne_timeout_of_ok hT), hT]
      dsimp only
      rw [parseTermLoop_mono (le_max_right n1 n2) hn2.ne_timeout]
      exact hn2.weaken (by have := hn1.2; simp at this hl; omega)

theorem halts_term (data : ChiselData) (S : List Bytes) (r : Reader)
    (hTL : ∃ n, Progress r.rest.length 0 (parseTermLoop n data S [] r)) :
    ∃ n, Progress r.rest.length 0 (parseTerm n data S r) := by
  obtain ⟨n, hn⟩ := hTL
  exact ⟨n + 1, by rw [parseTerm]; exact hn⟩

theorem halts_expressionLoop (data : ChiselData) (S : List Bytes) (len : Nat)
    (hT : ∀ r : Reader, r.rest.length ≤ len → 59 ∈ r.rest →
      ∃ n, Progress r.rest.length 0 (parseTerm n data S r))
    (hEL : ∀ (r : Reader) (a : List Regex), r.rest.length ≤ len → 59 ∈ r.rest →
      ∃ n, Progress r.rest.length 0 (parseExpressionLoop n data S a r))
    (r : Reader) (a : List Regex) (hlen : r.rest.length ≤ len + 1) (hsemi : 59 ∈ r.rest) :
    ∃ n, Progress r.rest.length 0 (parseExpressionLoop n data S a r) := by
  obtain ⟨c, tail, hd, hm, hl⟩ := semicolon_ready hsemi
  by_cases hc : c = 124
  · subst hc
    have hm' : 59 ∈ tail := by simpa using hm
    have hlt : tail.length ≤ len := by simp at hl; omega
    obtain ⟨n1, hn1⟩ := hT ⟨tail, some 124⟩ hlt hm'
    cases hP : parseTerm n1 data S ⟨tail, some 124⟩ with
    | timeout => rw [hP] at hn1; exact hn1.elim
    | error e =>
      refine ⟨n1 + 1, ?_⟩
      rw [parseExpressionLoop, skipWhitespace_of_dropWhile hd]
      simp only [ReadByte, if_true, hP]
      trivial
    | ok p =>
      obtain ⟨right, r3⟩ := p
      rw [hP] at hn1
      have h3 : r3.rest.length ≤ len := by
        have := hn1.2; simp at this; omega
      obtain ⟨n2, hn2⟩ := hEL r3 (a ++ [right]) h3 hn1.1
      refine ⟨max n1 n2 + 1, ?_⟩
      rw [parseExpressionLoop, skipWhitespace_of_dropWhile hd]
      simp only [ReadByte, if_true]
      rw [parseTerm_mono (le_max_left n1 n2) (Result.ne_timeout_of_ok hP), hP]
      dsimp only
      rw [parseExpressionLoop_mono (le_max_right n1 n2) hn2.ne_timeout]
      exact hn2.weaken (by have := hn1.2; simp at this hl; omega)
  · refine ⟨1, ?_⟩
    rw [parseExpressionLoop, skipWhitespace_of_dropWhile hd]
    simp only [ReadByte, if_neg hc, UnreadByte]
    exact ⟨hm, hl⟩

theorem halts_expression (data : ChiselData) (S : List Bytes) (r : Reader)
    (hT : ∃ n, Progress r.rest.length 0 (parseTerm n data S r))
    (hEL : ∀ (r' : Reader) (a : List Regex), r'.rest.length ≤ r.rest.length → 59 ∈ r'.rest →
      ∃ n, Progress r'.rest.length 0 (parseExpressionLoop n data S a r')) :
    ∃ n, Progress r.rest.length 0 (parseExpression n data S r) := by
  obtain ⟨n1, hn1⟩ := hT
  cases hP : parseTerm n1 data S r with
  | timeout => rw [hP] at hn1; exact hn1.elim
  | error e => exact ⟨n1 + 1, by rw [parseExpression, hP]; trivial⟩
  | ok p =>
    obtain ⟨left, r1⟩ := p
    rw [hP] at hn1
    obtain ⟨n2, hn2⟩ := hEL r1 [left] (by have := hn1.2; omega) hn1.1
    refine ⟨max n1 n2 + 1, ?_⟩
    rw [parseExpression, parseTerm_mono (le_max_left n1 n2) (Result.ne_timeout_of_ok hP), hP]
    dsimp only
    rw [parseExpressionLoop_mono (le_max_right n1 n2) hn2.ne_timeout]
    exact hn2.weaken (by have := hn1.2; omega)

theorem halts_body (data : ChiselData) (S : List Bytes)
    (HC : ∀ c ∈ data.SimpleConstructs, S.contains c.Name = false →
      ∃ n, createConstructValueWithStack n data c.Value (c.Name :: S) ≠ .timeout)
    (len : Nat) :
    (∀ r : Reader, r.rest.length ≤ len → 59 ∈ r.rest →
      ∃ n, Progress r.rest.length 0 (parseExpression n data S r)) ∧
    (∀ (r : Reader) (a : List Regex), r.rest.length ≤ len → 59 ∈ r.rest →
      ∃ n, Progress r.rest.length 0 (parseTermLoop n data S a r)) ∧
    (∀ (r : Reader) (a : List Regex), r.rest.length ≤ len → 59 ∈ r.rest →
      ∃ n, Progress r.rest.length 0 (parseExpressionLoop n data S a r)) := by
  induction len with
  | zero =>
    refine ⟨?_, ?_, ?_⟩
    · intro r hl hs; rw [List.length_eq_zero.mp (Nat.le_zero.mp hl)] at hs; simp at hs
    · intro r a hl hs; rw [List.length_eq_zero.mp (Nat.le_zero.mp hl)] at hs; simp at hs
    · intro r a hl hs; rw [List.length_eq_zero.mp (Nat.le_zero.mp hl)] at hs; simp at hs
  | succ len ih =>
    obtain ⟨ihE, ihTL, ihEL⟩ := ih
    have hA := halts_atom data S HC len ihE
    have hF : ∀ r : Reader, r.rest.length ≤ len + 1 → 59 ∈ r.rest →
        ∃ n, Progress r.rest.length 1 (parseFactor n data S r) :=
      fun r hl hs => halts_factor data S r (hA r hl hs)
    have hTL := halts_termLoop data S len hF ihTL
    have hT : ∀ r : Reader, r.rest.length ≤ len + 1 → 59 ∈ r.rest →
        ∃ n, Progress r.rest.length 0 (parseTerm n data S r) :=
      fun r hl hs => halts_term data S r (hTL r [] hl hs)
    have hEL := halts_expressionLoop data S len
      (fun r hl hs => hT r (Nat.le_succ_of_le hl) hs) ihEL
    refine ⟨?_, hTL, hEL⟩
    intro r hl hs
    exact halts_expression data S r (hT r hl hs)
      (fun r' a hl' hs' => hEL r' a (le_trans hl' hl) hs')



theorem filter_length_le {α : Type} (p q : α → Bool) (hpq : ∀ x, p x = true → q x = true)
    (l : List α) : (l.filter p).length ≤ (l.filter q).length := by
  induction l with
  | nil => simp
  | cons x xs ih =>
    by_cases hp : p x = true
    · rw [List.filter_cons_of_pos hp, List.filter_cons_of_pos (hpq x hp)]
      simp only [List.length_cons]; omega
    · rw [List.filter_cons_of_neg hp]
      by_cases hq : q x = true
      · rw [List.filter_cons_of_pos hq]; simp only [List.length_cons]; omega
      · rw [List.filter_cons_of_neg hq]; exact ih

theorem filter_length_lt {α : Type} (p q : α → Bool) (hpq : ∀ x, p x = true → q x = true)
    (l : List α) (c : α) (hc : c ∈ l) (hqc : q c = true) (hpc : ¬ p c = true) :
    (l.filter p).length < (l.filter q).length := by
  induction l with
  | nil => simp at hc
  | cons x xs ih =>
    rcases List.mem_cons.mp hc with h | h
    · subst h
      rw [List.filter_cons_of_neg hpc, List.filter_cons_of_pos hqc]
      have := filter_length_le p q hpq xs
      simp only [List.length_cons]; omega
    · have := ih h
      by_cases hp : p x = true
      · rw [List.filter_cons_of_pos hp, List.filter_cons_of_pos (hpq x hp)]
        simp only [List.length_cons]; omega
      · rw [List.filter_cons_of_neg hp]
        by_cases hq : q x = true
        · rw [List.filter_cons_of_pos hq]; simp only [List.length_cons]; omega
        · rw [List.filter_cons_of_neg hq]; exact this

theorem offStack_cons_lt (data : ChiselData) (S : List Bytes) (c : SimpleConstruct)
    (hc : c ∈ data.SimpleConstructs) (hS : S.contains c.Name = false) :
    offStack data (c.Name :: S) < offStack data S := by
  unfold offStack
  apply filter_length_lt _ _ _ _ c hc
  · rw [hS]; rfl
  · simp
  · intro x hx
    simp at hx ⊢
    exact hx.2

theorem halts_create (data : ChiselData)
    (hbodies : ∀ c ∈ data.SimpleConstructs, 59 ∈ c.Value) (k : Nat) :
    ∀ (S : List Bytes), offStack data S ≤ k → ∀ value : Bytes, 59 ∈ value →
      ∃ n, createConstructValueWithStack n data value S ≠ .timeout := by
  induction k with
  | zero =>
    intro S hS value hv
    have HC : ∀ c ∈ data.SimpleConstructs, S.contains c.Name = false →
        ∃ n, createConstructValueWithStack n data c.Value (c.Name :: S) ≠ .timeout := by
      intro c hc hcS
      have := offStack_cons_lt data S c hc hcS
      omega
    obtain ⟨n, hn⟩ := (halts_body data S HC value.length).1 (NewReader value) (le_refl _) hv
    refine ⟨n + 1, ?_⟩
    rw [createConstructValueWithStack]
    cases hT : parseExpression n data S (NewReader value) with
    | timeout => rw [hT] at hn; exact hn.elim
    | error e => exact fun h => Result.noConfusion h
    | ok p => exact fun h => Result.noConfusion h
  | succ k ih =>
    intro S hS value hv
    have HC : ∀ c ∈ data.SimpleConstructs, S.contains c.Name = false →
        ∃ n, createConstructValueWithStack n data c.Value (c.Name :: S) ≠ .timeout := by
      intro c hc hcS
      have := offStack_cons_lt data S c hc hcS
      exact ih (c.Name :: S) (by omega) c.Value (hbodies c hc)
    obtain ⟨n, hn⟩ := (halts_body data S HC value.length).1 (NewReader value) (le_refl _) hv
    refine ⟨n + 1, ?_⟩
    rw [createConstructValueWithStack]
    cases hT : parseExpression n data S (NewReader value) with
    | timeout => rw [hT] at hn; exact hn.elim
    | error e => exact fun h => Result.noConfusion h
    | ok p => exact fun h => Result.noConfusion h

/-! ## The shape of parser results -/

theorem Shape.of_finishExpression {data : ChiselData} {S : List Bytes} {alts : List Regex}
    (hne : alts ≠ []) (h : ∀ x ∈ alts, Shape data S x) :
    Shape data S (finishExpression alts) := by
  match alts, hne, h with
  | [a], _, h => exact h a (List.mem_singleton.mpr rfl)
  | a :: b :: t, _, h => exact Shape.or S _ (by simp) h

theorem Shape.of_finishTerm {data : ChiselData} {S : List Bytes} {factors : List Regex}
    {r r' : Reader} {ast : Regex}
    (h : ∀ x ∈ factors, Shape data S x) (hf : finishTerm factors r = .ok (ast, r')) :
    Shape data S ast := by
  match factors, h, hf with
  | [], _, hf => simp [Chisel.finishTerm] at hf
  | [a], h, hf =>
    simp only [Chisel.finishTerm, Result.ok.injEq, Prod.mk.injEq] at hf
    rw [← hf.1]; exact h a (List.mem_singleton.mpr rfl)
  | a :: b :: t, h, hf =>
    simp only [Chisel.finishTerm, Result.ok.injEq, Prod.mk.injEq] at hf
    rw [← hf.1]; exact Shape.chain S _ (by simp) h

theorem Shape.append {data : ChiselData} {S : List Bytes} {xs : List Regex} {y : Regex}
    (h : ∀ x ∈ xs, Shape data S x) (hy : Shape data S y) :
    ∀ x ∈ xs ++ [y], Shape data S x := by
  intro x hx
  rcases List.mem_append.mp hx with hx | hx
  · exact h x hx
  · rw [List.mem_singleton.mp hx]; exact hy

theorem shape_all (data : ChiselData) (n : Nat) :
    (∀ S r ast r', parseExpression n data S r = .ok (ast, r') → Shape data S ast) ∧
    (∀ S a r ast r', parseExpressionLoop n data S a r = .ok (ast, r') → a ≠ [] →
      (∀ x ∈ a, Shape data S x) → Shape data S ast) ∧
    (∀ S r ast r', parseTerm n data S r = .ok (ast, r') → Shape data S ast) ∧
    (∀ S a r ast r', parseTermLoop n data S a r = .ok (ast, r') →
      (∀ x ∈ a, Shape data S x) → Shape data S ast) ∧
    (∀ S r ast r', parseFactor n data S r = .ok (ast, r') → Shape data S ast) ∧
    (∀ S r ast r', parseAtom n data S r = .ok (ast, r') → Shape data S ast) ∧
    (∀ v S ast, createConstructValueWithStack n data v S = .ok ast → Shape data S ast) := by
  induction n with
  | zero =>
    refine ⟨?_, ?_, ?_, ?_, ?_, ?_, ?_⟩
    · intro S r ast r' h; exact Result.noConfusion h
    · intro S a r ast r' h; exact Result.noConfusion h
    · intro S r ast r' h; exact Result.noConfusion h
    · intro S a r ast r' h; exact Result.noConfusion h
    · intro S r ast r' h; exact Result.noConfusion h
    · intro S r ast r' h; exact Result.noConfusion h
    · intro v S ast h; exact Result.noConfusion h
  | succ n ih =>
    obtain ⟨ihE, ihEL, ihT, ihTL, ihF, ihA, ihC⟩ := ih
    refine ⟨?_, ?_, ?_, ?_, ?_, ?_, ?_⟩
    · intro S r ast r' h
      rw [parseExpression] at h
      cases hT : parseTerm n data S r with
      | timeout => rw [hT] at h; exact Result.noConfusion h
      | error e => rw [hT] at h; exact Result.noConfusion h
      | ok p =>
        obtain ⟨left, r1⟩ := p
        rw [hT] at h
        exact ihEL S _ _ _ _ h (by simp) (by
          intro x hx; rw [List.mem_singleton.mp hx]; exact ihT S r left r1 hT)
    · intro S a r ast r' h hne ha
      rw [parseExpressionLoop] at h
      split at h
      · split at h
        · simp only [Result.ok.injEq, Prod.mk.injEq] at h
          rw [← h.1]; exact Shape.of_finishExpression hne ha
        · exact Result.noConfusion h
      · split at h
        · split at h
          · simp only [Result.ok.injEq, Prod.mk.injEq] at h
            rw [← h.1]; exact Shape.of_finishExpression hne ha
          · exact Result.noConfusion h
        · split at h
          · rename_i _ _ _ _ b r2 _ _
            cases hT : parseTerm n data S r2 with
            | timeout => rw [hT] at h; exact Result.noConfusion h
            | error e => rw [hT] at h; exact Result.noConfusion h
            | ok p =>
              obtain ⟨right, r3⟩ := p
              rw [hT] at h
              exact ihEL S _ _ _ _ h (by simp) (Shape.append ha (ihT S _ _ _ hT))
          · simp only [Result.ok.injEq, Prod.mk.injEq] at h
            rw [← h.1]; exact Shape.of_finishExpression hne ha
    · intro S r ast r' h
      rw [parseTerm] at h
      exact ihTL S _ _ _ _ h (by simp)
    · intro S a r ast r' h ha
      rw [parseTermLoop] at h
      split at h
      · split at h
        · exact Shape.of_finishTerm ha h
        · exact Result.noConfusion h
      · split at h
        · split at h
          · exact Shape.of_finishTerm ha h
          · exact Result.noConfusion h
        · split at h
          · exact Shape.of_finishTerm ha h
          · rename_i _ _ _ _ b r2 _ _
            cases hT : parseFactor n data S (UnreadByte r2).2 with
            | timeout => rw [hT] at h; exact Result.noConfusion h
            | error e => rw [hT] at h; exact Result.noConfusion h
            | ok p =>
              obtain ⟨factor, r3⟩ := p
              rw [hT] at h
              exact ihTL S _ _ _ _ h (Shape.append ha (ihF S _ _ _ hT))
    · intro S r ast r' h
      rw [parseFactor] at h
      cases hT : parseAtom n data S r with
      | timeout => rw [hT] at h; exact Result.noConfusion h
      | error e => rw [hT] at h; exact Result.noConfusion h
      | ok p =>
        obtain ⟨atom, r1⟩ := p
        rw [hT] at h
        have hA := ihA S _ _ _ hT
        dsimp only at h
        split at h
        · split at h
          · simp only [Result.ok.injEq, Prod.mk.injEq] at h
            rw [← h.1]; exact hA
          · exact Result.noConfusion h
        · split at h
          · split at h
            · simp only [Result.ok.injEq, Prod.mk.injEq] at h
              rw [← h.1]; exact hA
            · exact Result.noConfusion h
          · split at h
            · simp only [Result.ok.injEq, Prod.mk.injEq] at h
              rw [← h.1]; exact Shape.multiplier S _ _ hA
            · split at h
              · simp only [Result.ok.injEq, Prod.mk.injEq] at h
                rw [← h.1]; exact Shape.multiplier S _ _ hA
              · split at h
                · simp only [Result.ok.injEq, Prod.mk.injEq] at h
                  rw [← h.1]; exact Shape.optional S _ hA
                · simp only [Result.ok.injEq, Prod.mk.injEq] at h
                  rw [← h.1]; exact hA
    · intro S r ast r' h
      rw [parseAtom] at h
      split at h
      · exact Result.noConfusion h
      · split at h
        · exact Result.noConfusion h
        · split at h
          · rename_i _ _ _ _ c r2 _ _
            cases hT : parseExpression n data S r2 with
            | timeout => rw [hT] at h; exact Result.noConfusion h
            | error e => rw [hT] at h; exact Result.noConfusion h
            | ok p =>
              obtain ⟨inner, r3⟩ := p
              rw [hT] at h
              dsimp only at h
              split at h
              · exact Result.noConfusion h
              · split at h
                · exact Result.noConfusion h
                · split at h
                  · exact Result.noConfusion h
                  · simp only [Result.ok.injEq, Prod.mk.injEq] at h
                    rw [← h.1]; exact ihE S _ _ _ hT
          · split at h
            · split at h
              split at h
              · rename_i _ token htok
                simp only [Result.ok.injEq, Prod.mk.injEq] at h
                rw [← h.1]; exact Shape.unit S token (List.mem_of_find?_eq_some htok)
              · split at h
                · rename_i _ construct hcon
                  split at h
                  · rename_i hstack
                    simp only [Result.ok.injEq, Prod.mk.injEq] at h
                    rw [← h.1]
                    exact Shape.placeholder S _ (by simpa using hstack)
                  · cases hT : createConstructValueWithStack n data construct.Value
                        (construct.Name :: S) with
                    | timeout => rw [hT] at h; exact Result.noConfusion h
                    | error e => rw [hT] at h; exact Result.noConfusion h
                    | ok p =>
                      rw [hT] at h
                      simp only [Result.ok.injEq, Prod.mk.injEq] at h
                      rw [← h.1]; exact Shape.nested S _ _ (ihC _ _ _ hT)
                · exact Result.noConfusion h
            · exact Result.noConfusion h
    · intro v S ast h
      rw [createConstructValueWithStack] at h
      cases hT : parseExpression n data S (NewReader v) with
      | timeout => rw [hT] at h; exact Result.noConfusion h
      | error e => rw [hT] at h; exact Result.noConfusion h
      | ok p =>
        obtain ⟨result, r1⟩ := p
        rw [hT] at h
        simp only [Result.ok.injEq] at h
        rw [← h]; exact ihE S _ _ _ hT

/-! ## Nodes of a parser result -/

theorem Shape.of_occurs {data : ChiselData} {anc : List Bytes} {node ast : Regex}
    (ho : Occurs anc node ast) :
    ∀ S : List Bytes, Shape data S ast → Shape data (anc.reverse ++ S) node := by
  induction ho with
  | here node => intro S h; simpa using h
  | nested c name _ ih =>
    intro S h
    cases h with
    | nested _ _ _ hb =>
      have := ih _ hb
      simpa using this
  | chain c ch hx _ ih =>
    intro S h
    cases h with
    | chain _ _ _ hall => exact ih S (hall _ hx)
  | or c ch hx _ ih =>
    intro S h
    cases h with
    | or _ _ _ hall => exact ih S (hall _ hx)
  | captured _ _ ih => intro S h; cases h
  | multiplier c b _ ih =>
    intro S h
    cases h with
    | multiplier _ _ _ hi => exact ih S hi
  | optional c _ ih =>
    intro S h
    cases h with
    | optional _ _ hi => exact ih S hi

/-- No AST that the closures build holds a `CapturedRegex`. -/
theorem Shape.no_captured {data : ChiselData} {S anc : List Bytes} {inner ast : Regex}
    (hs : Shape data S ast) (prototyped : Bool) :
    ¬ Occurs anc (.CapturedRegex prototyped inner) ast := by
  intro ho
  have h := Shape.of_occurs ho S hs
  cases h

theorem shape_of_CreateConstructValue {fuel : Nat} {data : ChiselData} {value : Bytes}
    {ast : Regex} (h : CreateConstructValue fuel data value = .ok ast) : Shape data [] ast :=
  (shape_all data fuel).2.2.2.2.2.2 value [] ast h

theorem createConstructValueWithStack_add {n : Nat} {d : ChiselData} {v : Bytes}
    {S : List Bytes} {res : Result Regex} (h : createConstructValueWithStack n d v S = res)
    (hres : res ≠ .timeout) (k : Nat) : createConstructValueWithStack (n + k) d v S = res := by
  rw [createConstructValueWithStack_mono (Nat.le_add_right n k) (by rw [h]; exact hres), h]

theorem CreateConstructValue_add {n : Nat} {d : ChiselData} {v : Bytes}
    {res : Result Regex} (h : CreateConstructValue n d v = res)
    (hres : res ≠ .timeout) (k : Nat) : CreateConstructValue (n + k) d v = res :=
  createConstructValueWithStack_add h hres k

/-! ## Call sites and the propagation of errors -/

theorem Calls.fails_up {data : ChiselData} {a b : Call} (h : Calls data a b) (e : Error)
    (hb : b.fails data e) : a.fails data e := by
  cases h with
  | create_expression n v S =>
    simp only [Call.fails] at hb ⊢
    rw [createConstructValueWithStack, hb]
  | expression_term n S r =>
    simp only [Call.fails] at hb ⊢
    rw [parseExpression, hb]
  | expression_loop n S r left r1 hT =>
    simp only [Call.fails] at hb ⊢
    rw [parseExpression, hT]
    exact hb
  | expressionLoop_term n S a r r1 r2 hs hr =>
    simp only [Call.fails] at hb ⊢
    rw [parseExpressionLoop, hs]
    simp only [hr, if_true, hb]
  | expressionLoop_next n S a r r1 r2 right r3 hs hr hT =>
    simp only [Call.fails] at hb ⊢
    rw [parseExpressionLoop, hs]
    simp only [hr, if_true, hT]
    exact hb
  | term_loop n S r =>
    simp only [Call.fails] at hb ⊢
    rw [parseTerm]
    exact hb
  | termLoop_factor n S a r r1 r2 b hs hr hterm =>
    simp only [Call.fails] at hb ⊢
    rw [parseTermLoop, hs]
    simp only [hr, if_neg hterm, hb]
  | termLoop_next n S a r r1 r2 b factor r3 hs hr hterm hF =>
    simp only [Call.fails] at hb ⊢
    rw [parseTermLoop, hs]
    simp only [hr, if_neg hterm, hF]
    exact hb
  | factor_atom n S r =>
    simp only [Call.fails] at hb ⊢
    rw [parseFactor, hb]
  | atom_expression n S r r1 r2 hs hr =>
    simp only [Call.fails] at hb ⊢
    rw [parseAtom, hs]
    simp only [hr, if_true, hb]
  | atom_create n S r r1 r2 c construct hs hr hc hid htok hcon hst =>
    simp only [Call.fails] at hb ⊢
    rw [parseAtom, hs]
    simp only [hr, if_neg hc, if_pos hid, htok, hcon, hst, hb]
    rfl

theorem Calls.fails_up_trans {data : ChiselData} {a b : Call}
    (h : Relation.ReflTransGen (Calls data) a b) (e : Error) (hb : b.fails data e) :
    a.fails data e := by
  induction h with
  | refl => exact hb
  | tail _ hstep ih => exact ih (hstep.fails_up e hb)

/-! ## Empty terms -/

theorem unclosed_group_loops (data : ChiselData) (S : List Bytes) (n : Nat) :
    parseExpression n data S ⟨[], some 40⟩ = .timeout ∧
    parseTerm n data S ⟨[], some 40⟩ = .timeout ∧
    parseTermLoop n data S [] ⟨[], some 40⟩ = .timeout ∧
    parseExpression n data S ⟨[40], none⟩ = .timeout ∧
    parseTerm n data S ⟨[40], none⟩ = .timeout ∧
    parseTermLoop n data S [] ⟨[40], none⟩ = .timeout ∧
    parseFactor n data S ⟨[40], none⟩ = .timeout ∧
    parseAtom n data S ⟨[40], none⟩ = .timeout := by
  induction n with
  | zero => exact ⟨rfl, rfl, rfl, rfl, rfl, rfl, rfl, rfl⟩
  | succ n ih =>
    obtain ⟨hE, hT, hTL, hE', hT', hTL', hF, hA⟩ := ih
    have hs1 : skipWhitespace ⟨[], some 40⟩ = (none, ⟨[40], none⟩) := rfl
    have hs2 : skipWhitespace ⟨[40], none⟩ = (none, ⟨[40], none⟩) := rfl
    have hr : ReadByte ⟨[40], none⟩ = (40, none, ⟨[], some 40⟩) := rfl
    have hu : (UnreadByte ⟨[], some 40⟩).2 = ⟨[40], none⟩ := rfl
    have hnt : ¬ ((40 : Nat) = 41 ∨ (40 : Nat) = 124 ∨ (40 : Nat) = 59) := by decide
    refine ⟨?_, ?_, ?_, ?_, ?_, ?_, ?_, ?_⟩
    · rw [parseExpression, hT]
    · rw [parseTerm, hTL]
    · rw [parseTermLoop, hs1]
      simp only [hr, if_neg hnt, hu, hF]
    · rw [parseExpression, hT']
    · rw [parseTerm, hTL']
    · rw [parseTermLoop, hs2]
      simp only [hr, if_neg hnt, hu, hF]
    · rw [parseFactor, hA]
    · rw [parseAtom, hs2]
      simp only [hr, if_true, hE]

/-- A term is empty when the next byte that is not a space is `)`, `|` or `;`: `parseTerm`
then fails with "expected at least one factor in term". -/
theorem parseTerm_of_delimiter (k : Nat) (data : ChiselData) (S : List Bytes) (r : Reader)
    (y : Nat) (t : Bytes) (hd : r.rest.dropWhile IsSpace = y :: t)
    (hy : y = 41 ∨ y = 124 ∨ y = 59) :
    parseTerm (k + 2) data S r = .error .expectedFactor := by
  rw [parseTerm, parseTermLoop, skipWhitespace_of_dropWhile hd]
  simp only [ReadByte, if_pos hy, finishTerm]

/-- An empty term that the run reaches makes `createConstructValueWithStack` fail. -/
theorem empty_term_is_an_error (fuel : Nat) (data : ChiselData) (value : Bytes)
    (stack : List Bytes) (k : Nat) (S : List Bytes) (r : Reader) (y : Nat) (t : Bytes)
    (hreach : Relation.ReflTransGen (Calls data) (.create fuel value stack)
      (.term (k + 2) S r))
    (hd : r.rest.dropWhile IsSpace = y :: t) (hy : y = 41 ∨ y = 124 ∨ y = 59) :
    createConstructValueWithStack fuel data value stack = .error .expectedFactor :=
  Calls.fails_up_trans hreach _ (parseTerm_of_delimiter k data S r y t hd hy)

/-- The bodies `;`, `A | ;`, `| A;`, `A | | B;` and `();`, in which `)`, `|` or `;` stands
where a term must start, are rejected with "expected at least one factor in term". -/
theorem empty_term_before_delimiter_is_rejected (data : ChiselData) (tA tB : Token)
    (hA : TokenName tA = bytes "A") (hB : TokenName tB = bytes "B")
    (hd : data.Tokens = [tA, tB]) (k : Nat) :
    CreateConstructValue (5 + k) data (bytes ";") = .error .expectedFactor ∧
    CreateConstructValue (9 + k) data (bytes "A | ;") = .error .expectedFactor ∧
    CreateConstructValue (5 + k) data (bytes "| A;") = .error .expectedFactor ∧
    CreateConstructValue (9 + k) data (bytes "A | | B;") = .error .expectedFactor ∧
    CreateConstructValue (9 + k) data (bytes "();") = .error .expectedFactor := by
  have e : ∀ {n : Nat} {d : ChiselData} {v : Bytes} {err : Error},
      CreateConstructValue n d v = .error err → CreateConstructValue (n + k) d v = .error err :=
    fun h => CreateConstructValue_add h (fun h => Result.noConfusion h) k
  obtain ⟨p, s, toks, sk, sc, cs⟩ := data
  simp only at hd
  subst hd
  cases tA <;> cases tB <;> simp only [TokenName] at hA hB <;> subst hA hB <;>
    exact ⟨e rfl, e rfl, e rfl, e rfl, e rfl⟩

/-! ## The claims -/

/-- C1: whenever `CreateConstructValue` returns an AST, every `ChainRegex` node and every
`OrRegex` node occurring anywhere in it, the resolved bodies of `NestedRegex` nodes
included, has at least two children. -/
theorem chain_or_have_two_children (fuel : Nat) (data : ChiselData) (value : Bytes)
    (ast : Regex) (h : CreateConstructValue fuel data value = .ok ast)
    (anc : List Bytes) (node : Regex) (ho : Occurs anc node ast) :
    (∀ c ch, node = .ChainRegex c ch → 2 ≤ ch.length) ∧
    (∀ c ch, node = .OrRegex c ch → 2 ≤ ch.length) := by
  have hs := Shape.of_occurs ho [] (shape_of_CreateConstructValue h)
  constructor
  · intro c ch hn
    rw [hn] at hs
    cases hs with
    | chain _ _ h2 _ => exact h2
  · intro c ch hn
    rw [hn] at hs
    cases hs with
    | or _ _ h2 _ => exact h2

/-- Instance of C1: in the AST of `(A B) | X;` over `sampleData` the `ChainRegex` inside
the first alternative has two children. -/
theorem chain_or_have_two_children_witness :
    CreateConstructValue 20 sampleData (bytes "(A B) | X;") =
      .ok (.OrRegex Counter.zero
        [.ChainRegex Counter.zero
          [.UnitRegex Counter.zero (.LiteralToken (bytes "A") (bytes "a") 0),
           .UnitRegex Counter.zero (.LiteralToken (bytes "B") (bytes "b") 0)],
         .NestedRegex Counter.zero (bytes "X")
          (some (.OrRegex Counter.zero
            [.UnitRegex Counter.zero (.LiteralToken (bytes "B") (bytes "b") 0),
             .NestedRegex Counter.zero (bytes "X") none]))]) ∧
    2 ≤ [Regex.UnitRegex Counter.zero (.LiteralToken (bytes "A") (bytes "a") 0),
         Regex.UnitRegex Counter.zero (.LiteralToken (bytes "B") (bytes "b") 0)].length :=
  ⟨rfl, (chain_or_have_two_children 20 sampleData (bytes "(A B) | X;") _ rfl []
    (.ChainRegex Counter.zero
      [.UnitRegex Counter.zero (.LiteralToken (bytes "A") (bytes "a") 0),
       .UnitRegex Counter.zero (.LiteralToken (bytes "B") (bytes "b") 0)])
    (Occurs.or _ _ (List.mem_cons_self _ _) (Occurs.here _))).1 _ _ rfl⟩

/-- C2: when every unresolved construct of the grammar has a body text that ends with
`;`, `createConstructValueWithStack` terminates on the body of every construct, cyclic
references included and whatever the expansion stack: from some amount of fuel on it
returns one and the same result, an AST or an error. -/
theorem createConstructValueWithStack_terminates (data : ChiselData)
    (hbodies : ∀ c ∈ data.SimpleConstructs, ∃ pre, c.Value = pre ++ [59])
    (c : SimpleConstruct) (hc : c ∈ data.SimpleConstructs) (expandStack : List Bytes) :
    ∃ N, (∃ ast, ∀ fuel, N ≤ fuel →
        createConstructValueWithStack fuel data c.Value expandStack = .ok ast) ∨
      (∃ e, ∀ fuel, N ≤ fuel →
        createConstructValueWithStack fuel data c.Value expandStack = .error e) := by
  have hsemi : ∀ c ∈ data.SimpleConstructs, 59 ∈ c.Value := by
    intro c hc
    obtain ⟨pre, hpre⟩ := hbodies c hc
    rw [hpre]; simp
  obtain ⟨n, hn⟩ := halts_create data hsemi _ expandStack (le_refl _) c.Value (hsemi c hc)
  refine ⟨n, ?_⟩
  cases hres : createConstructValueWithStack n data c.Value expandStack with
  | timeout => exact absurd hres hn
  | ok ast =>
    left
    refine ⟨ast, fun fuel hf => ?_⟩
    rw [createConstructValueWithStack_mono hf hn, hres]
  | error e =>
    right
    refine ⟨e, fun fuel hf => ?_⟩
    rw [createConstructValueWithStack_mono hf hn, hres]

/-- Instance of C2: the self-referential construct `X = B | X;` of `sampleData`. -/
theorem createConstructValueWithStack_terminates_witness :
    (∀ c ∈ sampleData.SimpleConstructs, ∃ pre, c.Value = pre ++ [59]) ∧
    (⟨bytes "X", bytes "B | X;"⟩ : SimpleConstruct) ∈ sampleData.SimpleConstructs ∧
    ∃ N, (∃ ast, ∀ fuel, N ≤ fuel →
        createConstructValueWithStack fuel sampleData (bytes "B | X;") [] = .ok ast) ∨
      (∃ e, ∀ fuel, N ≤ fuel →
        createConstructValueWithStack fuel sampleData (bytes "B | X;") [] = .error e) :=
  have hb : ∀ c ∈ sampleData.SimpleConstructs, ∃ pre, c.Value = pre ++ [59] := by
    intro c hc
    simp only [sampleData, List.mem_cons, List.mem_singleton, List.not_mem_nil, or_false] at hc
    rcases hc with h | h | h
    · exact ⟨bytes "B | X", by rw [h]; rfl⟩
    · exact ⟨bytes "D", by rw [h]; rfl⟩
    · exact ⟨bytes "Y Y", by rw [h]; rfl⟩
  have hm : (⟨bytes "X", bytes "B | X;"⟩ : SimpleConstruct) ∈ sampleData.SimpleConstructs :=
    List.mem_cons_self _ _
  ⟨hb, hm, createConstructValueWithStack_terminates sampleData hb _ hm []⟩

/-- C3: for a grammar whose only token is named `B` and whose only unresolved construct
is `A = B | A;`, resolving the body `B | A;` succeeds, and the AST holds a placeholder
`NestedRegex` of name `A` with a nil body. -/
theorem self_reference_resolves_with_placeholder (tok : Token)
    (htok : TokenName tok = bytes "B") (pre suf : List Bytes) (skips : List Token)
    (done : List Construct) (k : Nat) :
    CreateConstructValue (14 + k)
        ⟨pre, suf, [tok], skips, [⟨bytes "A", bytes "B | A;"⟩], done⟩ (bytes "B | A;") =
      .ok (.OrRegex Counter.zero
        [.UnitRegex Counter.zero tok,
         .NestedRegex Counter.zero (bytes "A")
          (some (.OrRegex Counter.zero
            [.UnitRegex Counter.zero tok, .NestedRegex Counter.zero (bytes "A") none]))]) ∧
    ∃ anc c, Occurs anc (.NestedRegex c (bytes "A") none)
      (.OrRegex Counter.zero
        [.UnitRegex Counter.zero tok,
         .NestedRegex Counter.zero (bytes "A")
          (some (.OrRegex Counter.zero
            [.UnitRegex Counter.zero tok, .NestedRegex Counter.zero (bytes "A") none]))]) := by
  refine ⟨?_, [bytes "A"], Counter.zero,
    Occurs.or _ _ (List.mem_cons_of_mem _ (List.mem_cons_self _ _))
      (Occurs.nested _ _ (Occurs.or _ _ (List.mem_cons_of_mem _ (List.mem_cons_self _ _))
        (Occurs.here _)))⟩
  apply CreateConstructValue_add _ (fun h => Result.noConfusion h)
  cases tok with
  | SimpleToken n => simp only [TokenName] at htok; subst htok; rfl
  | LiteralToken n l p => simp only [TokenName] at htok; subst htok; rfl
  | FunctionToken n l p => simp only [TokenName] at htok; subst htok; rfl

/-- Instance of C3: the token `B` is a literal token. -/
theorem self_reference_resolves_with_placeholder_witness :
    TokenName (.LiteralToken (bytes "B") (bytes "b") 0) = bytes "B" ∧
    CreateConstructValue (14 + 0)
        ⟨[], [], [.LiteralToken (bytes "B") (bytes "b") 0], [],
          [⟨bytes "A", bytes "B | A;"⟩], []⟩ (bytes "B | A;") =
      .ok (.OrRegex Counter.zero
        [.UnitRegex Counter.zero (.LiteralToken (bytes "B") (bytes "b") 0),
         .NestedRegex Counter.zero (bytes "A")
          (some (.OrRegex Counter.zero
            [.UnitRegex Counter.zero (.LiteralToken (bytes "B") (bytes "b") 0),
             .NestedRegex Counter.zero (bytes "A") none]))]) :=
  ⟨rfl, (self_reference_resolves_with_placeholder
    (.LiteralToken (bytes "B") (bytes "b") 0) rfl [] [] [] [] 0).1⟩

/-- C4: in every AST returned by `CreateConstructValue`, a placeholder `NestedRegex`
(name `N`, body nil) lies inside the body of an enclosing `NestedRegex` of the same name
`N` whose body is not nil; hence a `NestedRegex` that no node of its own name encloses,
such as each of the two references of the body `Y Y;`, has a resolved body. -/
theorem placeholders_are_enclosed (fuel : Nat) (data : ChiselData) (value : Bytes)
    (ast : Regex) (h : CreateConstructValue fuel data value = .ok ast) :
    (∀ anc c name, Occurs anc (.NestedRegex c name none) ast → name ∈ anc) ∧
    (∀ anc c name v, Occurs anc (.NestedRegex c name v) ast → name ∉ anc →
      ∃ body, v = some body) := by
  have key : ∀ anc c name, Occurs anc (.NestedRegex c name none) ast → name ∈ anc := by
    intro anc c name ho
    have hs := Shape.of_occurs ho [] (shape_of_CreateConstructValue h)
    cases hs with
    | placeholder _ _ hm => simpa using hm
  refine ⟨key, ?_⟩
  intro anc c name v ho hn
  cases v with
  | none => exact absurd (key anc c name ho) hn
  | some body => exact ⟨body, rfl⟩

/-- Instance of C4: the two references of `Y Y;` are resolved, and the placeholder of
`B | X;` lies inside the resolved `X`. -/
theorem placeholders_are_enclosed_witness :
    CreateConstructValue 20 sampleData (bytes "Y Y;") =
      .ok (.ChainRegex Counter.zero
        [.NestedRegex Counter.zero (bytes "Y")
          (some (.UnitRegex Counter.zero (.LiteralToken (bytes "D") (bytes "x") 0))),
         .NestedRegex Counter.zero (bytes "Y")
          (some (.UnitRegex Counter.zero (.LiteralToken (bytes "D") (bytes "x") 0)))]) ∧
    CreateConstructValue 20 sampleData (bytes "B | X;") =
      .ok (.OrRegex Counter.zero
        [.UnitRegex Counter.zero (.LiteralToken (bytes "B") (bytes "b") 0),
         .NestedRegex Counter.zero (bytes "X")
          (some (.OrRegex Counter.zero
            [.UnitRegex Counter.zero (.LiteralToken (bytes "B") (bytes "b") 0),
             .NestedRegex Counter.zero (bytes "X") none]))]) ∧
    bytes "X" ∈ [bytes "X"] ∧
    (∃ body, some (Regex.UnitRegex Counter.zero (.LiteralToken (bytes "D") (bytes "x") 0)) =
      some body) :=
  ⟨rfl, rfl,
   (placeholders_are_enclosed 20 sampleData (bytes "B | X;") _ rfl).1 [bytes "X"]
     Counter.zero (bytes "X")
     (Occurs.or _ _ (List.mem_cons_of_mem _ (List.mem_cons_self _ _))
       (Occurs.nested _ _ (Occurs.or _ _ (List.mem_cons_of_mem _ (List.mem_cons_self _ _))
         (Occurs.here _)))),
   (placeholders_are_enclosed 20 sampleData (bytes "Y Y;") _ rfl).2 [] Counter.zero (bytes "Y")
     _ (Occurs.chain _ _ (List.mem_cons_of_mem _ (List.mem_cons_self _ _)) (Occurs.here _))
     (List.not_mem_nil _)⟩

/-- C5: when a token and an unresolved construct share the name `N`, `parseAtom` on the
atom `N` returns a `UnitRegex` over the first token named `N` in declaration order, not
a `NestedRegex`; the constructs play no part, so `hclash` is not used by the proof. -/
theorem token_wins_over_construct (fuel : Nat) (data : ChiselData) (expandStack : List Bytes)
    (ws name tail : Bytes) (last : Option Nat) (pre post : List Token) (tok : Token)
    (hws : ∀ x ∈ ws, IsSpace x = true) (hname : IsIdentifier name)
    (htail : EndsIdentifier tail)
    (htokens : data.Tokens = pre ++ tok :: post)
    (hpre : ∀ t ∈ pre, TokenName t ≠ name) (htok : TokenName tok = name)
    (hclash : ∃ construct ∈ data.SimpleConstructs, construct.Name = name) :
    ∃ r', parseAtom (fuel + 1) data expandStack ⟨ws ++ name ++ tail, last⟩ =
      .ok (.UnitRegex Counter.zero tok, r') := by
  obtain ⟨c, cs, hn, hc, hcs⟩ := hname
  subst hn
  have hfind : data.Tokens.find? (fun token => TokenName token == c :: cs) = some tok := by
    rw [htokens]
    apply find?_first
    · intro t ht
      simpa using hpre t ht
    · simpa using htok
  rw [parseAtom_identifier fuel data expandStack ws c cs tail last hws hc hcs htail, hfind]
  exact ⟨_, rfl⟩

/-- Instance of C5: two tokens and a construct are all named `N`. -/
theorem token_wins_over_construct_witness :
    (∀ x ∈ bytes " ", IsSpace x = true) ∧ IsIdentifier (bytes "N") ∧
    EndsIdentifier (bytes " M;") ∧
    (∃ construct ∈ [(⟨bytes "N", bytes "M;"⟩ : SimpleConstruct)],
      construct.Name = bytes "N") ∧
    ∃ r', parseAtom (0 + 1)
        ⟨[], [], [.SimpleToken (bytes "M"), .LiteralToken (bytes "N") (bytes "n") 0,
          .LiteralToken (bytes "N") (bytes "other") 1], [], [⟨bytes "N", bytes "M;"⟩], []⟩ []
        ⟨bytes " " ++ bytes "N" ++ bytes " M;", none⟩ =
      .ok (.UnitRegex Counter.zero (.LiteralToken (bytes "N") (bytes "n") 0), r') :=
  have h1 : ∀ x ∈ bytes " ", IsSpace x = true := by decide
  have h2 : IsIdentifier (bytes "N") := ⟨78, [], rfl, rfl, by simp⟩
  have h3 : EndsIdentifier (bytes " M;") := by
    intro x hx
    have : x = 32 := by simpa [bytes] using hx.symm
    rw [this]; rfl
  have h4 : ∃ construct ∈ [(⟨bytes "N", bytes "M;"⟩ : SimpleConstruct)],
      construct.Name = bytes "N" := ⟨_, List.mem_cons_self _ _, rfl⟩
  ⟨h1, h2, h3, h4,
    token_wins_over_construct 0
      ⟨[], [], [.SimpleToken (bytes "M"), .LiteralToken (bytes "N") (bytes "n") 0,
        .LiteralToken (bytes "N") (bytes "other") 1], [], [⟨bytes "N", bytes "M;"⟩], []⟩ []
      (bytes " ") (bytes "N") (bytes " M;") none [.SimpleToken (bytes "M")]
      [.LiteralToken (bytes "N") (bytes "other") 1] _ h1 h2 h3 rfl
      (by simp [TokenName, bytes]) rfl h4⟩

/-- C6: if the run of `CreateConstructValue` on a body reaches, through the call sites
`Calls`, a `parseAtom` whose reader stands before an identifier that names no token of
`Tokens` and no unresolved construct, then `CreateConstructValue` returns the error
"failed to find token or construct" and no AST. -/
theorem undefined_identifier_is_an_error (fuel : Nat) (data : ChiselData) (value : Bytes)
    (n : Nat) (expandStack : List Bytes) (ws name tail : Bytes) (last : Option Nat)
    (hreach : Relation.ReflTransGen (Calls data) (.create fuel value [])
      (.atom (n + 1) expandStack ⟨ws ++ name ++ tail, last⟩))
    (hws : ∀ x ∈ ws, IsSpace x = true) (hname : IsIdentifier name)
    (htail : EndsIdentifier tail)
    (htok : ∀ token ∈ data.Tokens, TokenName token ≠ name)
    (hcon : ∀ construct ∈ data.SimpleConstructs, construct.Name ≠ name) :
    CreateConstructValue fuel data value = .error (.undefinedName name) := by
  obtain ⟨c, cs, hn, hc, hcs⟩ := hname
  subst hn
  apply Calls.fails_up_trans hreach
  simp only [Call.fails]
  rw [parseAtom_identifier n data expandStack ws c cs tail last hws hc hcs htail,
    find?_eq_none_of_forall _ _ (fun t ht => by simpa using htok t ht),
    find?_eq_none_of_forall _ _ (fun t ht => by simpa using hcon t ht)]

/-- Instance of C6: the body `A Q;` over `sampleData`, where `Q` is not declared. -/
theorem undefined_identifier_is_an_error_witness :
    Relation.ReflTransGen (Calls sampleData) (.create 7 (bytes "A Q;") [])
      (.atom (0 + 1) [] ⟨[] ++ bytes "Q" ++ bytes ";", none⟩) ∧
    (∀ x ∈ ([] : Bytes), IsSpace x = true) ∧ IsIdentifier (bytes "Q") ∧
    EndsIdentifier (bytes ";") ∧
    (∀ token ∈ sampleData.Tokens, TokenName token ≠ bytes "Q") ∧
    (∀ construct ∈ sampleData.SimpleConstructs, construct.Name ≠ bytes "Q") ∧
    CreateConstructValue 7 sampleData (bytes "A Q;") = .error (.undefinedName (bytes "Q")) :=
  have hreach : Relation.ReflTransGen (Calls sampleData) (.create 7 (bytes "A Q;") [])
      (.atom (0 + 1) [] ⟨[] ++ bytes "Q" ++ bytes ";", none⟩) :=
    Relation.ReflTransGen.head (Calls.create_expression 6 _ _) <|
    Relation.ReflTransGen.head (Calls.expression_term 5 _ _) <|
    Relation.ReflTransGen.head (Calls.term_loop 4 _ _) <|
    Relation.ReflTransGen.head
      (Calls.termLoop_next 3 [] [] (NewReader (bytes "A Q;")) ⟨bytes "A Q;", none⟩
        ⟨bytes " Q;", some 65⟩ 65
        (.UnitRegex Counter.zero (.LiteralToken (bytes "A") (bytes "a") 0))
        ⟨bytes "Q;", none⟩ rfl rfl (by decide) rfl) <|
    Relation.ReflTransGen.head
      (Calls.termLoop_factor 2 [] _ ⟨bytes "Q;", none⟩ ⟨bytes "Q;", none⟩
        ⟨bytes ";", some 81⟩ 81 rfl rfl (by decide)) <|
    Relation.ReflTransGen.single (Calls.factor_atom 1 [] _)
  have h1 : ∀ x ∈ ([] : Bytes), IsSpace x = true := fun x hx => absurd hx (List.not_mem_nil x)
  have h2 : IsIdentifier (bytes "Q") := ⟨81, [], rfl, rfl, by simp⟩
  have h3 : EndsIdentifier (bytes ";") := by
    intro x hx
    have : x = 59 := by simpa [bytes] using hx.symm
    rw [this]; rfl
  have h4 : ∀ token ∈ sampleData.Tokens, TokenName token ≠ bytes "Q" := by decide
  have h5 : ∀ construct ∈ sampleData.SimpleConstructs, construct.Name ≠ bytes "Q" := by
    decide
  ⟨hreach, h1, h2, h3, h4, h5,
    undefined_identifier_is_an_error 7 sampleData (bytes "A Q;") 0 [] [] (bytes "Q")
      (bytes ";") none hreach h1 h2 h3 h4 h5⟩

/-- C7: on the body `(`, where end of input is met where a term must start,
`CreateConstructValue` returns neither an error nor an AST: whatever the fuel, the run
is still inside the recursion `parseAtom`, `parseExpression`, `parseTerm`,
`parseFactor`, `parseAtom`, each round reading the `(` that `skipWhitespace` has put
back with `UnreadByte` after the failed read. -/
theorem unclosed_group_at_end_of_input_never_returns (data : ChiselData) (fuel : Nat) :
    CreateConstructValue fuel data (bytes "(") = .timeout := by
  cases fuel with
  | zero => rfl
  | succ n =>
    rw [CreateConstructValue, createConstructValueWithStack]
    have := (unclosed_group_loops data [] n).2.2.2.1
    simp only [NewReader]
    rw [show bytes "(" = [40] from rfl, this]

/-- C8: with tokens `A`, `B`, `C`, `D`, the body `A B | C;` resolves to
`Or[Chain[A, B], C]`, `A | B C;` to `Or[A, Chain[B, C]]`, `A B*;` to
`Chain[A, Multiplier(false, B)]` and `D+ D?;` to
`Chain[Multiplier(true, D), Optional(D)]`: a quantifier binds tighter than
concatenation, concatenation tighter than alternation. -/
theorem quantifier_chain_alternation_precedence (tA tB tC tD : Token)
    (hA : TokenName tA = bytes "A") (hB : TokenName tB = bytes "B")
    (hC : TokenName tC = bytes "C") (hD : TokenName tD = bytes "D")
    (pre suf : List Bytes) (skips : List Token) (constructs : List SimpleConstruct)
    (done : List Construct) (k : Nat) :
    CreateConstructValue (10 + k) ⟨pre, suf, [tA, tB, tC, tD], skips, constructs, done⟩
        (bytes "A B | C;") =
      .ok (.OrRegex Counter.zero
        [.ChainRegex Counter.zero [.UnitRegex Counter.zero tA, .UnitRegex Counter.zero tB],
         .UnitRegex Counter.zero tC]) ∧
    CreateConstructValue (10 + k) ⟨pre, suf, [tA, tB, tC, tD], skips, constructs, done⟩
        (bytes "A | B C;") =
      .ok (.OrRegex Counter.zero
        [.UnitRegex Counter.zero tA,
         .ChainRegex Counter.zero [.UnitRegex Counter.zero tB, .UnitRegex Counter.zero tC]]) ∧
    CreateConstructValue (10 + k) ⟨pre, suf, [tA, tB, tC, tD], skips, constructs, done⟩
        (bytes "A B*;") =
      .ok (.ChainRegex Counter.zero
        [.UnitRegex Counter.zero tA,
         .MultiplierRegex Counter.zero false (.UnitRegex Counter.zero tB)]) ∧
    CreateConstructValue (10 + k) ⟨pre, suf, [tA, tB, tC, tD], skips, constructs, done⟩
        (bytes "D+ D?;") =
      .ok (.ChainRegex Counter.zero
        [.MultiplierRegex Counter.zero true (.UnitRegex Counter.zero tD),
         .OptionalRegex Counter.zero (.UnitRegex Counter.zero tD)]) := by
  have e : ∀ {d : ChiselData} {v : Bytes} {ast : Regex},
      CreateConstructValue 10 d v = .ok ast → CreateConstructValue (10 + k) d v = .ok ast :=
    fun h => CreateConstructValue_add h (fun h => Result.noConfusion h) k
  cases tA <;> cases tB <;> cases tC <;> cases tD <;>
    simp only [TokenName] at hA hB hC hD <;> subst hA hB hC hD <;>
    exact ⟨e rfl, e rfl, e rfl, e rfl⟩

/-- Instance of C8: the body `D+ D?;` with the four tokens of `sampleData`. -/
theorem quantifier_chain_alternation_precedence_witness :
    TokenName (.LiteralToken (bytes "A") (bytes "a") 0) = bytes "A" ∧
    TokenName (.LiteralToken (bytes "B") (bytes "b") 0) = bytes "B" ∧
    TokenName (.SimpleToken (bytes "C")) = bytes "C" ∧
    TokenName (.LiteralToken (bytes "D") (bytes "x") 0) = bytes "D" ∧
    CreateConstructValue (10 + 0) sampleData (bytes "D+ D?;") =
      .ok (.ChainRegex Counter.zero
        [.MultiplierRegex Counter.zero true
          (.UnitRegex Counter.zero (.LiteralToken (bytes "D") (bytes "x") 0)),
         .OptionalRegex Counter.zero
          (.UnitRegex Counter.zero (.LiteralToken (bytes "D") (bytes "x") 0))]) :=
  ⟨rfl, rfl, rfl, rfl,
    (quantifier_chain_alternation_precedence (.LiteralToken (bytes "A") (bytes "a") 0)
      (.LiteralToken (bytes "B") (bytes "b") 0) (.SimpleToken (bytes "C"))
      (.LiteralToken (bytes "D") (bytes "x") 0) rfl rfl rfl rfl [] [] []
      sampleData.SimpleConstructs [] 0).2.2.2⟩

/-- C9: for `n ≥ 2` names of tokens, repetitions allowed, the body `t1 | t2 | ... | tn;`
resolves to one `OrRegex` with exactly `n` children, the `i`-th being the `UnitRegex`
over the token that `ti` names. -/
theorem alternation_keeps_order_and_duplicates (data : ChiselData) (names : List Bytes)
    (toks : List Token) (hn : 2 ≤ names.length)
    (hres : List.Forall₂ (ResolvesToToken data) names toks) (k : Nat) :
    CreateConstructValue (names.length + 5 + k) data (orBody names) =
      .ok (.OrRegex Counter.zero (toks.map (.UnitRegex Counter.zero))) ∧
    (toks.map (Regex.UnitRegex Counter.zero)).length = names.length := by
  refine ⟨?_, by rw [List.length_map]; exact hres.length_eq.symm⟩
  cases hres with
  | nil => simp at hn
  | @cons name tok names toks hhead htl =>
    obtain ⟨⟨c, cs, hname, hc, hcs⟩, hfind⟩ := hhead
    subst hname
    obtain ⟨y, t, hd, hy⟩ := dropWhile_orTail names
    have hT := parseTerm_token (k + names.length) data [] [] c cs (orTail names) none
      tok y t (fun x hx => absurd hx (List.not_mem_nil x)) hc hcs
      (endsIdentifier_orTail names) hd hy hfind
    have hL := parseExpressionLoop_orTail data [] names toks htl
      [Regex.UnitRegex Counter.zero tok] k
    have hfuel : ((c :: cs) :: names).length + 5 + k = (k + names.length + 4) + 1 + 1 := by
      simp only [List.length_cons]; omega
    rw [CreateConstructValue, hfuel, createConstructValueWithStack, parseExpression]
    simp only [List.nil_append] at hT
    simp only [orBody, NewReader, hT]
    rw [← hd, hL]
    cases htl with
    | nil => simp at hn
    | cons _ _ => rfl

/-- Instance of C9: the body `A | B | A;`. -/
theorem alternation_keeps_order_and_duplicates_witness :
    2 ≤ [bytes "A", bytes "B", bytes "A"].length ∧
    List.Forall₂ (ResolvesToToken sampleData) [bytes "A", bytes "B", bytes "A"]
      [.LiteralToken (bytes "A") (bytes "a") 0, .LiteralToken (bytes "B") (bytes "b") 0,
       .LiteralToken (bytes "A") (bytes "a") 0] ∧
    orBody [bytes "A", bytes "B", bytes "A"] = bytes "A | B | A;" ∧
    CreateConstructValue ([bytes "A", bytes "B", bytes "A"].length + 5 + 0) sampleData
        (orBody [bytes "A", bytes "B", bytes "A"]) =
      .ok (.OrRegex Counter.zero
        ([Token.LiteralToken (bytes "A") (bytes "a") 0, .LiteralToken (bytes "B") (bytes "b") 0,
          .LiteralToken (bytes "A") (bytes "a") 0].map (.UnitRegex Counter.zero))) ∧
    ([Token.LiteralToken (bytes "A") (bytes "a") 0, .LiteralToken (bytes "B") (bytes "b") 0,
      .LiteralToken (bytes "A") (bytes "a") 0].map (Regex.UnitRegex Counter.zero)).length =
      [bytes "A", bytes "B", bytes "A"].length :=
  have hA : ResolvesToToken sampleData (bytes "A") (.LiteralToken (bytes "A") (bytes "a") 0) :=
    ⟨⟨65, [], rfl, rfl, by simp⟩, rfl⟩
  have hB : ResolvesToToken sampleData (bytes "B") (.LiteralToken (bytes "B") (bytes "b") 0) :=
    ⟨⟨66, [], rfl, rfl, by simp⟩, rfl⟩
  have hres := List.Forall₂.cons hA (List.Forall₂.cons hB (List.Forall₂.cons hA List.Forall₂.nil))
  ⟨by decide, hres, rfl,
    alternation_keeps_order_and_duplicates sampleData _ _ (by decide) hres 0⟩

/-- C10: the body `(A | B) | C;` resolves to an `OrRegex` whose first child is an
`OrRegex`, and `(A B) C;` to a `ChainRegex` whose first child is a `ChainRegex`: the
group is returned by `parseAtom` as it is, under no `CapturedRegex`. -/
theorem parenthesised_group_is_not_wrapped (k : Nat) :
    CreateConstructValue (12 + k) sampleData (bytes "(A | B) | C;") =
      .ok (.OrRegex Counter.zero
        [.OrRegex Counter.zero
          [.UnitRegex Counter.zero (.LiteralToken (bytes "A") (bytes "a") 0),
           .UnitRegex Counter.zero (.LiteralToken (bytes "B") (bytes "b") 0)],
         .UnitRegex Counter.zero (.SimpleToken (bytes "C"))]) ∧
    CreateConstructValue (12 + k) sampleData (bytes "(A B) C;") =
      .ok (.ChainRegex Counter.zero
        [.ChainRegex Counter.zero
          [.UnitRegex Counter.zero (.LiteralToken (bytes "A") (bytes "a") 0),
           .UnitRegex Counter.zero (.LiteralToken (bytes "B") (bytes "b") 0)],
         .UnitRegex Counter.zero (.SimpleToken (bytes "C"))]) :=
  ⟨CreateConstructValue_add rfl (fun h => Result.noConfusion h) k,
   CreateConstructValue_add rfl (fun h => Result.noConfusion h) k⟩

/-- C11: with the tokens `A` and `B`, the bodies `A);` and `A) B;`, whose `)` has no
matching `(`, are not rejected: `CreateConstructValue` returns the AST of `A`, the top
level `parseExpression` stopping at the `)` and the rest of the body never being read.
The body `(A;`, whose `(` has no matching `)`, is rejected by `parseAtom`. -/
theorem unmatched_closing_parenthesis_is_accepted (k : Nat) :
    CreateConstructValue (6 + k) sampleData (bytes "A);") =
      .ok (.UnitRegex Counter.zero (.LiteralToken (bytes "A") (bytes "a") 0)) ∧
    CreateConstructValue (6 + k) sampleData (bytes "A) B;") =
      .ok (.UnitRegex Counter.zero (.LiteralToken (bytes "A") (bytes "a") 0)) ∧
    CreateConstructValue (12 + k) sampleData (bytes "(A;") =
      .error (.expectedClosingGot 59) :=
  ⟨CreateConstructValue_add rfl (fun h => Result.noConfusion h) k,
   CreateConstructValue_add rfl (fun h => Result.noConfusion h) k,
   CreateConstructValue_add
     (rfl : CreateConstructValue 12 sampleData (bytes "(A;") = .error (.expectedClosingGot 59))
     (fun h => Result.noConfusion h) k⟩

/-- C12: in a grammar where `D` names the token `tok`, the body `(D?)?;` resolves to
`Optional(Optional(Unit D))` and the body `(D*)*;` to
`Multiplier(false, Multiplier(false, Unit D))`: a quantifier is applied to an operand
that is already quantified like to any other operand. -/
theorem quantifier_on_quantified_operand (data : ChiselData) (tok : Token)
    (hD : data.Tokens.find? (fun token => TokenName token == bytes "D") = some tok)
    (k : Nat) :
    CreateConstructValue (k + 12) data (bytes "(D?)?;") =
      .ok (.OptionalRegex Counter.zero
        (.OptionalRegex Counter.zero (.UnitRegex Counter.zero tok))) ∧
    CreateConstructValue (k + 12) data (bytes "(D*)*;") =
      .ok (.MultiplierRegex Counter.zero false
        (.MultiplierRegex Counter.zero false (.UnitRegex Counter.zero tok))) := by
  have hD2 : data.Tokens.find? (fun token => TokenName token == [68]) = some tok := hD
  constructor <;>
  simp [CreateConstructValue, createConstructValueWithStack, parseExpression, parseExpressionLoop,
    parseTerm, parseTermLoop, parseFactor, parseAtom, skipWhitespace, skipWhitespaceLoop, ReadByte,
    UnreadByte, readIdentifier, NewReader, bytes, IsSpace, isValidId, isValidIdStarter, finishTerm,
    finishExpression, hD2]

/-- Instance of C12: the token `D` of `sampleData`. -/
theorem quantifier_on_quantified_operand_witness :
    sampleData.Tokens.find? (fun token => TokenName token == bytes "D") =
      some (.LiteralToken (bytes "D") (bytes "x") 0) ∧
    CreateConstructValue (0 + 12) sampleData (bytes "(D?)?;") =
      .ok (.OptionalRegex Counter.zero (.OptionalRegex Counter.zero
        (.UnitRegex Counter.zero (.LiteralToken (bytes "D") (bytes "x") 0)))) ∧
    CreateConstructValue (0 + 12) sampleData (bytes "(D*)*;") =
      .ok (.MultiplierRegex Counter.zero false (.MultiplierRegex Counter.zero false
        (.UnitRegex Counter.zero (.LiteralToken (bytes "D") (bytes "x") 0)))) :=
  ⟨rfl, quantifier_on_quantified_operand sampleData _ rfl 0⟩

/-- C13: on the input `a \; b ; rest` the function `constructReader` returns the body
`a  b ;`: the `\` and the `;` after it are both left out, so the body returned holds no
semicolon but the one that ends it. The function `stringReader` keeps both bytes: the
literal `"a\;b"` reaches `strconv.Unquote` whole. -/
theorem constructReader_drops_the_escaped_byte :
    constructReader (NewReader (bytes "a " ++ [92, 59] ++ bytes " b ; rest")) =
      (bytes "a  b ;", none, ⟨bytes " rest", some 59⟩) ∧
    (bytes "a  b ;").count 59 = 1 ∧
    stringReader some (NewReader ([34, 97, 92, 59, 98, 34] ++ bytes " rest")) =
      ([34, 97, 92, 59, 98, 34], none, ⟨bytes " rest", some 34⟩) :=
  ⟨rfl, rfl, rfl⟩

/-! ## The scope reader -/

theorem count_cons_int (x c : Nat) (t : Bytes) :
    ((c :: t).count x : Int) = t.count x + (if c = x then 1 else 0) := by
  rw [List.count_cons]
  by_cases h : c = x
  · simp [h]
  · simp [h]

theorem scopeReaderLoop_balanced (opener closer : Nat) (hne : opener ≠ closer)
    (rest : Bytes) :
    ∀ (t : Bytes) (last : Option Nat) (k : Int) (buffer : Bytes),
      k + (t.count opener : Int) - t.count closer = 0 →
      (∀ q, q <+: t → q ≠ t → k + (q.count opener : Int) - q.count closer ≠ 0) →
      scopeReaderLoop opener closer (t ++ rest) last k buffer =
        (0, buffer ++ t, (ReadByte ⟨rest, lastRead t last⟩).2.2) := by
  intro t
  induction t with
  | nil =>
    intro last k buffer hk _
    have hk0 : k = 0 := by simpa using hk
    subst hk0
    cases rest with
    | nil => simp [scopeReaderLoop, ReadByte, lastRead]
    | cons c cs => simp [scopeReaderLoop, ReadByte, lastRead]
  | cons c t ih =>
    intro last k buffer hk hpre
    have hk0 : k ≠ 0 := by
      have := hpre [] List.nil_prefix (by simp)
      simpa using this
    rw [List.cons_append, scopeReaderLoop, if_neg hk0]
    rw [ih (some c) _ (buffer ++ [c])]
    · simp [lastRead]
    · rw [count_cons_int, count_cons_int] at hk
      by_cases h1 : c = opener
      · have h2 : c ≠ closer := fun h => hne (h1.symm.trans h)
        simp only [h1, h2, if_true, if_false] at hk ⊢
        rw [if_neg (by rw [← h1]; exact h2)] at hk
        omega
      · by_cases h2 : c = closer
        · simp only [h1, h2, if_true, if_false] at hk ⊢
          rw [if_neg (by rw [← h2]; exact h1)] at hk
          omega
        · simp only [h1, h2, if_false] at hk ⊢
          omega
    · intro q hq hqt
      have := hpre (c :: q) (by simpa using hq) (by simpa using hqt)
      rw [count_cons_int, count_cons_int] at this
      by_cases h1 : c = opener
      · have h2 : c ≠ closer := fun h => hne (h1.symm.trans h)
        simp only [h1, h2, if_true, if_false] at this ⊢
        rw [if_neg (by rw [← h1]; exact h2)] at this
        omega
      · by_cases h2 : c = closer
        · simp only [h1, h2, if_true, if_false] at this ⊢
          rw [if_neg (by rw [← h2]; exact h1)] at this
          omega
        · simp only [h1, h2, if_false] at this ⊢
          omega

theorem scopeReaderLoop_never_balanced (opener closer : Nat) (hne : opener ≠ closer) :
    ∀ (t : Bytes) (last : Option Nat) (k : Int) (buffer : Bytes),
      (∀ q, q <+: t → k + (q.count opener : Int) - q.count closer ≠ 0) →
      (scopeReaderLoop opener closer t last k buffer).1 ≠ 0 := by
  intro t
  induction t with
  | nil =>
    intro last k buffer hpre
    have := hpre [] List.nil_prefix
    simpa [scopeReaderLoop] using this
  | cons c t ih =>
    intro last k buffer hpre
    have hk0 : k ≠ 0 := by
      have := hpre [] List.nil_prefix
      simpa using this
    rw [scopeReaderLoop, if_neg hk0]
    apply ih
    intro q hq
    have := hpre (c :: q) (by simpa using hq)
    rw [count_cons_int, count_cons_int] at this
    by_cases h1 : c = opener
    · have h2 : c ≠ closer := fun h => hne (h1.symm.trans h)
      simp only [h1, h2, if_true, if_false] at this ⊢
      rw [if_neg (by rw [← h1]; exact h2)] at this
      omega
    · by_cases h2 : c = closer
      · simp only [h1, h2, if_true, if_false] at this ⊢
        rw [if_neg (by rw [← h2]; exact h1)] at this
        omega
      · simp only [h1, h2, if_false] at this ⊢
        omega

/-- The scope reader on a scope: the text returned and the state of the reader, which
has read one byte more than the scope when one was there. -/
theorem scopeReader_of_isScope (opener closer : Nat) (hne : opener ≠ closer)
    (hsp : IsSpace opener = false) (w : Bytes) (hw : ∀ x ∈ w, IsSpace x = true)
    (last : Option Nat) (s rest : Bytes) (hs : IsScope opener closer s) :
    scopeReader opener closer ⟨w ++ s ++ rest, last⟩ =
      (s, none, (ReadByte ⟨rest, lastRead s none⟩).2.2) := by
  obtain ⟨hhead, hbal, hshort⟩ := hs
  cases s with
  | nil => simp at hhead
  | cons c t =>
    have hc : c = opener := by simpa using hhead
    subst hc
    have hd : (w ++ (c :: t) ++ rest).dropWhile IsSpace = c :: (t ++ rest) := by
      rw [List.append_assoc, List.cons_append]
      exact dropWhile_append_stop hw hsp
    have hloop := scopeReaderLoop_balanced c closer hne rest t (some c) 1 [c]
      (by
        have := congrArg (fun n : Nat => (n : Int)) hbal
        simp only [count_cons_int, if_true, if_neg hne] at this
        omega)
      (by
        intro q hq hqt
        have := hshort (c :: q) ((List.mem_inits _ _).2 (by simpa using hq)) (by simp) (by simpa using hqt)
        intro h0
        apply this
        have e1 := count_cons_int c c q
        have e2 := count_cons_int closer c q
        simp only [if_true, if_neg hne] at e1 e2
        have : ((c :: q).count c : Int) = (c :: q).count closer := by omega
        exact_mod_cast this)
    rw [scopeReader, skipWhitespace_of_dropWhile hd]
    simp only [ReadByte, ne_eq, not_true_eq_false, if_false, hloop]
    simp [lastRead]

theorem scopeReader_of_other_byte (opener closer : Nat) (w : Bytes)
    (hw : ∀ x ∈ w, IsSpace x = true) (last : Option Nat) (c : Nat) (rest : Bytes)
    (hc : IsSpace c = false) (hco : c ≠ opener) :
    scopeReader opener closer ⟨w ++ c :: rest, last⟩ =
      ([], some (Error.expectedOpener opener c), ⟨rest, some c⟩) := by
  have hd : (w ++ c :: rest).dropWhile IsSpace = c :: rest := dropWhile_append_stop hw hc
  rw [scopeReader, skipWhitespace_of_dropWhile hd]
  simp only [ReadByte, ne_eq, hco, not_false_eq_true, if_true]

theorem scopeReader_of_neverBalanced (opener closer : Nat) (hne : opener ≠ closer)
    (hsp : IsSpace opener = false) (w : Bytes) (hw : ∀ x ∈ w, IsSpace x = true)
    (last : Option Nat) (body : Bytes) (hb : NeverBalanced opener closer body) :
    ∃ r', scopeReader opener closer ⟨w ++ body, last⟩ =
      ([], some (Error.unterminatedOpener opener), r') := by
  obtain ⟨hhead, hnever⟩ := hb
  cases body with
  | nil => simp at hhead
  | cons c t =>
    have hc : c = opener := by simpa using hhead
    subst hc
    have hd : (w ++ c :: t).dropWhile IsSpace = c :: t := dropWhile_append_stop hw hsp
    have hloop := scopeReaderLoop_never_balanced c closer hne t (some c) 1 [c]
      (by
        intro q hq
        have := hnever (c :: q) ((List.mem_inits _ _).2 (by simpa using hq)) (by simp)
        intro h0
        apply this
        have e1 := count_cons_int c c q
        have e2 := count_cons_int closer c q
        simp only [if_true, if_neg hne] at e1 e2
        have : ((c :: q).count c : Int) = (c :: q).count closer := by omega
        exact_mod_cast this)
    rw [scopeReader, skipWhitespace_of_dropWhile hd]
    simp only [ReadByte, ne_eq, not_true_eq_false, if_false]
    refine ⟨(scopeReaderLoop c closer t (some c) 1 [c]).2.2, ?_⟩
    rw [if_pos hloop]

/-- C14: `scopeReader(opener, closer)` on `w ++ s ++ rest`, `w` whitespace and `s` the
shortest prefix that starts with `opener` and holds as many closers as openers, returns
exactly `s`, delimiters included; it returns the error `Expected opener` when the first
byte that is not whitespace is not `opener`, and the error `Unterminated opener` when the
input ends before the openers and closers balance. The opener is a byte that is not
whitespace and differs from the closer, as `(`, `)` and the braces do. -/
theorem scopeReader_returns_the_scope (opener closer : Nat) (hne : opener ≠ closer)
    (hsp : IsSpace opener = false) (w : Bytes) (hw : ∀ x ∈ w, IsSpace x = true)
    (last : Option Nat) :
    (∀ s rest, IsScope opener closer s →
      ∃ r', scopeReader opener closer ⟨w ++ s ++ rest, last⟩ = (s, none, r')) ∧
    (∀ c rest, IsSpace c = false → c ≠ opener →
      ∃ r', scopeReader opener closer ⟨w ++ c :: rest, last⟩ =
        ([], some (Error.expectedOpener opener c), r')) ∧
    (∀ body, NeverBalanced opener closer body →
      ∃ r', scopeReader opener closer ⟨w ++ body, last⟩ =
        ([], some (Error.unterminatedOpener opener), r')) :=
  ⟨fun s rest hs => ⟨_, scopeReader_of_isScope opener closer hne hsp w hw last s rest hs⟩,
   fun c rest hc hco => ⟨_, scopeReader_of_other_byte opener closer w hw last c rest hc hco⟩,
   fun body hb => scopeReader_of_neverBalanced opener closer hne hsp w hw last body hb⟩

/-- Instance of C14: the pair `(`, `)` on ` (a(b)c)) rest`, on ` a(b)` and on ` (a(b)c`. -/
theorem scopeReader_returns_the_scope_witness :
    (∃ r', scopeReader 40 41 ⟨bytes " " ++ bytes "(a(b)c)" ++ bytes ") rest", none⟩ =
      (bytes "(a(b)c)", none, r')) ∧
    (∃ r', scopeReader 40 41 ⟨bytes " " ++ 97 :: bytes "(b)", none⟩ =
      ([], some (Error.expectedOpener 40 97), r')) ∧
    (∃ r', scopeReader 40 41 ⟨bytes " " ++ bytes "(a(b)c", none⟩ =
      ([], some (Error.unterminatedOpener 40), r')) :=
  have h := scopeReader_returns_the_scope 40 41 (by decide) (by decide) (bytes " ")
    (by decide) none
  ⟨h.1 (bytes "(a(b)c)") (bytes ") rest") (by decide),
   h.2.1 97 (bytes "(b)") (by decide) (by decide),
   h.2.2 (bytes "(a(b)c") (by decide)⟩

/-! ## The tokeniser -/

theorem syntaxReaderReserved_eq (inp : Bytes) (l : List Bytes) (last : Option Nat) :
    syntaxReaderReserved ⟨inp, last⟩ l =
      (l.find? (fun res => res.isPrefixOf inp)).map
        (fun res => (res, ⟨inp.drop res.length, none⟩)) := by
  induction l generalizing last with
  | nil => rfl
  | cons res more ih =>
    rw [syntaxReaderReserved, Peek, List.find?_cons]
    by_cases hlen : inp.length < res.length
    · have hp : res.isPrefixOf inp = false := by
        rw [Bool.eq_false_iff]
        intro h
        have := (List.isPrefixOf_iff_prefix.1 h).length_le
        omega
      simp only [if_pos hlen, hp]
      exact ih none
    · simp only [if_neg hlen]
      by_cases hb : inp.take res.length = res
      · have hp : res.isPrefixOf inp = true :=
          List.isPrefixOf_iff_prefix.2 (List.prefix_iff_eq_take.2 hb.symm)
        simp only [if_pos hb, hp, Discard, Option.map_some']
      · have hp : res.isPrefixOf inp = false := by
          rw [Bool.eq_false_iff]
          intro h
          exact hb (List.prefix_iff_eq_take.1 (List.isPrefixOf_iff_prefix.1 h)).symm
        simp only [if_neg hb, hp]
        exact ih none

/-- The ten punctuation items of `reserved`. -/
theorem syntaxReader_punctuation (ws : Bytes) (hws : ∀ x ∈ ws, IsSpace x = true) (c : Nat)
    (hc : c ∈ [123, 125, 61, 124, 63, 42, 43, 40, 41, 59]) (rest : Bytes) (last : Option Nat) :
    syntaxReader ⟨ws ++ c :: rest, last⟩ = ([c], none, ⟨rest, none⟩) := by
  have hsp : IsSpace c = false := by
    simp only [List.mem_cons, List.mem_singleton, List.not_mem_nil, or_false] at hc
    rcases hc with h | h | h | h | h | h | h | h | h | h <;> subst h <;> rfl
  have hd : (ws ++ c :: rest).dropWhile IsSpace = c :: rest := dropWhile_append_stop hws hsp
  rw [syntaxReader, skipWhitespace_of_dropWhile hd]
  simp only [syntaxReaderReserved_eq]
  simp only [List.mem_cons, List.mem_singleton, List.not_mem_nil, or_false] at hc
  rcases hc with h | h | h | h | h | h | h | h | h | h <;> subst h <;>
    simp [reserved, bytes, List.isPrefixOf]

/-- The four keywords of `reserved`. -/
theorem syntaxReader_keyword (ws : Bytes) (hws : ∀ x ∈ ws, IsSpace x = true) (kw : Bytes)
    (hkw : kw ∈ [bytes "prefix", bytes "suffix", bytes "tok", bytes "skip"]) (rest : Bytes)
    (last : Option Nat) :
    syntaxReader ⟨ws ++ kw ++ rest, last⟩ = (kw, none, ⟨rest, none⟩) := by
  simp only [List.mem_cons, List.mem_singleton, List.not_mem_nil, or_false] at hkw
  rcases hkw with h | h | h | h <;> subst h
  · have hd : (ws ++ bytes "prefix" ++ rest).dropWhile IsSpace = 112 :: ([114, 101, 102, 105, 120] ++ rest) := by
      rw [List.append_assoc]; exact dropWhile_append_stop hws rfl
    rw [syntaxReader, skipWhitespace_of_dropWhile hd]
    simp [syntaxReaderReserved_eq, reserved, bytes, List.isPrefixOf]
  · have hd : (ws ++ bytes "suffix" ++ rest).dropWhile IsSpace = 115 :: ([117, 102, 102, 105, 120] ++ rest) := by
      rw [List.append_assoc]; exact dropWhile_append_stop hws rfl
    rw [syntaxReader, skipWhitespace_of_dropWhile hd]
    simp [syntaxReaderReserved_eq, reserved, bytes, List.isPrefixOf]
  · have hd : (ws ++ bytes "tok" ++ rest).dropWhile IsSpace = 116 :: ([111, 107] ++ rest) := by
      rw [List.append_assoc]; exact dropWhile_append_stop hws rfl
    rw [syntaxReader, skipWhitespace_of_dropWhile hd]
    simp [syntaxReaderReserved_eq, reserved, bytes, List.isPrefixOf]
  · have hd : (ws ++ bytes "skip" ++ rest).dropWhile IsSpace = 115 :: ([107, 105, 112] ++ rest) := by
      rw [List.append_assoc]; exact dropWhile_append_stop hws rfl
    rw [syntaxReader, skipWhitespace_of_dropWhile hd]
    simp [syntaxReaderReserved_eq, reserved, bytes, List.isPrefixOf]

theorem syntaxReaderIdentifier_of_dropWhile {acc rest : Bytes} {last : Option Nat} {c : Nat}
    {tail : Bytes} (h : rest.dropWhile isValidId = c :: tail) :
    syntaxReaderIdentifier acc rest last =
      (acc ++ rest.takeWhile isValidId, ⟨c :: tail, none⟩) := by
  induction rest generalizing acc last with
  | nil => simp at h
  | cons x xs ih =>
    rw [syntaxReaderIdentifier]
    by_cases hx : isValidId x = true
    · rw [if_pos hx]
      rw [List.dropWhile_cons_of_pos hx] at h
      rw [ih h, List.takeWhile_cons_of_pos hx]
      simp
    · rw [if_neg hx]
      rw [List.dropWhile_cons_of_neg hx] at h
      rw [List.takeWhile_cons_of_neg hx]
      injection h with h1 h2
      simp [UnreadByte, h1, h2]

/-- A keyword that is a prefix of an identifier followed by a byte that ends it is a
prefix of the identifier. -/
theorem keyword_prefix_of_identifier {kw name : Bytes} {x : Nat} {t : Bytes}
    (hkw : ∀ y ∈ kw, isValidId y = true) (hx : isValidId x = false)
    (h : kw <+: name ++ x :: t) : kw <+: name := by
  rcases List.prefix_or_prefix_of_prefix h (List.prefix_append name (x :: t)) with h1 | h1
  · exact h1
  · obtain ⟨d, hd⟩ := h1
    cases d with
    | nil => rw [List.append_nil] at hd; rw [hd]
    | cons y d =>
      exfalso
      rw [← hd, List.prefix_append_right_inj] at h
      have hy : y = x := by
        obtain ⟨u, hu⟩ := h
        injection hu with h1 _
      have := hkw y (by rw [← hd]; simp)
      rw [hy, hx] at this
      exact absurd this (by simp)

/-- An identifier that starts with no keyword, before a byte that ends it. -/
theorem syntaxReader_identifier (ws : Bytes) (hws : ∀ x ∈ ws, IsSpace x = true)
    (c : Nat) (cs : Bytes) (hc : isValidIdStarter c = true)
    (hcs : ∀ y ∈ cs, isValidId y = true) (x : Nat) (t : Bytes) (hx : isValidId x = false)
    (hkw : ∀ kw ∈ [bytes "prefix", bytes "suffix", bytes "tok", bytes "skip"],
      ¬ kw <+: c :: cs) (last : Option Nat) :
    syntaxReader ⟨ws ++ (c :: cs) ++ x :: t, last⟩ = (c :: cs, none, ⟨x :: t, none⟩) := by
  have hd : (ws ++ (c :: cs) ++ x :: t).dropWhile IsSpace = c :: (cs ++ x :: t) := by
    rw [List.append_assoc, List.cons_append]
    exact dropWhile_append_stop hws (isSpace_false_of_isValidIdStarter hc)
  have hnone : reserved.find? (fun res => res.isPrefixOf (c :: (cs ++ x :: t))) = none := by
    apply find?_eq_none_of_forall
    intro res hres
    rw [Bool.eq_false_iff]
    intro hp
    have hp := List.isPrefixOf_iff_prefix.1 hp
    rw [← List.cons_append] at hp
    simp only [reserved, List.mem_cons, List.mem_singleton, List.not_mem_nil, or_false] at hres
    have hid : isValidIdStarter c = true := hc
    simp only [isValidIdStarter, Bool.or_eq_true, Bool.and_eq_true, decide_eq_true_eq,
      beq_iff_eq] at hid
    rcases hres with h | h | h | h | h | h | h | h | h | h | h | h | h | h <;> subst h
    · exact hkw _ (by simp) (keyword_prefix_of_identifier (by decide) hx hp)
    · exact hkw _ (by simp) (keyword_prefix_of_identifier (by decide) hx hp)
    · exact hkw _ (by simp) (keyword_prefix_of_identifier (by decide) hx hp)
    · exact hkw _ (by simp) (keyword_prefix_of_identifier (by decide) hx hp)
    all_goals
      obtain ⟨u, hu⟩ := hp
      have h0 := congrArg List.head? hu
      simp [bytes] at h0
      omega
  have hdi : (c :: (cs ++ x :: t)).dropWhile isValidId = x :: t := by
    have : ∀ y ∈ c :: cs, isValidId y = true := by
      intro y hy
      rcases List.mem_cons.1 hy with h | h
      · rw [h]
        simp only [isValidIdStarter, Bool.or_eq_true, Bool.and_eq_true, decide_eq_true_eq,
          beq_iff_eq] at hc
        simp only [isValidId, Bool.or_eq_true, Bool.and_eq_true, decide_eq_true_eq, beq_iff_eq]
        omega
      · exact hcs y h
    rw [← List.cons_append]
    exact dropWhile_append_stop this hx
  have htw : (c :: (cs ++ x :: t)).takeWhile isValidId = c :: cs := by
    have : ∀ y ∈ c :: cs, isValidId y = true := by
      intro y hy
      rcases List.mem_cons.1 hy with h | h
      · rw [h]
        simp only [isValidIdStarter, Bool.or_eq_true, Bool.and_eq_true, decide_eq_true_eq,
          beq_iff_eq] at hc
        simp only [isValidId, Bool.or_eq_true, Bool.and_eq_true, decide_eq_true_eq, beq_iff_eq]
        omega
      · exact hcs y h
    rw [← List.cons_append]
    exact takeWhile_append_stop this (by intro y hy; simp at hy; rw [← hy]; exact hx)
  rw [syntaxReader, skipWhitespace_of_dropWhile hd]
  have hlen : ¬ (c :: (cs ++ x :: t)).length < 1 := by simp
  simp only [syntaxReaderReserved_eq, hnone, Option.map_none', Peek, List.take_succ_cons,
    List.take_zero, List.headD_cons, hc, if_true, if_neg hlen]
  rw [syntaxReaderIdentifier_of_dropWhile hdi, htw]
  simp

/-! ## Fuel of the statement loop -/

theorem CreateTokensLoop_step (unquote : Bytes → Option Bytes) (n : Nat) :
    ∀ toks r, CreateTokensLoop unquote n toks r ≠ .timeout →
      CreateTokensLoop unquote (n + 1) toks r = CreateTokensLoop unquote n toks r := by
  induction n with
  | zero => intro toks r h; exact absurd rfl h
  | succ n ih =>
    intro toks r h
    rw [CreateTokensLoop] at h
    rw [CreateTokensLoop, CreateTokensLoop]
    split
    · rfl
    · split
      · rfl
      · split
        · rfl
        · split
          · rfl
          · simp only [*, if_false] at h
            exact ih _ _ h

theorem CreateTokens_step (unquote : Bytes → Option Bytes) (n : Nat) (r : Reader)
    (h : CreateTokens unquote n r ≠ .timeout) :
    CreateTokens unquote (n + 1) r = CreateTokens unquote n r := by
  rw [CreateTokens] at h
  rw [CreateTokens, CreateTokens]
  split
  · rfl
  · split
    · rfl
    · split
      · rfl
      · simp only [*, if_false, not_true_eq_false, ne_eq] at h
        exact CreateTokensLoop_step unquote n _ _ h

theorem PopulateConstructsLoop_step (n : Nat) :
    ∀ (cs : List SimpleConstruct) (d : ChiselData),
      PopulateConstructsLoop n d cs ≠ .timeout →
      PopulateConstructsLoop (n + 1) d cs = PopulateConstructsLoop n d cs := by
  intro cs
  induction cs with
  | nil => intro d _; rfl
  | cons c cs ih =>
    intro d h
    rw [PopulateConstructsLoop] at h
    rw [PopulateConstructsLoop, PopulateConstructsLoop]
    cases hv : CreateConstructValue n d c.Value with
    | timeout => rw [hv] at h; exact absurd rfl h
    | error e =>
      rw [CreateConstructValue_add hv (fun h => Result.noConfusion h) 1]
    | ok ast =>
      rw [CreateConstructValue_add hv (fun h => Result.noConfusion h) 1]
      rw [hv] at h
      exact ih _ h

theorem ReadAndWriteLoop_step (unquote : Bytes → Option Bytes) (n : Nat) :
    ∀ d r, ReadAndWriteLoop unquote n d r ≠ .timeout →
      ReadAndWriteLoop unquote (n + 1) d r = ReadAndWriteLoop unquote n d r := by
  induction n with
  | zero => intro d r h; exact absurd rfl h
  | succ n ih =>
    intro d r h
    rw [ReadAndWriteLoop] at h
    rw [ReadAndWriteLoop, ReadAndWriteLoop]
    rcases hs : syntaxReader r with ⟨token, oe, r1⟩
    cases oe with
    | some e => rfl
    | none =>
      simp only [hs] at h
      dsimp only
      by_cases h1 : token = bytes ";"
      · simp only [if_pos h1] at h ⊢
        exact ih _ _ h
      simp only [if_neg h1] at h ⊢
      by_cases h2 : token = bytes "prefix"
      · simp only [if_pos h2] at h ⊢
        rcases hsc : scopeReader 123 125 r1 with ⟨scope, oe, r2⟩
        cases oe with
        | some e => rfl
        | none =>
          simp only [hsc] at h
          exact ih _ _ h
      simp only [if_neg h2] at h ⊢
      by_cases h3 : token = bytes "suffix"
      · simp only [if_pos h3] at h ⊢
        rcases hsc : scopeReader 123 125 r1 with ⟨scope, oe, r2⟩
        cases oe with
        | some e => rfl
        | none =>
          simp only [hsc] at h
          exact ih _ _ h
      simp only [if_neg h3] at h ⊢
      by_cases h4 : token = bytes "tok"
      · simp only [if_pos h4] at h ⊢
        cases hct : CreateTokens unquote n r1 with
        | timeout => rw [hct] at h; exact absurd rfl h
        | error e => rw [CreateTokens_step unquote n r1 (Result.ne_timeout_of_error hct), hct]
        | ok p =>
          rw [CreateTokens_step unquote n r1 (Result.ne_timeout_of_ok hct), hct]
          rw [hct] at h
          exact ih _ _ h
      simp only [if_neg h4] at h ⊢
      by_cases h5 : token = bytes "skip"
      · simp only [if_pos h5] at h ⊢
        cases hct : CreateTokens unquote n r1 with
        | timeout => rw [hct] at h; exact absurd rfl h
        | error e => rw [CreateTokens_step unquote n r1 (Result.ne_timeout_of_error hct), hct]
        | ok p =>
          rw [CreateTokens_step unquote n r1 (Result.ne_timeout_of_ok hct), hct]
          rw [hct] at h
          exact ih _ _ h
      simp only [if_neg h5] at h ⊢
      by_cases h6 : syntaxTokenType token = .ID
      · simp only [if_pos h6] at h ⊢
        rcases hs2 : syntaxReader r1 with ⟨eq, oe, r2⟩
        cases oe with
        | some e => rfl
        | none =>
          simp only [hs2] at h
          dsimp only
          by_cases h7 : syntaxTokenType eq ≠ .EQ
          · simp only [if_pos h7]
          simp only [if_neg h7] at h ⊢
          rcases hc : constructReader r2 with ⟨c, oe, r3⟩
          cases oe with
          | some e => rfl
          | none =>
            simp only [hc] at h
            exact ih _ _ h
      simp only [if_neg h6] at h ⊢
      exact ih _ _ h

theorem ReadAndWriteLoop_add {unquote : Bytes → Option Bytes} {n : Nat} {d : ChiselData}
    {r : Reader} {res : Result ChiselData} (h : ReadAndWriteLoop unquote n d r = res)
    (hres : res ≠ .timeout) (k : Nat) : ReadAndWriteLoop unquote (n + k) d r = res :=
  (fuel_mono_of_step (fun m => ReadAndWriteLoop unquote m d r)
    (fun m => ReadAndWriteLoop_step unquote m d r) (Nat.le_add_right n k)
    (by show ReadAndWriteLoop unquote n d r ≠ _; rw [h]; exact hres)).trans h

theorem PopulateConstructs_add {n : Nat} {d : ChiselData} {res : Result ChiselData}
    (h : PopulateConstructs n d = res) (hres : res ≠ .timeout) (k : Nat) :
    PopulateConstructs (n + k) d = res :=
  (fuel_mono_of_step (fun m => PopulateConstructsLoop m d d.SimpleConstructs)
    (fun m => PopulateConstructsLoop_step m d.SimpleConstructs d) (Nat.le_add_right n k)
    (by show PopulateConstructs n d ≠ _; rw [h]; exact hres)).trans h

theorem ReadAndWrite_add {unquote : Bytes → Option Bytes} {n : Nat} {file : Bytes}
    {res : Result ChiselData} (h : ReadAndWrite unquote n file = res)
    (hres : res ≠ .timeout) (k : Nat) : ReadAndWrite unquote (n + k) file = res := by
  rw [ReadAndWrite] at h ⊢
  cases hl : ReadAndWriteLoop unquote n ⟨[], [], [], [], [], []⟩ (NewReader file) with
  | timeout => rw [hl] at h; exact absurd h.symm hres
  | error e =>
    rw [ReadAndWriteLoop_add hl (fun h => Result.noConfusion h) k]
    rw [hl] at h; exact h
  | ok data =>
    rw [ReadAndWriteLoop_add hl (fun h => Result.noConfusion h) k]
    rw [hl] at h
    exact PopulateConstructs_add h hres k

/-! ## The statement loop -/

/-- C15, as stated, fails: on the input `prefix { #include <x> } suffix { /*end*/ }`
the run reaches `WriteFile` with the prefix `{ #include <x> }` and the suffix
`{ /*end*/ }`, braces included, so the prolog, after the fixed include, begins with a
brace. No string literal occurs, so `strconv.Unquote` is not called. -/
theorem scope_is_stored_with_its_braces :
    ReadAndWrite (fun _ => none) 4
        (bytes "prefix \x7b #include <x> \x7d suffix \x7b /*end*/ \x7d") =
      .ok ⟨[bytes "\x7b #include <x> \x7d"], [bytes "\x7b /*end*/ \x7d"], [], [], [], []⟩ ∧
    prolog ⟨[bytes "\x7b #include <x> \x7d"], [bytes "\x7b /*end*/ \x7d"], [], [], [], []⟩ =
      bytes "#include <istream>\n" ++ bytes "\x7b #include <x> \x7d" ∧
    bytes "\x7b #include <x> \x7d" ≠ bytes " #include <x> " :=
  ⟨rfl, rfl, by decide⟩

/-- C15, amended: for a statement `prefix S` (resp. `suffix S`), `S` a balanced brace
scope after optional whitespace, the statement loop appends the scope `S` itself, with
its enclosing braces, to `Prefixes` (resp. `Suffixes`) and goes on with the next
statement; the prolog grows by exactly `S`, the epilog likewise. -/
theorem scope_statements_append_the_scope (unquote : Bytes → Option Bytes) (fuel : Nat)
    (d : ChiselData) (ws w s rest : Bytes) (last : Option Nat)
    (hws : ∀ x ∈ ws, IsSpace x = true) (hw : ∀ x ∈ w, IsSpace x = true)
    (hs : IsScope 123 125 s) :
    ReadAndWriteLoop unquote (fuel + 1) d ⟨ws ++ bytes "prefix" ++ (w ++ s ++ rest), last⟩ =
      ReadAndWriteLoop unquote fuel (d.AddPrefix s) (ReadByte ⟨rest, lastRead s none⟩).2.2 ∧
    ReadAndWriteLoop unquote (fuel + 1) d ⟨ws ++ bytes "suffix" ++ (w ++ s ++ rest), last⟩ =
      ReadAndWriteLoop unquote fuel (d.AddSuffix s) (ReadByte ⟨rest, lastRead s none⟩).2.2 ∧
    (d.AddPrefix s).Prefixes = d.Prefixes ++ [s] ∧
    (d.AddSuffix s).Suffixes = d.Suffixes ++ [s] ∧
    prolog (d.AddPrefix s) = prolog d ++ s ∧
    epilog (d.AddSuffix s) = epilog d ++ s := by
  have hsc := scopeReader_of_isScope 123 125 (by decide) (by decide) w hw none s rest hs
  refine ⟨?_, ?_, rfl, rfl, ?_, ?_⟩
  · rw [ReadAndWriteLoop, syntaxReader_keyword ws hws (bytes "prefix") (by simp)]
    simp only [hsc]
    rfl
  · rw [ReadAndWriteLoop, syntaxReader_keyword ws hws (bytes "suffix") (by simp)]
    simp only [hsc]
    rfl
  · simp [prolog, ChiselData.AddPrefix]
  · simp [epilog, ChiselData.AddSuffix]

/-- Instance of C15, amended: the statement `prefix {x}` before ` r`. -/
theorem scope_statements_append_the_scope_witness :
    IsScope 123 125 (bytes "\x7bx\x7d") ∧
    ReadAndWriteLoop (fun _ => none) (3 + 1) ⟨[], [], [], [], [], []⟩
        ⟨[] ++ bytes "prefix" ++ (bytes " " ++ bytes "\x7bx\x7d" ++ bytes " r"), none⟩ =
      ReadAndWriteLoop (fun _ => none) 3
        (ChiselData.AddPrefix ⟨[], [], [], [], [], []⟩ (bytes "\x7bx\x7d"))
        (ReadByte ⟨bytes " r", lastRead (bytes "\x7bx\x7d") none⟩).2.2 ∧
    prolog (ChiselData.AddPrefix ⟨[], [], [], [], [], []⟩ (bytes "\x7bx\x7d")) =
      prolog ⟨[], [], [], [], [], []⟩ ++ bytes "\x7bx\x7d" :=
  have h := scope_statements_append_the_scope (fun _ => none) 3 ⟨[], [], [], [], [], []⟩ []
    (bytes " ") (bytes "\x7bx\x7d") (bytes " r") none (by decide) (by decide) (by decide)
  ⟨by decide, h.1, h.2.2.2.2.1⟩

/-! ## Token declarations -/

theorem isValidId_false_of_isSpace {x : Nat} (h : IsSpace x = true) : isValidId x = false := by
  simp only [IsSpace, Bool.or_eq_true, beq_iff_eq] at h
  simp only [isValidId, Bool.or_eq_false_iff, Bool.and_eq_false_iff, decide_eq_false_iff_not,
    beq_eq_false_iff_ne, ne_eq]
  omega

/-- C16, as stated, fails: the declaration `A;` and the declarations of the group
`(A B)`, whose last name is followed by `)`, are rejected with the error
`Expected '=', got ';'` (resp. `')'`), and so is the statement `tok A;`. -/
theorem name_before_semicolon_or_parenthesis_is_rejected :
    createToken (fun _ => none) (NewReader (bytes "A;")) =
      .error (.expectedEqInToken (bytes ";")) ∧
    CreateTokens (fun _ => none) 5 (NewReader (bytes " (A B)")) =
      .error (.expectedEqInToken (bytes ")")) ∧
    ReadAndWrite (fun _ => none) 5 (bytes "tok A;") =
      .error (.expectedEqInToken (bytes ";")) :=
  ⟨rfl, rfl, rfl⟩

/-- C16, amended: `createToken` returns `SimpleToken{Name: name}` for a declaration that
consists of a name, one that begins with none of the words `prefix`, `suffix`, `tok`,
`skip`, when the name is followed, after whitespace, by a letter or `_`, the start of
the next name; that byte is left for the next read. -/
theorem name_before_a_name_is_a_simple_token (unquote : Bytes → Option Bytes)
    (ws : Bytes) (c : Nat) (cs w : Bytes) (b : Nat) (rest : Bytes) (last : Option Nat)
    (hws : ∀ x ∈ ws, IsSpace x = true) (hc : isValidIdStarter c = true)
    (hcs : ∀ y ∈ cs, isValidId y = true)
    (hkw : ∀ kw ∈ [bytes "prefix", bytes "suffix", bytes "tok", bytes "skip"],
      ¬ kw <+: c :: cs)
    (hw : ∀ x ∈ w, IsSpace x = true) (hwne : w ≠ []) (hb : isValidIdStarter b = true) :
    createToken unquote ⟨ws ++ (c :: cs) ++ (w ++ b :: rest), last⟩ =
      .ok (.SimpleToken (c :: cs), ⟨b :: rest, none⟩) := by
  cases w with
  | nil => exact absurd rfl hwne
  | cons x t =>
    have hx : isValidId x = false := isValidId_false_of_isSpace (hw x (by simp))
    have hd : (ws ++ (c :: cs) ++ (x :: t ++ b :: rest)).dropWhile IsSpace =
        c :: (cs ++ (x :: t ++ b :: rest)) := by
      rw [List.append_assoc, List.cons_append]
      exact dropWhile_append_stop hws (isSpace_false_of_isValidIdStarter hc)
    have hdig : ¬ (c < 48 ∨ c > 57) → False := by
      intro h
      simp only [isValidIdStarter, Bool.or_eq_true, Bool.and_eq_true, decide_eq_true_eq,
        beq_iff_eq] at hc
      omega
    have hpre : createTokenPrecedence ⟨ws ++ (c :: cs) ++ (x :: t ++ b :: rest), last⟩ =
        .ok (0, ⟨c :: (cs ++ (x :: t ++ b :: rest)), none⟩) := by
      rw [createTokenPrecedence, skipWhitespace_of_dropWhile hd]
      simp only [ReadByte]
      rw [if_pos (by by_contra h; exact hdig h)]
      rfl
    have hname := syntaxReader_identifier [] (fun y hy => absurd hy (List.not_mem_nil y))
      c cs hc hcs x (t ++ b :: rest) hx hkw none
    have hd2 : (x :: (t ++ b :: rest)).dropWhile IsSpace = b :: rest := by
      rw [← List.cons_append]
      exact dropWhile_append_stop hw (isSpace_false_of_isValidIdStarter hb)
    have hbl : (97 ≤ b ∧ b ≤ 122) ∨ (65 ≤ b ∧ b ≤ 90) ∨ b = 95 := by
      simp only [isValidIdStarter, Bool.or_eq_true, Bool.and_eq_true, decide_eq_true_eq,
        beq_iff_eq] at hb
      omega
    rw [createToken, hpre]
    simp only [List.nil_append, List.cons_append] at hname
    simp only [createTokenNamed, List.cons_append, hname]
    rw [skipWhitespace_of_dropWhile hd2]
    simp only [ReadByte, if_pos hbl, UnreadByte]

/-- Instance of C16, amended: the declaration `A` before the name `B`. -/
theorem name_before_a_name_is_a_simple_token_witness :
    createToken (fun _ => none) ⟨[] ++ (65 :: []) ++ (bytes " " ++ 66 :: bytes ")"), none⟩ =
      .ok (.SimpleToken (bytes "A"), ⟨bytes "B)", none⟩) :=
  name_before_a_name_is_a_simple_token (fun _ => none) [] 65 [] (bytes " ") 66 (bytes ")") none
    (by decide) (by decide) (by decide) (by decide) (by decide) (by decide) (by decide)

/-- C17: the declaration `F = (a){b}`, with no whitespace between the parameter group
and the body, is rejected with the error `Expected opener: {, got b!`: the loop of
`scopeReader` has read the `{` as the one byte more that it reads after the `)`. With
a space between the two, `F = (a) {b};` and `12 F = (a) {b};` give the function token
with the code `(a){b}` and the precedence `0` (resp. `12`), the `;` read with the body. -/
theorem function_token_without_whitespace_is_rejected (unquote : Bytes → Option Bytes) :
    createToken unquote (NewReader (bytes "F = (a)\x7bb\x7d")) =
      .error (.expectedOpener 123 98) ∧
    createToken unquote (NewReader (bytes "F = (a) \x7bb\x7d;")) =
      .ok (.FunctionToken (bytes "F") (bytes "(a)\x7bb\x7d") 0, ⟨[], some 59⟩) ∧
    createToken unquote (NewReader (bytes "12 F = (a) \x7bb\x7d;")) =
      .ok (.FunctionToken (bytes "F") (bytes "(a)\x7bb\x7d") 12, ⟨[], some 59⟩) ∧
    scopeReader 40 41 (NewReader (bytes "(a)\x7bb\x7d")) =
      (bytes "(a)", none, ⟨bytes "b\x7d", some 123⟩) :=
  ⟨rfl, rfl, rfl, rfl⟩

/-! ## Leading items of a statement -/

/-- C18, as stated, fails: the input `= | ? ( ) tok A r = A;` begins with five items
that are none of `;`, `prefix`, `suffix`, `tok`, `skip` or an identifier, and the run
returns no error: it reaches `WriteFile` with the token `A` and the construct `r`. So
does the input `tok (F = (a) {b} ) r = F;`, where the `)` that `CreateTokens` leaves
unread is the leading item of the next statement. -/
theorem leading_punctuation_is_not_an_error :
    ReadAndWrite (fun _ => none) 12 (bytes "= | ? ( ) tok A r = A;") =
      .ok ⟨[], [], [.SimpleToken (bytes "A")], [], [⟨bytes "r", bytes "A;"⟩],
        [⟨bytes "r", some (.UnitRegex Counter.zero (.SimpleToken (bytes "A")))⟩]⟩ ∧
    ReadAndWrite (fun _ => none) 12 (bytes "tok (F = (a) \x7bb\x7d ) r = F;") =
      .ok ⟨[], [], [.FunctionToken (bytes "F") (bytes "(a)\x7bb\x7d") 0], [],
        [⟨bytes "r", bytes "F;"⟩],
        [⟨bytes "r", some (.UnitRegex Counter.zero
          (.FunctionToken (bytes "F") (bytes "(a)\x7bb\x7d") 0))⟩]⟩ :=
  ⟨rfl, rfl⟩

/-- C18, amended: a statement that begins with one of the items `{`, `}`, `=`, `|`, `?`,
`*`, `+`, `(`, `)` is no error: the statement loop of `ReadAndWrite` consumes the item
and goes on with the next item, the model unchanged. -/
theorem leading_punctuation_is_skipped (unquote : Bytes → Option Bytes) (fuel : Nat)
    (d : ChiselData) (ws : Bytes) (c : Nat) (rest : Bytes) (last : Option Nat)
    (hws : ∀ x ∈ ws, IsSpace x = true)
    (hc : c ∈ [123, 125, 61, 124, 63, 42, 43, 40, 41]) :
    ReadAndWriteLoop unquote (fuel + 1) d ⟨ws ++ c :: rest, last⟩ =
      ReadAndWriteLoop unquote fuel d ⟨rest, none⟩ := by
  rw [ReadAndWriteLoop, syntaxReader_punctuation ws hws c (by
    simp only [List.mem_cons, List.mem_singleton, List.not_mem_nil, or_false] at hc ⊢
    omega) rest last]
  simp only [List.mem_cons, List.mem_singleton, List.not_mem_nil, or_false] at hc
  rcases hc with h | h | h | h | h | h | h | h | h <;> subst h <;> rfl

/-- Instance of C18, amended: the leading item `=` of ` = r`. -/
theorem leading_punctuation_is_skipped_witness :
    ReadAndWriteLoop (fun _ => none) (2 + 1) ⟨[], [], [], [], [], []⟩
        ⟨bytes " " ++ 61 :: bytes " r", none⟩ =
      ReadAndWriteLoop (fun _ => none) 2 ⟨[], [], [], [], [], []⟩ ⟨bytes " r", none⟩ :=
  leading_punctuation_is_skipped (fun _ => none) 2 ⟨[], [], [], [], [], []⟩ (bytes " ") 61
    (bytes " r") none (by decide) (by decide)

theorem ReadAndWrite_literal_then_stray_byte (unquote : Bytes → Option Bytes) :
    ReadAndWrite unquote 6 (bytes "tok A = " ++ [34, 97, 34] ++ bytes "; @ r = A;") =
      match unquote [34, 97, 34] with
      | some lit => .ok ⟨[], [], [.LiteralToken (bytes "A") lit 0], [], [], []⟩
      | none => .error .badToken := by
  cases h : unquote [34, 97, 34] with
  | none =>
    simp [ReadAndWrite, ReadAndWriteLoop, syntaxReader, syntaxReaderReserved, reserved,
      syntaxReaderIdentifier, CreateTokens, CreateTokensLoop, createToken, createTokenPrecedence,
      createTokenNamed, scopeReader, scopeReaderLoop, Discard, NewReader,
      stringReader, stringReaderLoop, skipWhitespace, skipWhitespaceLoop, UnreadByte,
      ReadByte, Peek, IsSpace, isValidId, isValidIdStarter, bytes, h]
  | some lit =>
    simp [ReadAndWrite, ReadAndWriteLoop, syntaxReader, syntaxReaderReserved, reserved,
      syntaxReaderIdentifier, CreateTokens, CreateTokensLoop, createToken, createTokenPrecedence,
      createTokenNamed, scopeReader, scopeReaderLoop, Discard, NewReader,
      stringReader, stringReaderLoop, skipWhitespace, skipWhitespaceLoop, UnreadByte,
      ReadByte, Peek, IsSpace, isValidId, isValidIdStarter, bytes, h,
      PopulateConstructs, PopulateConstructsLoop, syntaxTokenType, ChiselData.AddTokens]

/-- C19: on the input `tok A = "a"; @ r = A;` the tokeniser fails at the `@` that
begins the second statement with `No syntax tokens found!`, and `ReadAndWrite` returns
no error: unless `strconv.Unquote` rejects the literal `"a"`, the run reaches
`WriteFile` with the token `A` read so far, the rest of the input unread. On
`tok A r = A; @ s = A;` the construct `r` read before the `@` is resolved and passed
on too. Inside a statement the same error is returned: `r @ = A;` fails with it. -/
theorem tokeniser_error_between_statements_is_swallowed (unquote : Bytes → Option Bytes)
    (k : Nat) :
    ReadAndWrite unquote (6 + k) (bytes "tok A = " ++ [34, 97, 34] ++ bytes "; @ r = A;") =
      (match unquote [34, 97, 34] with
       | some lit => .ok ⟨[], [], [.LiteralToken (bytes "A") lit 0], [], [], []⟩
       | none => .error .badToken) ∧
    syntaxReader ⟨bytes " @ r = A;", none⟩ =
      ([], some .noSyntaxTokens, ⟨bytes "@ r = A;", none⟩) ∧
    ReadAndWrite unquote (8 + k) (bytes "tok A r = A; @ s = A;") =
      .ok ⟨[], [], [.SimpleToken (bytes "A")], [], [⟨bytes "r", bytes "A;"⟩],
        [⟨bytes "r", some (.UnitRegex Counter.zero (.SimpleToken (bytes "A")))⟩]⟩ ∧
    ReadAndWrite unquote (3 + k) (bytes "r @ = A;") = .error .noSyntaxTokens := by
  refine ⟨ReadAndWrite_add (ReadAndWrite_literal_then_stray_byte unquote) ?_ k, rfl,
    ReadAndWrite_add rfl (fun h => Result.noConfusion h) k,
    ReadAndWrite_add rfl (fun h => Result.noConfusion h) k⟩
  cases unquote [34, 97, 34] <;> exact fun h => Result.noConfusion h

/-! ## The fuel of `pdqsort_func` -/

theorem partitionDown_le {α : Type} (less : α → α → Bool) (data : List α) (a i : Nat) :
    ∀ j, partitionDown less data a i j ≤ j := by
  intro j
  induction j with
  | zero => simp [partitionDown]
  | succ j ih =>
    rw [partitionDown]
    split
    · exact Nat.le_succ_of_le ih
    · exact Nat.le_refl _

theorem partitionDown_ge {α : Type} (less : α → α → Bool) (data : List α) (a i : Nat) :
    ∀ j, i ≤ j + 1 → i ≤ partitionDown less data a i j + 1 := by
  intro j
  induction j with
  | zero => intro h; simpa [partitionDown] using h
  | succ j ih =>
    intro h
    rw [partitionDown]
    split
    · rename_i hc
      exact ih hc.1
    · exact h

theorem partitionUp_ge {α : Type} (less : α → α → Bool) (data : List α) (a j : Nat) :
    ∀ fuel i, i ≤ partitionUp less data a j fuel i := by
  intro fuel
  induction fuel with
  | zero => intro i; simp [partitionUp]
  | succ fuel ih =>
    intro i
    rw [partitionUp]
    split
    · exact Nat.le_trans (Nat.le_succ i) (ih (i + 1))
    · exact Nat.le_refl _

theorem partitionLoop_bounds {α : Type} (less : α → α → Bool) (a b : Nat) :
    ∀ fuel (data : List α) i j, a + 1 ≤ i → a ≤ j → j < b →
      a ≤ (partitionLoop less a fuel data i j).2.2 ∧
        (partitionLoop less a fuel data i j).2.2 < b := by
  intro fuel
  induction fuel with
  | zero => intro data i j _ haj hjb; exact ⟨haj, hjb⟩
  | succ fuel ih =>
    intro data i j hai haj hjb
    rw [partitionLoop]
    have hup := partitionUp_ge less data a j (j + 1 - i) i
    have hle := partitionDown_le less data a (partitionUp less data a j (j + 1 - i) i) j
    split
    · rename_i hgt
      dsimp only
      refine ⟨?_, Nat.lt_of_le_of_lt hle hjb⟩
      by_cases hcase : partitionUp less data a j (j + 1 - i) i ≤ j + 1
      · have := partitionDown_ge less data a _ j hcase
        omega
      · -- the scan went beyond `j + 1`: the second loop does not move
        have hj : partitionDown less data a (partitionUp less data a j (j + 1 - i) i) j = j := by
          cases j with
          | zero => rfl
          | succ j =>
            rw [partitionDown, if_neg]
            intro hc
            omega
        rw [hj]; exact haj
    · rename_i hgt
      apply ih
      · omega
      · omega
      · omega

theorem partition_func_bounds {α : Type} (less : α → α → Bool) (data : List α)
    (a b pivot : Nat) (h : a < b) :
    a ≤ (partition_func less data a b pivot).2.1 ∧
      (partition_func less data a b pivot).2.1 < b := by
  rw [partition_func]
  dsimp only
  have hup := partitionUp_ge less (lessSwap.Swap data a pivot) a (b - 1)
    (b - 1 + 1 - (a + 1)) (a + 1)
  have hle := partitionDown_le less (lessSwap.Swap data a pivot) a
    (partitionUp less (lessSwap.Swap data a pivot) a (b - 1) (b - 1 + 1 - (a + 1)) (a + 1))
    (b - 1)
  split
  · dsimp only
    refine ⟨?_, by omega⟩
    by_cases hcase : partitionUp less (lessSwap.Swap data a pivot) a (b - 1)
        (b - 1 + 1 - (a + 1)) (a + 1) ≤ b - 1 + 1
    · have := partitionDown_ge less (lessSwap.Swap data a pivot) a _ (b - 1) hcase
      omega
    · have hj : partitionDown less (lessSwap.Swap data a pivot) a
          (partitionUp less (lessSwap.Swap data a pivot) a (b - 1)
            (b - 1 + 1 - (a + 1)) (a + 1)) (b - 1) = b - 1 := by
        cases hb : b - 1 with
        | zero => rfl
        | succ j =>
          rw [partitionDown, if_neg]
          intro hc
          rw [hb] at hcase
          omega
      rw [hj]; omega
  · rename_i hgt
    have := partitionLoop_bounds less a b (b - a)
      (lessSwap.Swap (lessSwap.Swap data a pivot)
        (partitionUp less (lessSwap.Swap data a pivot) a (b - 1) (b - 1 + 1 - (a + 1)) (a + 1))
        (partitionDown less (lessSwap.Swap data a pivot) a
          (partitionUp less (lessSwap.Swap data a pivot) a (b - 1)
            (b - 1 + 1 - (a + 1)) (a + 1)) (b - 1)))
      (partitionUp less (lessSwap.Swap data a pivot) a (b - 1) (b - 1 + 1 - (a + 1)) (a + 1) + 1)
      (partitionDown less (lessSwap.Swap data a pivot) a
          (partitionUp less (lessSwap.Swap data a pivot) a (b - 1)
            (b - 1 + 1 - (a + 1)) (a + 1)) (b - 1) - 1)
      (by omega) (by omega) (by omega)
    exact this

theorem partitionEqualUp_ge {α : Type} (less : α → α → Bool) (data : List α) (a j : Nat) :
    ∀ fuel i, i ≤ partitionEqualUp less data a j fuel i := by
  intro fuel
  induction fuel with
  | zero => intro i; simp [partitionEqualUp]
  | succ fuel ih =>
    intro i
    rw [partitionEqualUp]
    split
    · exact Nat.le_trans (Nat.le_succ i) (ih (i + 1))
    · exact Nat.le_refl _

theorem partitionEqualLoop_ge {α : Type} (less : α → α → Bool) (a : Nat) :
    ∀ fuel (data : List α) i j, i ≤ (partitionEqualLoop less a fuel data i j).2 := by
  intro fuel
  induction fuel with
  | zero => intro data i j; exact Nat.le_refl _
  | succ fuel ih =>
    intro data i j
    rw [partitionEqualLoop]
    have hup := partitionEqualUp_ge less data a j (j + 1 - i) i
    split
    · exact hup
    · exact Nat.le_trans (Nat.le_trans hup (Nat.le_succ _)) (ih _ _ _)

theorem partitionEqual_func_gt {α : Type} (less : α → α → Bool) (data : List α)
    (a b pivot : Nat) : a < (partitionEqual_func less data a b pivot).2 := by
  rw [partitionEqual_func]
  exact partitionEqualLoop_ge less a _ _ (a + 1) (b - 1)

/-- With more fuel than `data[a:b]` is long, `pdqsort_func` returns. -/
theorem pdqsortLoop_isSome {α : Type} (next : Nat → Nat) (less : α → α → Bool) :
    ∀ (fuel : Nat) (data : List α) (a b limit : Nat) (wasBalanced wasPartitioned : Bool),
      b - a < fuel →
      (pdqsortLoop next less fuel data a b limit wasBalanced wasPartitioned).isSome = true := by
  intro fuel
  induction fuel with
  | zero => intro data a b limit wb wp h; exact absurd h (Nat.not_lt_zero _)
  | succ fuel ih =>
    intro data a b limit wb wp h
    rw [pdqsortLoop]
    by_cases h12 : b - a ≤ 12
    · rw [if_pos h12]; rfl
    rw [if_neg h12]
    by_cases hl : limit = 0
    · rw [if_pos hl]; rfl
    rw [if_neg hl]
    conv => lhs; zeta
    generalize (if wb = false then breakPatterns_func next data a b else data) = data1
    generalize (if wb = false then limit - 1 else limit) = limit1
    split
    rename_i pivot0 hint0 hpivot
    generalize (if hint0 = sortedHint.decreasingHint then reverseRange_func data1 a b
      else data1) = data2
    generalize (if hint0 = sortedHint.decreasingHint then b - 1 - (pivot0 - a)
      else pivot0) = pivot
    generalize (if hint0 = sortedHint.decreasingHint then sortedHint.increasingHint
      else hint0) = hint
    generalize (if wb = true ∧ wp = true ∧ hint = sortedHint.increasingHint then
      partialInsertionSort_func less data2 a b else (data2, false)) = tried
    split
    · rfl
    split
    · split
      rename_i data3 mid heq
      have hmid := partitionEqual_func_gt less tried.1 a b pivot
      rw [heq] at hmid
      exact ih _ _ _ _ _ _ (by dsimp only at hmid; omega)
    · split
      rename_i data3 mid alreadyPartitioned heq
      have hmid := partition_func_bounds less tried.1 a b pivot (by omega)
      rw [heq] at hmid
      dsimp only at hmid
      split
      · split
        · rename_i hnone
          have := ih data3 a mid limit1 true true (by omega)
          rw [hnone] at this
          exact absurd this (by simp)
        · exact ih _ _ _ _ _ _ (by omega)
      · split
        · rename_i hnone
          have := ih data3 (mid + 1) b limit1 true true (by omega)
          rw [hnone] at this
          exact absurd this (by simp)
        · exact ih _ _ _ _ _ _ (by omega)

/-- The function `sort.Slice` returns what `pdqsort_func` returns: the fuel that `Slice`
gives it is enough. -/
theorem Slice_eq_pdqsort {α : Type} (next : Nat → Nat) (less : α → α → Bool)
    (data : List α) :
    pdqsort_func next less (data.length + 1) data 0 data.length (bitsLen data.length) =
      some (Slice next less data) := by
  have h := pdqsortLoop_isSome next less (data.length + 1) data 0 data.length
    (bitsLen data.length) true true (by omega)
  rw [Slice]
  rw [pdqsort_func] at *
  cases hres : pdqsortLoop next less (data.length + 1) data 0 data.length
      (bitsLen data.length) true true with
  | none => rw [hres] at h; exact absurd h (by simp)
  | some sorted => rfl

/-! ## The try-sequence of the lexer -/

theorem writeLexerLoop_eq (tokens : List Token) :
    writeLexerLoop tokens = ((tokens.filter notSimple).map attempt).flatten := by
  induction tokens with
  | nil => rfl
  | cons t ts ih =>
    cases t with
    | SimpleToken n => rw [writeLexerLoop, ih]; rfl
    | LiteralToken n l p =>
      rw [writeLexerLoop, ih]
      · simp [notSimple, attempt]
      · intro _ h; cases h
    | FunctionToken n c p =>
      rw [writeLexerLoop, ih]
      · simp [notSimple, attempt]
      · intro _ h; cases h

theorem unstableSort_contract : SortSliceContract unstableSort := by
  intro key l
  have hrel : ∀ a b : Token, (decide (key b < key a) = false) ↔ key a ≤ key b := by
    intro a b; simp
  haveI : IsTotal Token (fun a b => decide (key b < key a) = false) :=
    ⟨fun a b => by simp only [hrel]; exact le_total _ _⟩
  haveI : IsTrans Token (fun a b => decide (key b < key a) = false) :=
    ⟨fun a b c => by simp only [hrel]; exact le_trans⟩
  constructor
  · exact (List.perm_insertionSort _ _).trans (List.reverse_perm l)
  · have := List.sorted_insertionSort (fun a b => decide (key b < key a) = false) l.reverse
    exact List.Pairwise.imp (fun {a b} h => (hrel a b).1 h) this

theorem choosePivot_thirteenTokens :
    choosePivot_func (fun a b => decide (TokenPrecedence a < TokenPrecedence b))
      thirteenTokens 0 13 = (6, .increasingHint) := by
  decide

theorem partialInsertionSort_thirteenTokens :
    partialInsertionSort_func (fun a b => decide (TokenPrecedence a < TokenPrecedence b))
      thirteenTokens 0 13 = (thirteenTokens, false) := by
  decide

theorem partition_thirteenTokens :
    partition_func (fun a b => decide (TokenPrecedence a < TokenPrecedence b))
      thirteenTokens 0 13 6 = (thirteenTokensSwapped, 0, true) := by
  decide

theorem insertionSort_thirteenTokens :
    insertionSort_func (fun a b => decide (TokenPrecedence a < TokenPrecedence b))
      thirteenTokensSwapped 1 13 = thirteenTokensSorted := by
  decide

/-- A slice of twelve elements at most is sorted by insertion. -/
theorem pdqsortLoop_short {α : Type} (next : Nat → Nat) (less : α → α → Bool) (fuel : Nat)
    (data : List α) (a b limit : Nat) (wasBalanced wasPartitioned : Bool)
    (h : b - a ≤ 12) :
    pdqsortLoop next less (fuel + 1) data a b limit wasBalanced wasPartitioned =
      some (insertionSort_func less data a b) := by
  rw [pdqsortLoop, if_pos h]

/-- The first round of `pdqsort_func` on a longer slice that starts at `0`, when no
swap was counted for the pivot, `partialInsertionSort_func` gives up and the left part
is the shorter one. -/
theorem pdqsortLoop_first_round {α : Type} (next : Nat → Nat) (less : α → α → Bool)
    (fuel : Nat) (data data1 data3 : List α) (b limit pivot mid : Nat)
    (alreadyPartitioned : Bool)
    (hlong : ¬ b - 0 ≤ 12) (hlimit : limit ≠ 0)
    (hpivot : choosePivot_func less data 0 b = (pivot, .increasingHint))
    (hgaveUp : partialInsertionSort_func less data 0 b = (data1, false))
    (hpartition : partition_func less data1 0 b pivot = (data3, mid, alreadyPartitioned))
    (hleft : mid - 0 < b - mid) :
    pdqsortLoop next less (fuel + 1) data 0 b limit true true =
      match pdqsortLoop next less fuel data3 0 mid limit true true with
      | none => none
      | some data4 =>
        pdqsortLoop next less fuel data4 (mid + 1) b limit
          (decide (mid - 0 ≥ (b - 0) / 8)) alreadyPartitioned := by
  rw [pdqsortLoop, if_neg hlong, if_neg hlimit]
  simp [hpivot, hgaveUp, hpartition, hleft]
  intro h
  omega

/-- The run of `pdqsort_func` on `thirteenTokens`: the pivot is `G`, at index 6; the
partition swaps it to the front and leaves it there; the twelve elements after it are
sorted by insertion. -/
theorem pdqsort_thirteenTokens (next : Nat → Nat) :
    pdqsort_func next (fun a b => decide (TokenPrecedence a < TokenPrecedence b)) 14
      thirteenTokens 0 13 (bitsLen 13) = some thirteenTokensSorted := by
  have h4 : bitsLen 13 = 4 := by decide
  rw [h4, pdqsort_func,
    pdqsortLoop_first_round next _ 13 thirteenTokens thirteenTokens thirteenTokensSwapped 13 4
      6 0 true (by decide) (by decide) choosePivot_thirteenTokens
      partialInsertionSort_thirteenTokens partition_thirteenTokens (by decide),
    pdqsortLoop_short next _ 12 thirteenTokensSwapped 0 0 4 true true (by decide)]
  have h0 : insertionSort_func (fun a b => decide (TokenPrecedence a < TokenPrecedence b))
      thirteenTokensSwapped 0 0 = thirteenTokensSwapped := by decide
  rw [h0]
  show pdqsortLoop next _ (12 + 1) thirteenTokensSwapped 1 13 4 _ _ = _
  rw [pdqsortLoop_short next _ 12 thirteenTokensSwapped 1 13 4 _ _ (by decide),
    insertionSort_thirteenTokens]

theorem trySequence_eq (sortSlice : (Token → Token → Bool) → List Token → List Token)
    (d : ChiselData) :
    trySequence sortSlice d =
      (sortSlice (fun a b => decide (TokenPrecedence a < TokenPrecedence b))
        d.Tokens).filter notSimple :=
  rfl

theorem Slice_thirteenTokens (next : Nat → Nat) :
    Slice next (fun a b => decide (TokenPrecedence a < TokenPrecedence b))
      thirteenTokens = thirteenTokensSorted := by
  have hlen : thirteenTokens.length = 13 := by decide
  rw [Slice, hlen, pdqsort_thirteenTokens next]

/-- C20, as stated, fails: for the thirteen tokens `A` (precedence `1`) and `B` to `M`
(precedence `0`), declared in this order, `sort.Slice` leaves `G` in front of `B`, so
the lexer tries `G` before the tokens `B` to `F`, which have the same precedence and
were declared before it. With more than twelve elements `pdqsort_func` partitions
around a pivot, here `G`, which it first swaps to the front; it returns within the
fuel, whatever the generator of `breakPatterns_func`, and what it returns is a
permutation with the precedences ascending. -/
theorem equal_precedence_does_not_keep_declaration_order :
    (∀ next : Nat → Nat,
      pdqsort_func next (fun a b => decide (TokenPrecedence a < TokenPrecedence b)) 14
        thirteenTokens 0 13 (bitsLen 13) = some thirteenTokensSorted) ∧
    (∀ next : Nat → Nat,
      trySequence (Slice next) ⟨[], [], thirteenTokens, [], [], []⟩ = thirteenTokensSorted) ∧
    thirteenTokens.filter (fun t => decide (TokenPrecedence t = 0)) =
      [.LiteralToken (bytes "B") (bytes "b") 0,
       .LiteralToken (bytes "C") (bytes "c") 0,
       .LiteralToken (bytes "D") (bytes "d") 0,
       .LiteralToken (bytes "E") (bytes "e") 0,
       .LiteralToken (bytes "F") (bytes "f") 0,
       .LiteralToken (bytes "G") (bytes "g") 0,
       .LiteralToken (bytes "H") (bytes "h") 0,
       .LiteralToken (bytes "I") (bytes "i") 0,
       .LiteralToken (bytes "J") (bytes "j") 0,
       .LiteralToken (bytes "K") (bytes "k") 0,
       .LiteralToken (bytes "L") (bytes "l") 0,
       .LiteralToken (bytes "M") (bytes "m") 0] ∧
    thirteenTokensSorted.filter (fun t => decide (TokenPrecedence t = 0)) =
      [.LiteralToken (bytes "G") (bytes "g") 0,
       .LiteralToken (bytes "B") (bytes "b") 0,
       .LiteralToken (bytes "C") (bytes "c") 0,
       .LiteralToken (bytes "D") (bytes "d") 0,
       .LiteralToken (bytes "E") (bytes "e") 0,
       .LiteralToken (bytes "F") (bytes "f") 0,
       .LiteralToken (bytes "H") (bytes "h") 0,
       .LiteralToken (bytes "I") (bytes "i") 0,
       .LiteralToken (bytes "J") (bytes "j") 0,
       .LiteralToken (bytes "K") (bytes "k") 0,
       .LiteralToken (bytes "L") (bytes "l") 0,
       .LiteralToken (bytes "M") (bytes "m") 0] ∧
    thirteenTokensSorted.Perm thirteenTokens ∧
    thirteenTokensSorted.Pairwise (fun a b => TokenPrecedence a ≤ TokenPrecedence b) := by
  refine ⟨pdqsort_thirteenTokens, fun next => ?_, by decide, by decide, by decide, by decide⟩
  have hfilter : thirteenTokensSorted.filter notSimple = thirteenTokensSorted := by decide
  rw [trySequence_eq, Slice_thirteenTokens next, hfilter]

/-- C20, amended: whatever `sort.Slice` does within its contract, the text of the lexer
is one attempt for each token of the try-sequence, in its order; the try-sequence holds
exactly the tokens of `Tokens` that are not simple, each as often as `Tokens` does, and
no token of `SkipTokens`; and it is ordered by precedence ascending. The order of
tokens of equal precedence is left to `sort.Slice`. -/
theorem try_sequence_is_ordered_by_precedence
    (sortSlice : (Token → Token → Bool) → List Token → List Token)
    (hsort : SortSliceContract sortSlice) (d : ChiselData) :
    (writeLexer sortSlice d).2 =
      bytes "Token token;\n" ++ ((trySequence sortSlice d).map attempt).flatten ++
        bytes "return Token::failed;" ∧
    (trySequence sortSlice d).Perm (d.Tokens.filter notSimple) ∧
    (trySequence sortSlice d).Pairwise
      (fun a b => TokenPrecedence a ≤ TokenPrecedence b) := by
  obtain ⟨hperm, hsorted⟩ := hsort TokenPrecedence d.Tokens
  refine ⟨?_, ?_, ?_⟩
  · simp only [writeLexer, trySequence, writeLexerLoop_eq]
  · exact hperm.filter _
  · exact hsorted.sublist (List.filter_sublist _)

/-- Instance of C20, amended: the tokens `B` of precedence `2`, `C` simple, `A` of
precedence `1`, sorted by `unstableSort`. -/
theorem try_sequence_is_ordered_by_precedence_witness :
    SortSliceContract unstableSort ∧
    trySequence unstableSort ⟨[], [],
        [.LiteralToken (bytes "B") (bytes "b") 2, .SimpleToken (bytes "C"),
         .FunctionToken (bytes "A") (bytes "(a)\x7bb\x7d") 1],
        [.LiteralToken (bytes "W") (bytes " ") 0], [], []⟩ =
      [.FunctionToken (bytes "A") (bytes "(a)\x7bb\x7d") 1,
       .LiteralToken (bytes "B") (bytes "b") 2] ∧
    (trySequence unstableSort ⟨[], [],
        [.LiteralToken (bytes "B") (bytes "b") 2, .SimpleToken (bytes "C"),
         .FunctionToken (bytes "A") (bytes "(a)\x7bb\x7d") 1],
        [.LiteralToken (bytes "W") (bytes " ") 0], [], []⟩).Pairwise
      (fun a b => TokenPrecedence a ≤ TokenPrecedence b) :=
  ⟨unstableSort_contract, rfl,
    (try_sequence_is_ordered_by_precedence unstableSort unstableSort_contract _).2.2⟩

/-! ## The numbering of the nodes -/

theorem ownId_self_zero (v : Variant) (c : Counter) (h : ownId v v c = []) : c.Count = 0 := by
  unfold ownId at h
  by_contra hc
  simp [hc] at h

theorem consecutive_zero (first : Nat) : consecutive first 0 = [] := rfl

theorem consecutive_succ (first n : Nat) :
    consecutive first (n + 1) = (first : Int) :: consecutive (first + 1) n := by
  simp [consecutive, List.range'_succ]

theorem consecutive_append (first n m : Nat) :
    consecutive first n ++ consecutive (first + n) m = consecutive first (n + m) := by
  simp [consecutive, ← List.map_append, List.range'_append, Nat.add_comm]

theorem fresh_list_cons {re : Regex} {rest : List Regex}
    (h : ∀ w, idsOfList w (re :: rest) = []) : Fresh re ∧ ∀ w, idsOfList w rest = [] := by
  constructor
  · intro w
    have := h w
    rw [idsOfList] at this
    exact (List.append_eq_nil.1 this).1
  · intro w
    have := h w
    rw [idsOfList] at this
    exact (List.append_eq_nil.1 this).2

theorem Numbers.none (v : Variant) (k : Counters) : Numbers v k k [] :=
  ⟨0, rfl, rfl⟩

theorem numbers_append {v : Variant} {k k1 k2 : Counters} {a b : List Int}
    (h1 : Numbers v k k1 a) (h2 : Numbers v k1 k2 b) : Numbers v k k2 (a ++ b) := by
  obtain ⟨n, hn, ha⟩ := h1
  obtain ⟨m, hm, hb⟩ := h2
  refine ⟨n + m, by omega, ?_⟩
  rw [ha, hb, hn, ← consecutive_append]
  congr 2
  omega

theorem Numbers.own (v w : Variant) (k k1 : Counters) (c : Counter)
    (hk : ∀ u, k1.get u = if u = w then k.get w + 1 else k.get u)
    (hc : c.Count = (k.get w + 1 : Nat)) : Numbers v k k1 (ownId v w c) := by
  by_cases hvw : v = w
  · subst hvw
    refine ⟨1, by rw [hk]; simp, ?_⟩
    have : c.Count ≠ 0 := by rw [hc]; omega
    simp [ownId, this, consecutive, hc]
    omega
  · refine ⟨0, by rw [hk]; simp [hvw], ?_⟩
    simp [ownId, hvw, consecutive]

theorem fresh_nested {c : Counter} {name : Bytes} {body : Regex}
    (h : Fresh (.NestedRegex c name (some body))) : c.Count = 0 ∧ Fresh body := by
  constructor
  · apply ownId_self_zero .nested
    have := h .nested
    rw [ids] at this
    exact (List.append_eq_nil.1 this).1
  · intro w
    have := h w
    rw [ids] at this
    exact (List.append_eq_nil.1 this).2

theorem fresh_chain {c : Counter} {chain : List Regex} (h : Fresh (.ChainRegex c chain)) :
    c.Count = 0 ∧ ∀ w, idsOfList w chain = [] := by
  constructor
  · apply ownId_self_zero .chain
    have := h .chain
    rw [ids] at this
    exact (List.append_eq_nil.1 this).1
  · intro w
    have := h w
    rw [ids] at this
    exact (List.append_eq_nil.1 this).2

theorem fresh_or {c : Counter} {chain : List Regex} (h : Fresh (.OrRegex c chain)) :
    c.Count = 0 ∧ ∀ w, idsOfList w chain = [] := by
  constructor
  · apply ownId_self_zero .or
    have := h .or
    rw [ids] at this
    exact (List.append_eq_nil.1 this).1
  · intro w
    have := h w
    rw [ids] at this
    exact (List.append_eq_nil.1 this).2

theorem fresh_multiplier {c : Counter} {requireOne : Bool} {inner : Regex}
    (h : Fresh (.MultiplierRegex c requireOne inner)) : c.Count = 0 ∧ Fresh inner := by
  constructor
  · apply ownId_self_zero .multiplier
    have := h .multiplier
    rw [ids] at this
    exact (List.append_eq_nil.1 this).1
  · intro w
    have := h w
    rw [ids] at this
    exact (List.append_eq_nil.1 this).2

theorem fresh_optional {c : Counter} {inner : Regex}
    (h : Fresh (.OptionalRegex c inner)) : c.Count = 0 ∧ Fresh inner := by
  constructor
  · apply ownId_self_zero .optional
    have := h .optional
    rw [ids] at this
    exact (List.append_eq_nil.1 this).1
  · intro w
    have := h w
    rw [ids] at this
    exact (List.append_eq_nil.1 this).2

mutual

theorem RegexToCppFunction_numbers (v : Variant) : ∀ (k : Counters) (r : Regex), Fresh r →
    Numbers v k (RegexToCppFunction k r).2.1 (ids v (RegexToCppFunction k r).2.2)
  | k, .UnitRegex c (.SimpleToken name), h => by
    rw [RegexToCppFunction]
    rw [h v]
    exact Numbers.none v k
  | k, .UnitRegex c (.LiteralToken n l p), h => by
    have hc : c.Count = 0 := ownId_self_zero .unit c (h .unit)
    rw [RegexToCppFunction, if_neg (by simp [hc])]
    · exact Numbers.own v .unit k _ _ (by intro u; cases u <;> rfl) rfl
    · intro _ h; cases h
  | k, .UnitRegex c (.FunctionToken n l p), h => by
    have hc : c.Count = 0 := ownId_self_zero .unit c (h .unit)
    rw [RegexToCppFunction, if_neg (by simp [hc])]
    · exact Numbers.own v .unit k _ _ (by intro u; cases u <;> rfl) rfl
    · intro _ h; cases h
  | k, .NestedRegex c name none, h => by
    have hc : c.Count = 0 := ownId_self_zero .nested c (h .nested)
    rw [RegexToCppFunction, if_neg (by simp [hc])]
    exact Numbers.own v .nested k _ _ (by intro u; cases u <;> rfl) rfl
  | k, .NestedRegex c name (some body), h => by
    obtain ⟨hc, hb⟩ := fresh_nested h
    rw [RegexToCppFunction, if_neg (by simp [hc])]
    simp only [ids, hb v, List.append_nil]
    exact Numbers.own v .nested k _ _ (by intro u; cases u <;> rfl) rfl
  | k, .ChainRegex c chain, h => by
    obtain ⟨hc, hl⟩ := fresh_chain h
    rw [RegexToCppFunction, if_neg (by simp [hc])]
    simp only [ids]
    exact numbers_append
      (Numbers.own v .chain k { k with chainRegexNum := k.chainRegexNum + 1 } _
        (by intro u; cases u <;> rfl) rfl)
      (RegexToCppFunctionLoop_numbers v (bytes " && ") _ chain hl)
  | k, .OrRegex c chain, h => by
    obtain ⟨hc, hl⟩ := fresh_or h
    rw [RegexToCppFunction, if_neg (by simp [hc])]
    simp only [ids]
    exact numbers_append
      (Numbers.own v .or k { k with orRegexNum := k.orRegexNum + 1 } _
        (by intro u; cases u <;> rfl) rfl)
      (RegexToCppFunctionLoop_numbers v (bytes " || ") _ chain hl)
  | k, .CapturedRegex p inner, h => by
    rw [RegexToCppFunction]
    simp only [ids]
    exact RegexToCppFunction_numbers v k inner (fun w => by have := h w; rwa [ids] at this)
  | k, .MultiplierRegex c requireOne inner, h => by
    obtain ⟨hc, hi⟩ := fresh_multiplier h
    rw [RegexToCppFunction, if_neg (by simp [hc])]
    simp only [ids]
    exact numbers_append
      (Numbers.own v .multiplier k { k with multiplierRegexNum := k.multiplierRegexNum + 1 } _
        (by intro u; cases u <;> rfl) rfl)
      (RegexToCppFunction_numbers v _ inner hi)
  | k, .OptionalRegex c inner, h => by
    obtain ⟨hc, hi⟩ := fresh_optional h
    rw [RegexToCppFunction, if_neg (by simp [hc])]
    simp only [ids]
    exact numbers_append
      (Numbers.own v .optional k { k with optionalRegexNum := k.optionalRegexNum + 1 } _
        (by intro u; cases u <;> rfl) rfl)
      (RegexToCppFunction_numbers v _ inner hi)

theorem RegexToCppFunctionLoop_numbers (v : Variant) (sep : Bytes) :
    ∀ (k : Counters) (l : List Regex), (∀ w, idsOfList w l = []) →
    Numbers v k (RegexToCppFunctionLoop sep k l).2.2.1
      (idsOfList v (RegexToCppFunctionLoop sep k l).2.2.2)
  | k, [], _ => by
    rw [RegexToCppFunctionLoop]
    exact Numbers.none v k
  | k, re :: rest, h => by
    obtain ⟨h1, h2⟩ := fresh_list_cons h
    rw [RegexToCppFunctionLoop]
    have a := RegexToCppFunction_numbers v k re h1
    have b := RegexToCppFunctionLoop_numbers v sep (RegexToCppFunction k re).2.1 rest h2
    exact numbers_append a b

end

mutual

theorem ids_RegexToCppPrototype (v : Variant) :
    ∀ r : Regex, ids v (RegexToCppPrototype r).2 = ids v r
  | .UnitRegex c (.SimpleToken name) => by rw [RegexToCppPrototype]
  | .UnitRegex c (.LiteralToken n l p) => by
    rw [RegexToCppPrototype]
    · split <;> rfl
    · intro _ h; cases h
  | .UnitRegex c (.FunctionToken n l p) => by
    rw [RegexToCppPrototype]
    · split <;> rfl
    · intro _ h; cases h
  | .NestedRegex c name none => by
    rw [RegexToCppPrototype]; split <;> rfl
  | .NestedRegex c name (some body) => by
    rw [RegexToCppPrototype]; split <;> rfl
  | .ChainRegex c chain => by
    rw [RegexToCppPrototype]
    split
    · rfl
    · simp only [ids, idsOfList_RegexToCppPrototypeLoop v chain]
      rfl
  | .OrRegex c chain => by
    rw [RegexToCppPrototype]
    split
    · rfl
    · simp only [ids, idsOfList_RegexToCppPrototypeLoop v chain]
      rfl
  | .CapturedRegex p inner => by
    rw [RegexToCppPrototype]
    split
    · rfl
    · simp only [ids, ids_RegexToCppPrototype v inner]
  | .MultiplierRegex c requireOne inner => by
    rw [RegexToCppPrototype]
    split
    · rfl
    · simp only [ids, ids_RegexToCppPrototype v inner]
      rfl
  | .OptionalRegex c inner => by
    rw [RegexToCppPrototype]
    split
    · rfl
    · simp only [ids, ids_RegexToCppPrototype v inner]
      rfl

theorem idsOfList_RegexToCppPrototypeLoop (v : Variant) :
    ∀ l : List Regex, idsOfList v (RegexToCppPrototypeLoop l).2 = idsOfList v l
  | [] => by rw [RegexToCppPrototypeLoop]
  | re :: rest => by
    rw [RegexToCppPrototypeLoop]
    simp only [idsOfList, ids_RegexToCppPrototype v re,
      idsOfList_RegexToCppPrototypeLoop v rest]

end

theorem Shape.fresh {data : ChiselData} {S : List Bytes} {ast : Regex}
    (h : Shape data S ast) : Fresh ast := by
  induction h with
  | unit S token _ => intro v; cases v <;> rfl
  | placeholder S name _ => intro v; cases v <;> rfl
  | nested S name body _ ih =>
    intro v
    rw [ids, ih v]
    cases v <;> rfl
  | chain S ch _ _ ih =>
    intro v
    have hl : ∀ l : List Regex, (∀ x ∈ l, Fresh x) → idsOfList v l = [] := by
      intro l
      induction l with
      | nil => intro _; rfl
      | cons x xs ihl =>
        intro hx
        rw [idsOfList, hx x (List.mem_cons_self _ _) v,
          ihl (fun y hy => hx y (List.mem_cons_of_mem _ hy))]
        rfl
    rw [ids, hl ch ih]
    cases v <;> rfl
  | or S ch _ _ ih =>
    intro v
    have hl : ∀ l : List Regex, (∀ x ∈ l, Fresh x) → idsOfList v l = [] := by
      intro l
      induction l with
      | nil => intro _; rfl
      | cons x xs ihl =>
        intro hx
        rw [idsOfList, hx x (List.mem_cons_self _ _) v,
          ihl (fun y hy => hx y (List.mem_cons_of_mem _ hy))]
        rfl
    rw [ids, hl ch ih]
    cases v <;> rfl
  | multiplier S requireOne inner _ ih =>
    intro v
    rw [ids, ih v]
    cases v <;> rfl
  | optional S inner _ ih =>
    intro v
    rw [ids, ih v]
    cases v <;> rfl

/-- The ASTs that `CreateConstructValue` returns are fresh. -/
theorem fresh_of_CreateConstructValue {fuel : Nat} {data : ChiselData} {value : Bytes}
    {ast : Regex} (h : CreateConstructValue fuel data value = .ok ast) : Fresh ast :=
  (shape_of_CreateConstructValue h).fresh

theorem writeParserLoop_numbers : ∀ (cs : List Construct) (out : ParserBuilders)
    (s : LoweringState), (∀ c ∈ cs, ∃ r, c.Value = some r ∧ Fresh r) →
    ∃ out1 s1 cs1, writeParserLoop out s cs = some (out1, s1, cs1) ∧
      ∀ v, Numbers v s.counters s1.counters (idsOfConstructs v cs1)
  | [], out, s, _ => ⟨out, s, [], rfl, fun v => Numbers.none v _⟩
  | c :: cs, out, s, h => by
    obtain ⟨r, hr, hfresh⟩ := h c (List.mem_cons_self _ _)
    obtain ⟨name, value⟩ := c
    simp only at hr
    subst hr
    have hrest : ∀ c ∈ cs, ∃ r, c.Value = some r ∧ Fresh r :=
      fun c hc => h c (List.mem_cons_of_mem _ hc)
    rw [writeParserLoop]
    by_cases hcr : s.createdConstructs.contains name = true
    · simp only [ConstructToCppFunction, if_pos hcr]
      split
      · rename_i heq
        obtain ⟨o, s2, c2, hl, _⟩ := writeParserLoop_numbers cs _ _ hrest
        rw [hl] at heq
        cases heq
      · rename_i out1 s1 cs1 heq
        obtain ⟨o, s2, c2, hl, hnum⟩ := writeParserLoop_numbers cs _ _ hrest
        rw [hl] at heq
        injection heq with heq
        injection heq with h1 heq
        injection heq with h2 h3
        subst h1 h2 h3
        refine ⟨_, _, _, rfl, fun v => ?_⟩
        simp only [idsOfConstructs, ids_RegexToCppPrototype]
        exact numbers_append (RegexToCppFunction_numbers v s.counters r hfresh) (hnum v)
    · simp only [ConstructToCppFunction, if_neg hcr]
      split
      · rename_i heq
        obtain ⟨o, s2, c2, hl, _⟩ := writeParserLoop_numbers cs _ _ hrest
        rw [hl] at heq
        cases heq
      · rename_i out1 s1 cs1 heq
        obtain ⟨o, s2, c2, hl, hnum⟩ := writeParserLoop_numbers cs _ _ hrest
        rw [hl] at heq
        injection heq with heq
        injection heq with h1 heq
        injection heq with h2 h3
        subst h1 h2 h3
        refine ⟨_, _, _, rfl, fun v => ?_⟩
        simp only [idsOfConstructs, ids_RegexToCppPrototype]
        exact numbers_append (RegexToCppFunction_numbers v s.counters r hfresh) (hnum v)

/-- C21: from counters that are all zero, `writeParser` lowers the constructs in
declaration order, and afterwards the IDs that the nodes of each variant have received,
read in declaration order of the constructs and, inside one body, depth-first
left-to-right with a node before its children, are `1, 2, 3, ...` up to the counter of
the variant. The bodies are fresh, as the parser builds them. -/
theorem ids_are_consecutive_in_visit_order (d : ChiselData) (prototyped created : List Bytes)
    (hfresh : ∀ c ∈ d.Constructs, ∃ r, c.Value = some r ∧ Fresh r) :
    ∃ out s1 d1, writeParser ⟨Counters.zero, prototyped, created⟩ d = some (out, s1, d1) ∧
      ∀ v, idsOfConstructs v d1.Constructs = consecutive 1 (s1.counters.get v) := by
  obtain ⟨out1, s1, cs1, hloop, hnum⟩ :=
    writeParserLoop_numbers d.Constructs ⟨[], [], [], [], []⟩
      ⟨Counters.zero, prototyped, created⟩ hfresh
  refine ⟨out1, s1, { d with Constructs := cs1 }, ?_, fun v => ?_⟩
  · rw [writeParser, hloop]
  · obtain ⟨n, hn, hids⟩ := hnum v
    have h0 : Counters.zero.get v = 0 := by cases v <;> rfl
    simp only [h0, Nat.zero_add] at hn hids
    rw [hids, hn]

/-- Instance of C21: the constructs `r = A B*;` and `s = B | A C;`: the units `A`, `B`,
`B`, `A` get the IDs 1, 2, 3, 4 (`C` is simple and gets none), the chains of `r` and of
`s` the IDs 1 and 2. -/
theorem ids_are_consecutive_in_visit_order_witness :
    (∀ c ∈ sampleConstructs, ∃ r, c.Value = some r ∧ Fresh r) ∧
    (∃ out s1 d1, writeParser ⟨Counters.zero, [], []⟩
        { sampleData with Constructs := sampleConstructs } = some (out, s1, d1) ∧
      ∀ v, idsOfConstructs v d1.Constructs = consecutive 1 (s1.counters.get v)) ∧
    (writeParser ⟨Counters.zero, [], []⟩
        { sampleData with Constructs := sampleConstructs }).map
      (fun x => (idsOfConstructs .unit x.2.2.Constructs,
        idsOfConstructs .chain x.2.2.Constructs, x.2.1.counters)) =
      some ([1, 2, 3, 4], [1, 2], ⟨4, 0, 2, 1, 1, 0⟩) :=
  have h : ∀ c ∈ sampleConstructs, ∃ r, c.Value = some r ∧ Fresh r := by
    intro c hc
    simp only [sampleConstructs, List.mem_cons, List.mem_singleton, List.not_mem_nil,
      or_false] at hc
    rcases hc with rfl | rfl
    · exact ⟨_, rfl, fun v => by cases v <;> rfl⟩
    · exact ⟨_, rfl, fun v => by cases v <;> rfl⟩
  ⟨h, ids_are_consecutive_in_visit_order
    { sampleData with Constructs := sampleConstructs } [] [] h, rfl⟩

/-! ## Units over simple tokens, and lowering twice -/

theorem RegexToCppFunction_simple (k : Counters) (c : Counter) (name : Bytes) :
    RegexToCppFunction k (.UnitRegex c (.SimpleToken name)) =
      ([], k, .UnitRegex c (.SimpleToken name)) := by
  rw [RegexToCppFunction]

theorem RegexToCppFunctionLoop_simple_head (sep : Bytes) (k : Counters) (c : Counter)
    (name : Bytes) (rest : List Regex) :
    RegexToCppFunctionLoop sep k (.UnitRegex c (.SimpleToken name) :: rest) =
      (bytes "\n" ++ (RegexToCppFunctionLoop sep k rest).1,
        (RegexToCppFunctionLoop sep k rest).2.1,
        (RegexToCppFunctionLoop sep k rest).2.2.1,
        .UnitRegex c (.SimpleToken name) :: (RegexToCppFunctionLoop sep k rest).2.2.2) := by
  rw [RegexToCppFunctionLoop, RegexToCppFunction_simple]
  simp [isSimpleUnit]

theorem RegexToCppFunctionLoop_simple_inside (sep : Bytes) (c : Counter) (name : Bytes)
    (post : List Regex) : ∀ (pre : List Regex) (k : Counters),
    (RegexToCppFunctionLoop sep k (pre ++ .UnitRegex c (.SimpleToken name) :: post)).2.2.1 =
      (RegexToCppFunctionLoop sep k (pre ++ post)).2.2.1 ∧
    (RegexToCppFunctionLoop sep k (pre ++ .UnitRegex c (.SimpleToken name) :: post)).2.2.2 =
      (RegexToCppFunctionLoop sep k (pre ++ post)).2.2.2.take pre.length ++
        .UnitRegex c (.SimpleToken name) ::
          (RegexToCppFunctionLoop sep k (pre ++ post)).2.2.2.drop pre.length ∧
    (post ≠ [] →
      (RegexToCppFunctionLoop sep k (pre ++ .UnitRegex c (.SimpleToken name) :: post)).2.1 =
        (RegexToCppFunctionLoop sep k (pre ++ post)).2.1)
  | [], k => by
    simp [RegexToCppFunctionLoop_simple_head]
  | x :: pre, k => by
    obtain ⟨h1, h2, h3⟩ :=
      RegexToCppFunctionLoop_simple_inside sep c name post pre (RegexToCppFunction k x).2.1
    have hl1 : 0 < (pre ++ Regex.UnitRegex c (.SimpleToken name) :: post).length := by simp
    rw [List.cons_append, List.cons_append, RegexToCppFunctionLoop, RegexToCppFunctionLoop]
    dsimp only
    refine ⟨h1, ?_, fun hpost => ?_⟩
    · rw [h2]; rfl
    · have hl2 : 0 < (pre ++ post).length := by
        cases post with
        | nil => exact absurd rfl hpost
        | cons y ys => simp
      rw [h3 hpost, if_pos hl1, if_pos hl2]

theorem RegexToCppFunction_again : ∀ (k : Counters) (r : Regex) (k2 : Counters),
    RegexToCppFunction k2 (RegexToCppFunction k r).2.2 =
      ([], k2, (RegexToCppFunction k r).2.2)
  | k, .UnitRegex c (.SimpleToken name), k2 => by
    rw [RegexToCppFunction, RegexToCppFunction]
  | k, .UnitRegex c (.LiteralToken n l p), k2 => by
    rw [RegexToCppFunction]
    · split
      · rename_i h
        rw [RegexToCppFunction, if_pos h]
        intro _ h; cases h
      · rw [RegexToCppFunction, if_pos (by simp; omega)]
        intro _ h; cases h
    · intro _ h; cases h
  | k, .UnitRegex c (.FunctionToken n l p), k2 => by
    rw [RegexToCppFunction]
    · split
      · rename_i h
        rw [RegexToCppFunction, if_pos h]
        intro _ h; cases h
      · rw [RegexToCppFunction, if_pos (by simp; omega)]
        intro _ h; cases h
    · intro _ h; cases h
  | k, .NestedRegex c name value, k2 => by
    rw [RegexToCppFunction]
    split
    · rename_i h
      rw [RegexToCppFunction, if_pos h]
    · rw [RegexToCppFunction, if_pos (by simp; omega)]
  | k, .ChainRegex c chain, k2 => by
    rw [RegexToCppFunction]
    split
    · rename_i h
      rw [RegexToCppFunction, if_pos h]
    · rw [RegexToCppFunction, if_pos (by simp; omega)]
  | k, .OrRegex c chain, k2 => by
    rw [RegexToCppFunction]
    split
    · rename_i h
      rw [RegexToCppFunction, if_pos h]
    · rw [RegexToCppFunction, if_pos (by simp; omega)]
  | k, .CapturedRegex p inner, k2 => by
    rw [RegexToCppFunction]
    dsimp only
    rw [RegexToCppFunction, RegexToCppFunction_again k inner k2]
  | k, .MultiplierRegex c requireOne inner, k2 => by
    rw [RegexToCppFunction]
    split
    · rename_i h
      rw [RegexToCppFunction, if_pos h]
    · rw [RegexToCppFunction, if_pos (by simp; omega)]
  | k, .OptionalRegex c inner, k2 => by
    rw [RegexToCppFunction]
    split
    · rename_i h
      rw [RegexToCppFunction, if_pos h]
    · rw [RegexToCppFunction, if_pos (by simp; omega)]

theorem RegexToCppFunctionLoop_again (sep : Bytes) : ∀ (l : List Regex) (k : Counters),
    ∀ x ∈ (RegexToCppFunctionLoop sep k l).2.2.2, ∀ k2,
      RegexToCppFunction k2 x = ([], k2, x)
  | [], k => by
    rw [RegexToCppFunctionLoop]
    intro x hx; cases hx
  | re :: rest, k => by
    rw [RegexToCppFunctionLoop]
    intro x hx k2
    rcases List.mem_cons.1 hx with h | h
    · rw [h]; exact RegexToCppFunction_again k re k2
    · exact RegexToCppFunctionLoop_again sep rest _ x h k2

theorem RegexToCppPrototype_again : ∀ r : Regex,
    RegexToCppPrototype (RegexToCppPrototype r).2 = ([], (RegexToCppPrototype r).2)
  | .UnitRegex c (.SimpleToken name) => by
    rw [RegexToCppPrototype, RegexToCppPrototype]
  | .UnitRegex c (.LiteralToken n l p) => by
    rw [RegexToCppPrototype]
    · split
      · rename_i h
        rw [RegexToCppPrototype, if_pos h]
        intro _ h; cases h
      · rw [RegexToCppPrototype, if_pos rfl]
        intro _ h; cases h
    · intro _ h; cases h
  | .UnitRegex c (.FunctionToken n l p) => by
    rw [RegexToCppPrototype]
    · split
      · rename_i h
        rw [RegexToCppPrototype, if_pos h]
        intro _ h; cases h
      · rw [RegexToCppPrototype, if_pos rfl]
        intro _ h; cases h
    · intro _ h; cases h
  | .NestedRegex c name value => by
    rw [RegexToCppPrototype]
    split
    · rename_i h
      rw [RegexToCppPrototype, if_pos h]
    · rw [RegexToCppPrototype, if_pos rfl]
  | .ChainRegex c chain => by
    rw [RegexToCppPrototype]
    split
    · rename_i h
      rw [RegexToCppPrototype, if_pos h]
    · rw [RegexToCppPrototype, if_pos rfl]
  | .OrRegex c chain => by
    rw [RegexToCppPrototype]
    split
    · rename_i h
      rw [RegexToCppPrototype, if_pos h]
    · rw [RegexToCppPrototype, if_pos rfl]
  | .CapturedRegex p inner => by
    rw [RegexToCppPrototype]
    split
    · rename_i h
      rw [RegexToCppPrototype, if_pos h]
    · rw [RegexToCppPrototype, if_pos rfl]
  | .MultiplierRegex c requireOne inner => by
    rw [RegexToCppPrototype]
    split
    · rename_i h
      rw [RegexToCppPrototype, if_pos h]
    · rw [RegexToCppPrototype, if_pos rfl]
  | .OptionalRegex c inner => by
    rw [RegexToCppPrototype]
    split
    · rename_i h
      rw [RegexToCppPrototype, if_pos h]
    · rw [RegexToCppPrototype, if_pos rfl]

/-- C22, as stated, fails: lowering the unit over the simple token `C` from counters that
are zero leaves the unit counter at `0` and the node with the ID `0`; in
`Chain[C, A]` the unit `A` that follows gets the ID `1`, not `2`. -/
theorem simple_unit_gets_no_id :
    RegexToCppFunction Counters.zero (.UnitRegex Counter.zero (.SimpleToken (bytes "C"))) =
      ([], Counters.zero, .UnitRegex Counter.zero (.SimpleToken (bytes "C"))) ∧
    (RegexToCppFunction Counters.zero (.ChainRegex Counter.zero
        [.UnitRegex Counter.zero (.SimpleToken (bytes "C")),
         .UnitRegex Counter.zero (.LiteralToken (bytes "A") (bytes "a") 0)])).2 =
      (⟨1, 0, 1, 0, 0, 0⟩, .ChainRegex ⟨1, false⟩
        [.UnitRegex ⟨0, false⟩ (.SimpleToken (bytes "C")),
         .UnitRegex ⟨1, false⟩ (.LiteralToken (bytes "A") (bytes "a") 0)]) ∧
    (RegexToCppFunction Counters.zero (.ChainRegex Counter.zero
        [.UnitRegex Counter.zero (.LiteralToken (bytes "C") (bytes "c") 0),
         .UnitRegex Counter.zero (.LiteralToken (bytes "A") (bytes "a") 0)])).2 =
      (⟨2, 0, 1, 0, 0, 0⟩, .ChainRegex ⟨1, false⟩
        [.UnitRegex ⟨1, false⟩ (.LiteralToken (bytes "C") (bytes "c") 0),
         .UnitRegex ⟨2, false⟩ (.LiteralToken (bytes "A") (bytes "a") 0)]) :=
  ⟨rfl, rfl, rfl⟩

/-- C22, amended: a unit over a simple token is left out of the chain expression and is
not counted. Lowering it returns the empty text and leaves the counters and the node as
they are. As a child of a chain or an alternation, after the children `pre` and before
the children `post`, it changes neither the counters after the loop nor the other
children, which get the IDs they get without it; it adds nothing to the text of the
expression, which, when children follow it, is the text built without it. -/
theorem simple_unit_is_left_out_and_not_counted (sep : Bytes) (k : Counters) (c : Counter)
    (name : Bytes) (pre post : List Regex) :
    RegexToCppFunction k (.UnitRegex c (.SimpleToken name)) =
      ([], k, .UnitRegex c (.SimpleToken name)) ∧
    (RegexToCppFunctionLoop sep k (pre ++ .UnitRegex c (.SimpleToken name) :: post)).2.2.1 =
      (RegexToCppFunctionLoop sep k (pre ++ post)).2.2.1 ∧
    (RegexToCppFunctionLoop sep k (pre ++ .UnitRegex c (.SimpleToken name) :: post)).2.2.2 =
      (RegexToCppFunctionLoop sep k (pre ++ post)).2.2.2.take pre.length ++
        .UnitRegex c (.SimpleToken name) ::
          (RegexToCppFunctionLoop sep k (pre ++ post)).2.2.2.drop pre.length ∧
    (RegexToCppFunctionLoop sep k (.UnitRegex c (.SimpleToken name) :: post)).2.1 =
      (RegexToCppFunctionLoop sep k post).2.1 ∧
    (post ≠ [] →
      (RegexToCppFunctionLoop sep k (pre ++ .UnitRegex c (.SimpleToken name) :: post)).2.1 =
        (RegexToCppFunctionLoop sep k (pre ++ post)).2.1) :=
  have h := RegexToCppFunctionLoop_simple_inside sep c name post pre k
  ⟨RegexToCppFunction_simple k c name, h.1, h.2.1,
    by rw [RegexToCppFunctionLoop_simple_head], h.2.2⟩

/-- Instance of C22, amended: the simple unit `C` between `A` and `B` in a chain. -/
theorem simple_unit_is_left_out_and_not_counted_witness :
    [Regex.UnitRegex Counter.zero (.LiteralToken (bytes "B") (bytes "b") 0)] ≠ [] ∧
    (RegexToCppFunctionLoop (bytes " && ") Counters.zero
      ([.UnitRegex Counter.zero (.LiteralToken (bytes "A") (bytes "a") 0)] ++
        .UnitRegex Counter.zero (.SimpleToken (bytes "C")) ::
        [.UnitRegex Counter.zero (.LiteralToken (bytes "B") (bytes "b") 0)])).2.1 =
      (RegexToCppFunctionLoop (bytes " && ") Counters.zero
        ([.UnitRegex Counter.zero (.LiteralToken (bytes "A") (bytes "a") 0)] ++
          [.UnitRegex Counter.zero (.LiteralToken (bytes "B") (bytes "b") 0)])).2.1 ∧
    (RegexToCppFunctionLoop (bytes " && ") Counters.zero
      ([.UnitRegex Counter.zero (.LiteralToken (bytes "A") (bytes "a") 0)] ++
        [.UnitRegex Counter.zero (.LiteralToken (bytes "B") (bytes "b") 0)])).2.1 =
      bytes "(parse_unit_1(reader,nodes)) && (parse_unit_2(reader,nodes))" :=
  have hne : [Regex.UnitRegex Counter.zero (.LiteralToken (bytes "B") (bytes "b") 0)] ≠ [] :=
    fun h => List.noConfusion h
  ⟨hne,
    (simple_unit_is_left_out_and_not_counted (bytes " && ") Counters.zero Counter.zero
      (bytes "C") [.UnitRegex Counter.zero (.LiteralToken (bytes "A") (bytes "a") 0)]
      [.UnitRegex Counter.zero (.LiteralToken (bytes "B") (bytes "b") 0)]).2.2.2.2 hne,
    rfl⟩

/-- C23: lowering is idempotent per node. A node that `RegexToCppFunction` has returned
from, and every child of a chain or alternation lowered by the loop, gives the empty
text on a second call, whatever the counters are then, and the call leaves the counters
and the node, its ID included, as they are. A second `RegexToCppPrototype` gives the
empty text and leaves the node as it is. After `ConstructToCppFunction` or
`ConstructToCppPrototype` for a name, a second call for a construct of that name gives
the empty text. -/
theorem lowering_is_idempotent (k k2 : Counters) (r : Regex) (sep : Bytes) (l : List Regex)
    (keys : List Bytes) (name : Bytes) (value : Regex) (value2 : Option Regex) :
    RegexToCppFunction k2 (RegexToCppFunction k r).2.2 =
      ([], k2, (RegexToCppFunction k r).2.2) ∧
    (∀ x ∈ (RegexToCppFunctionLoop sep k l).2.2.2,
      RegexToCppFunction k2 x = ([], k2, x)) ∧
    RegexToCppPrototype (RegexToCppPrototype r).2 = ([], (RegexToCppPrototype r).2) ∧
    (∃ text keys1, ConstructToCppFunction keys ⟨name, some value⟩ = some (text, keys1) ∧
      ConstructToCppFunction keys1 ⟨name, value2⟩ = some ([], keys1)) ∧
    ConstructToCppPrototype (ConstructToCppPrototype keys ⟨name, some value⟩).2
      ⟨name, value2⟩ = ([], (ConstructToCppPrototype keys ⟨name, some value⟩).2) := by
  refine ⟨RegexToCppFunction_again k r k2,
    fun x hx => RegexToCppFunctionLoop_again sep l k x hx k2,
    RegexToCppPrototype_again r, ?_, ?_⟩
  · have h2 : (name :: keys).contains name = true := by simp
    by_cases h : keys.contains name = true
    · refine ⟨[], keys, ?_, ?_⟩
      · unfold ConstructToCppFunction; dsimp only; rw [if_pos h]
      · unfold ConstructToCppFunction; dsimp only; rw [if_pos h]
    · refine ⟨constructFunctionText name
          (RegexCall value [bytes "reader", bytes "node.get_node()->get_children()"]),
        name :: keys, ?_, ?_⟩
      · unfold ConstructToCppFunction; dsimp only; rw [if_neg h]
      · unfold ConstructToCppFunction; dsimp only; rw [if_pos h2]
  · have h2 : (name :: keys).contains name = true := by simp
    by_cases h : keys.contains name = true
    · unfold ConstructToCppPrototype; dsimp only; rw [if_pos h, if_pos h]
    · unfold ConstructToCppPrototype; dsimp only; rw [if_neg h, if_pos h2]

/-! ## Calls of routines that are not defined -/

theorem formatInt_natCast (n : Nat) :
    formatInt (n : Int) = (Nat.toDigits 10 n).map Char.toNat := rfl

theorem toDigitsCore_length_succ (f : Nat) : ∀ (m : Nat) (ds : List Char),
    ds.length + 1 ≤ (Nat.toDigitsCore 10 (f + 1) m ds).length := by
  induction f with
  | zero =>
    intro m ds
    simp only [Nat.toDigitsCore]
    split <;> simp
  | succ f ih =>
    intro m ds
    rw [Nat.toDigitsCore]
    split
    · simp
    · have := ih (m / 10) (Nat.digitChar (m % 10) :: ds)
      simp only [List.length_cons] at this
      omega

/-- The decimal text of an ID that a counter has given is not `0`. -/
theorem formatInt_succ_ne_zero (n : Nat) : formatInt ((n + 1 : Nat) : Int) ≠ bytes "0" := by
  rw [formatInt_natCast, Nat.toDigits, Nat.toDigitsCore]
  split
  · rename_i h
    have hn : n + 1 < 10 := by
      by_contra hge
      have : 1 ≤ (n + 1) / 10 := Nat.div_pos (by omega) (by omega)
      omega
    have hn9 : n < 9 := by omega
    interval_cases n <;> decide
  · intro h
    have hlen := congrArg List.length h
    have := toDigitsCore_length_succ n ((n + 1) / 10) [Nat.digitChar ((n + 1) % 10)]
    simp only [List.length_map, List.length_cons, List.length_nil] at hlen this
    have : (bytes "0").length = 1 := rfl
    omega

theorem self_mem_visited (r : Regex) : r ∈ visited r := by
  cases r <;> simp [visited]

theorem one_le_natCast_succ (n : Nat) : (1 : Int) ≤ ((n + 1 : Nat) : Int) := by omega

mutual

theorem visited_numbered : ∀ (k : Counters) (r : Regex), Fresh r →
    (∀ x ∈ visited r, isSimpleUnit x = false) →
    ∀ x ∈ visited (RegexToCppFunction k r).2.2, 1 ≤ callId x
  | k, .UnitRegex c (.SimpleToken name), _, hs => by
    have := hs _ (self_mem_visited _)
    simp [isSimpleUnit] at this
  | k, .UnitRegex c (.LiteralToken n l p), h, _ => by
    have hc : c.Count = 0 := ownId_self_zero .unit c (h .unit)
    rw [RegexToCppFunction, if_neg (by simp [hc])]
    · intro x hx
      simp only [visited, List.mem_singleton] at hx
      rw [hx]
      exact one_le_natCast_succ _
    · intro _ h; cases h
  | k, .UnitRegex c (.FunctionToken n l p), h, _ => by
    have hc : c.Count = 0 := ownId_self_zero .unit c (h .unit)
    rw [RegexToCppFunction, if_neg (by simp [hc])]
    · intro x hx
      simp only [visited, List.mem_singleton] at hx
      rw [hx]
      exact one_le_natCast_succ _
    · intro _ h; cases h
  | k, .NestedRegex c name none, h, _ => by
    have hc : c.Count = 0 := ownId_self_zero .nested c (h .nested)
    rw [RegexToCppFunction, if_neg (by simp [hc])]
    intro x hx
    simp only [visited, List.mem_singleton] at hx
    rw [hx]
    exact one_le_natCast_succ _
  | k, .NestedRegex c name (some body), h, _ => by
    obtain ⟨hc, _⟩ := fresh_nested h
    rw [RegexToCppFunction, if_neg (by simp [hc])]
    intro x hx
    simp only [visited, List.mem_singleton] at hx
    rw [hx]
    exact one_le_natCast_succ _
  | k, .ChainRegex c chain, h, hs => by
    obtain ⟨hc, hl⟩ := fresh_chain h
    rw [RegexToCppFunction, if_neg (by simp [hc])]
    intro x hx
    simp only [visited, List.mem_cons] at hx
    rcases hx with hx | hx
    · rw [hx]; exact one_le_natCast_succ _
    · exact visitedOfList_numbered (bytes " && ") _ chain hl
        (fun y hy => hs y (by simp only [visited, List.mem_cons]; exact Or.inr hy)) x hx
  | k, .OrRegex c chain, h, hs => by
    obtain ⟨hc, hl⟩ := fresh_or h
    rw [RegexToCppFunction, if_neg (by simp [hc])]
    intro x hx
    simp only [visited, List.mem_cons] at hx
    rcases hx with hx | hx
    · rw [hx]; exact one_le_natCast_succ _
    · exact visitedOfList_numbered (bytes " || ") _ chain hl
        (fun y hy => hs y (by simp only [visited, List.mem_cons]; exact Or.inr hy)) x hx
  | k, .CapturedRegex p inner, h, hs => by
    have ih := visited_numbered k inner (fun w => by have := h w; rwa [ids] at this)
      (fun y hy => hs y (by simp only [visited, List.mem_cons]; exact Or.inr hy))
    rw [RegexToCppFunction]
    intro x hx
    simp only [visited, List.mem_cons] at hx
    rcases hx with hx | hx
    · rw [hx, callId]; exact ih _ (self_mem_visited _)
    · exact ih x hx
  | k, .MultiplierRegex c requireOne inner, h, hs => by
    obtain ⟨hc, hi⟩ := fresh_multiplier h
    rw [RegexToCppFunction, if_neg (by simp [hc])]
    intro x hx
    simp only [visited, List.mem_cons] at hx
    rcases hx with hx | hx
    · rw [hx]; exact one_le_natCast_succ _
    · exact visited_numbered _ inner hi
        (fun y hy => hs y (by simp only [visited, List.mem_cons]; exact Or.inr hy)) x hx
  | k, .OptionalRegex c inner, h, hs => by
    obtain ⟨hc, hi⟩ := fresh_optional h
    rw [RegexToCppFunction, if_neg (by simp [hc])]
    intro x hx
    simp only [visited, List.mem_cons] at hx
    rcases hx with hx | hx
    · rw [hx]; exact one_le_natCast_succ _
    · exact visited_numbered _ inner hi
        (fun y hy => hs y (by simp only [visited, List.mem_cons]; exact Or.inr hy)) x hx

theorem visitedOfList_numbered (sep : Bytes) : ∀ (k : Counters) (l : List Regex),
    (∀ w, idsOfList w l = []) → (∀ x ∈ visitedOfList l, isSimpleUnit x = false) →
    ∀ x ∈ visitedOfList (RegexToCppFunctionLoop sep k l).2.2.2, 1 ≤ callId x
  | k, [], _, _ => by
    rw [RegexToCppFunctionLoop]
    intro x hx; cases hx
  | k, re :: rest, h, hs => by
    obtain ⟨h1, h2⟩ := fresh_list_cons h
    rw [RegexToCppFunctionLoop]
    intro x hx
    simp only [visitedOfList, List.mem_append] at hx
    rcases hx with hx | hx
    · exact visited_numbered k re h1
        (fun y hy => hs y (by simp only [visitedOfList, List.mem_append]; exact Or.inl hy))
        x hx
    · exact visitedOfList_numbered sep _ rest h2
        (fun y hy => hs y (by simp only [visitedOfList, List.mem_append]; exact Or.inr hy))
        x hx

end

theorem infix_skip {l a b : Bytes} (h : l <:+: b) : l <:+: a ++ b :=
  h.trans (List.suffix_append a b).isInfix

theorem infix_here (l b : Bytes) : l <:+: l ++ b := (List.prefix_append l b).isInfix

theorem infix_optionalFunctionText (inner : Bytes) (count : Int) (call : Bytes) :
    call <:+: optionalFunctionText inner count call := by
  unfold optionalFunctionText
  simp only [List.append_assoc]
  repeat (first | exact infix_here _ _ | apply infix_skip)

theorem infix_multiplierFunctionText (inner : Bytes) (count : Int) (call : Bytes) :
    call <:+: multiplierFunctionText inner count call := by
  unfold multiplierFunctionText
  simp only [List.append_assoc]
  repeat (first | exact infix_here _ _ | apply infix_skip)

theorem infix_multiplierOneFunctionText (inner : Bytes) (count : Int) (call : Bytes) :
    call <:+: multiplierOneFunctionText inner count call := by
  unfold multiplierOneFunctionText
  simp only [List.append_assoc]
  repeat (first | exact infix_here _ _ | apply infix_skip)

theorem infix_constructFunctionText (name call : Bytes) :
    call <:+: constructFunctionText name call := by
  unfold constructFunctionText
  simp only [List.append_assoc]
  repeat (first | exact infix_here _ _ | apply infix_skip)

theorem RegexCall_eq (args : List Bytes) : ∀ x : Regex,
    ∃ t, t ∈ [bytes "unit", bytes "nested", bytes "chain", bytes "or", bytes "multiplier",
        bytes "optional"] ∧
      RegexCall x args = bytes "parse_" ++ t ++ bytes "_" ++ formatInt (callId x) ++
        bytes "(" ++ joinArgs args ++ bytes ")"
  | .UnitRegex c _ => ⟨bytes "unit", by simp, rfl⟩
  | .NestedRegex c _ _ => ⟨bytes "nested", by simp, rfl⟩
  | .ChainRegex c _ => ⟨bytes "chain", by simp, rfl⟩
  | .OrRegex c _ => ⟨bytes "or", by simp, rfl⟩
  | .CapturedRegex _ inner => by
    rw [RegexCall, callId]
    exact RegexCall_eq args inner
  | .MultiplierRegex c _ _ => ⟨bytes "multiplier", by simp, rfl⟩
  | .OptionalRegex c _ => ⟨bytes "optional", by simp, rfl⟩

/-- C30: a unit over a simple token gets no ID and no routine, and is called all the
same. Lowering it returns the empty text and leaves counters and node as they are. When
it is the whole body of a construct, `ConstructToCppFunction` writes the call
`parse_unit_0(reader,node.get_node()->get_children())`; when it is the inner node of a
multiplier or of an optional, their routine holds the call `parse_unit_0(reader,nodes)`.
A unit routine that `RegexToCppFunction` does write is named after the counter just
incremented, whose decimal text is not `0`. For a fresh AST that lowering visits no
unit over a simple token of, every node visited has, after lowering, an ID of at least
`1`, and that ID is the one in the name `parse_<variant>_<id>` that `RegexCall` writes
for it. -/
theorem simple_unit_is_called_but_not_defined (k : Counters) (c : Counter) (p q : Bool)
    (sname name : Bytes) (keys : List Bytes) (requireOne : Bool) (token : Token)
    (r : Regex) (args : List Bytes)
    (hkey : keys.contains name = false) (hfresh : Fresh r)
    (hsimple : ∀ x ∈ visited r, isSimpleUnit x = false) :
    RegexToCppFunction k (.UnitRegex c (.SimpleToken sname)) =
      ([], k, .UnitRegex c (.SimpleToken sname)) ∧
    (∃ text, ConstructToCppFunction keys
        ⟨name, some (.UnitRegex ⟨0, p⟩ (.SimpleToken sname))⟩ = some (text, name :: keys) ∧
      bytes "parse_unit_0(reader,node.get_node()->get_children())" <:+: text) ∧
    bytes "parse_unit_0(reader,nodes)" <:+:
      (RegexToCppFunction k (.MultiplierRegex ⟨0, p⟩ requireOne
        (.UnitRegex ⟨0, q⟩ (.SimpleToken sname)))).1 ∧
    bytes "parse_unit_0(reader,nodes)" <:+:
      (RegexToCppFunction k (.OptionalRegex ⟨0, p⟩
        (.UnitRegex ⟨0, q⟩ (.SimpleToken sname)))).1 ∧
    ((RegexToCppFunction k (.UnitRegex c token)).1 = [] ∨
      (RegexToCppFunction k (.UnitRegex c token)).1 =
        unitFunctionText ((k.unitRegexNum + 1 : Nat) : Int) (TokenCall token [bytes "reader"])) ∧
    formatInt ((k.unitRegexNum + 1 : Nat) : Int) ≠ bytes "0" ∧
    ∀ x ∈ visited (RegexToCppFunction k r).2.2, 1 ≤ callId x ∧
      ∃ t, t ∈ [bytes "unit", bytes "nested", bytes "chain", bytes "or", bytes "multiplier",
          bytes "optional"] ∧
        RegexCall x args = bytes "parse_" ++ t ++ bytes "_" ++ formatInt (callId x) ++
          bytes "(" ++ joinArgs args ++ bytes ")" := by
  refine ⟨RegexToCppFunction_simple k c sname, ?_, ?_, ?_, ?_, formatInt_succ_ne_zero _,
    fun x hx => ⟨visited_numbered k r hfresh hsimple x hx, RegexCall_eq args x⟩⟩
  · refine ⟨constructFunctionText name
      (bytes "parse_unit_0(reader,node.get_node()->get_children())"), ?_,
      infix_constructFunctionText _ _⟩
    unfold ConstructToCppFunction
    dsimp only
    rw [if_neg (by rw [hkey]; simp)]
    rfl
  · cases requireOne
    · exact infix_multiplierFunctionText _ _ _
    · exact infix_multiplierOneFunctionText _ _ _
  · exact infix_optionalFunctionText _ _ _
  · cases token with
    | SimpleToken n => left; rw [RegexToCppFunction]
    | LiteralToken n l pr =>
      rw [RegexToCppFunction]
      · split
        · left; rfl
        · right; rfl
      · intro _ h; cases h
    | FunctionToken n l pr =>
      rw [RegexToCppFunction]
      · split
        · left; rfl
        · right; rfl
      · intro _ h; cases h

/-- Instance of C30: the construct `r = C;` over the simple token `C`: `writeParser`
writes no routine and a construct function that calls `parse_unit_0`; and the body
`Chain[A, Multiplier(false, B)]`, which holds no simple token. -/
theorem simple_unit_is_called_but_not_defined_witness :
    ([] : List Bytes).contains (bytes "r") = false ∧
    Fresh (.ChainRegex Counter.zero
      [.UnitRegex Counter.zero (.LiteralToken (bytes "A") (bytes "a") 0),
       .MultiplierRegex Counter.zero false
         (.UnitRegex Counter.zero (.LiteralToken (bytes "B") (bytes "b") 0))]) ∧
    (∀ x ∈ visited (RegexToCppFunction Counters.zero (.ChainRegex Counter.zero
      [.UnitRegex Counter.zero (.LiteralToken (bytes "A") (bytes "a") 0),
       .MultiplierRegex Counter.zero false
         (.UnitRegex Counter.zero (.LiteralToken (bytes "B") (bytes "b") 0))])).2.2,
      1 ≤ callId x) ∧
    (writeParser ⟨Counters.zero, [], []⟩
        { sampleData with
          Constructs := [⟨bytes "r", some (.UnitRegex Counter.zero (.SimpleToken (bytes "C")))⟩] }).map
      (fun x => (x.1.rDefBuilder, x.1.defBuilder)) =
      some ([], constructFunctionText (bytes "r")
        (bytes "parse_unit_0(reader,node.get_node()->get_children())") ++ bytes "\n") :=
  have hfresh : Fresh (.ChainRegex Counter.zero
      [.UnitRegex Counter.zero (.LiteralToken (bytes "A") (bytes "a") 0),
       .MultiplierRegex Counter.zero false
         (.UnitRegex Counter.zero (.LiteralToken (bytes "B") (bytes "b") 0))]) :=
    fun v => by cases v <;> rfl
  ⟨rfl, hfresh,
    fun x hx => ((simple_unit_is_called_but_not_defined Counters.zero Counter.zero false false
      (bytes "C") (bytes "r") [] false (.LiteralToken (bytes "A") (bytes "a") 0) _
      [bytes "reader", bytes "nodes"] rfl hfresh (by decide)).2.2.2.2.2.2 x hx).1,
    rfl⟩

/-! ## What the readers leave unread -/

/-- C24: `scopeReader` reads one byte too many. When the scope `s` is followed by a byte
`x`, the call that returns `s` has read `x` as well and dropped it: the reader is left
at `rest`, `len(s) + 1` bytes after the opener, with `x` as the last byte read. -/
theorem scopeReader_reads_one_byte_too_many (opener closer : Nat) (hne : opener ≠ closer)
    (hsp : IsSpace opener = false) (w : Bytes) (hw : ∀ y ∈ w, IsSpace y = true)
    (last : Option Nat) (s : Bytes) (x : Nat) (rest : Bytes)
    (hs : IsScope opener closer s) :
    scopeReader opener closer ⟨w ++ s ++ x :: rest, last⟩ = (s, none, ⟨rest, some x⟩) ∧
    (s ++ x :: rest).drop (s.length + 1) = rest := by
  constructor
  · rw [scopeReader_of_isScope opener closer hne hsp w hw last s (x :: rest) hs]
    rfl
  · simp

/-- Instance of C24: after `(a)` is read from `(a){b}` the next byte is `b`. -/
theorem scopeReader_reads_one_byte_too_many_witness :
    IsScope 40 41 (bytes "(a)") ∧
    scopeReader 40 41 ⟨[] ++ bytes "(a)" ++ 123 :: bytes "b\x7d", none⟩ =
      (bytes "(a)", none, ⟨bytes "b\x7d", some 123⟩) ∧
    (ReadByte ⟨bytes "b\x7d", some 123⟩).1 = 98 :=
  ⟨by decide,
    (scopeReader_reads_one_byte_too_many 40 41 (by decide) (by decide) [] (by decide) none
      (bytes "(a)") 123 (bytes "b\x7d") (by decide)).1,
    rfl⟩

/-- C25: `syntaxReader` matches the reserved items by raw prefix, before it tries an
identifier: when the input after whitespace starts with a reserved item, that item is
returned and exactly its bytes are consumed, whatever follows, identifier bytes
too. -/
theorem reserved_item_is_matched_by_raw_bytes (ws : Bytes) (hws : ∀ x ∈ ws, IsSpace x = true)
    (item : Bytes) (hitem : item ∈ reserved) (rest : Bytes) (last : Option Nat) :
    syntaxReader ⟨ws ++ item ++ rest, last⟩ = (item, none, ⟨rest, none⟩) := by
  simp only [reserved, List.mem_cons, List.mem_singleton, List.not_mem_nil, or_false] at hitem
  rcases hitem with h | h | h | h | h | h | h | h | h | h | h | h | h | h <;> subst h
  · exact syntaxReader_keyword ws hws _ (by simp) rest last
  · exact syntaxReader_keyword ws hws _ (by simp) rest last
  · exact syntaxReader_keyword ws hws _ (by simp) rest last
  · exact syntaxReader_keyword ws hws _ (by simp) rest last
  all_goals
    rw [List.append_assoc]
    exact syntaxReader_punctuation ws hws _ (by decide) rest last

/-- Instance of C25: `tokens` is read as the keyword `tok`, `skip_ws` as `skip`. -/
theorem reserved_item_is_matched_by_raw_bytes_witness :
    bytes "tok" ∈ reserved ∧ bytes "skip" ∈ reserved ∧
    syntaxReader ⟨bytes " " ++ bytes "tok" ++ bytes "ens B", none⟩ =
      (bytes "tok", none, ⟨bytes "ens B", none⟩) ∧
    syntaxReader ⟨[] ++ bytes "skip" ++ bytes "_ws", none⟩ =
      (bytes "skip", none, ⟨bytes "_ws", none⟩) :=
  ⟨by decide, by decide,
    reserved_item_is_matched_by_raw_bytes (bytes " ") (by decide) (bytes "tok") (by decide)
      (bytes "ens B") none,
    reserved_item_is_matched_by_raw_bytes [] (by decide) (bytes "skip") (by decide)
      (bytes "_ws") none⟩

/-- C26: only `Tokens` is searched when an atom is resolved, not `SkipTokens`. If the
run of `CreateConstructValue` reaches a `parseAtom` before the identifier `name`, and
`name` is the name of a token of `SkipTokens` but of no token of `Tokens` and of no
unresolved construct, the result is the error "failed to find token or construct". -/
theorem skip_token_is_not_found (fuel : Nat) (data : ChiselData) (value : Bytes)
    (n : Nat) (expandStack : List Bytes) (ws name tail : Bytes) (last : Option Nat)
    (hreach : Relation.ReflTransGen (Calls data) (.create fuel value [])
      (.atom (n + 1) expandStack ⟨ws ++ name ++ tail, last⟩))
    (hws : ∀ x ∈ ws, IsSpace x = true) (hname : IsIdentifier name)
    (htail : EndsIdentifier tail)
    (_hskip : ∃ token ∈ data.SkipTokens, TokenName token = name)
    (htok : ∀ token ∈ data.Tokens, TokenName token ≠ name)
    (hcon : ∀ construct ∈ data.SimpleConstructs, construct.Name ≠ name) :
    CreateConstructValue fuel data value = .error (.undefinedName name) := by
  obtain ⟨c, cs, hn, hc, hcs⟩ := hname
  subst hn
  apply Calls.fails_up_trans hreach
  simp only [Call.fails]
  rw [parseAtom_identifier n data expandStack ws c cs tail last hws hc hcs htail,
    find?_eq_none_of_forall _ _ (fun t ht => by simpa using htok t ht),
    find?_eq_none_of_forall _ _ (fun t ht => by simpa using hcon t ht)]

/-- Instance of C26: the file `skip W r = W;` declares `W` by `skip` only; the body `W;`
of `r` is rejected, and so is the run. -/
theorem skip_token_is_not_found_witness :
    Relation.ReflTransGen
      (Calls ⟨[], [], [], [.SimpleToken (bytes "W")], [⟨bytes "r", bytes "W;"⟩], []⟩)
      (.create 6 (bytes "W;") []) (.atom (0 + 1) [] ⟨[] ++ bytes "W" ++ bytes ";", none⟩) ∧
    (∃ token ∈ [Token.SimpleToken (bytes "W")], TokenName token = bytes "W") ∧
    CreateConstructValue 6
        ⟨[], [], [], [.SimpleToken (bytes "W")], [⟨bytes "r", bytes "W;"⟩], []⟩ (bytes "W;") =
      .error (.undefinedName (bytes "W")) ∧
    ReadAndWrite (fun _ => none) 8 (bytes "skip W r = W;") =
      .error (.undefinedName (bytes "W")) :=
  have hreach : Relation.ReflTransGen
      (Calls ⟨[], [], [], [.SimpleToken (bytes "W")], [⟨bytes "r", bytes "W;"⟩], []⟩)
      (.create 6 (bytes "W;") [])
      (.atom (0 + 1) [] ⟨[] ++ bytes "W" ++ bytes ";", none⟩) :=
    Relation.ReflTransGen.head (Calls.create_expression 5 _ _) <|
    Relation.ReflTransGen.head (Calls.expression_term 4 _ _) <|
    Relation.ReflTransGen.head (Calls.term_loop 3 _ _) <|
    Relation.ReflTransGen.head
      (Calls.termLoop_factor 2 [] [] (NewReader (bytes "W;")) ⟨bytes "W;", none⟩
        ⟨bytes ";", some 87⟩ 87 rfl rfl (by decide)) <|
    Relation.ReflTransGen.single (Calls.factor_atom 1 [] _)
  have hskip : ∃ token ∈ [Token.SimpleToken (bytes "W")], TokenName token = bytes "W" :=
    ⟨_, List.mem_singleton.2 rfl, rfl⟩
  ⟨hreach, hskip,
    skip_token_is_not_found 6 _ (bytes "W;") 0 [] [] (bytes "W") (bytes ";") none hreach
      (fun x hx => absurd hx (List.not_mem_nil x)) ⟨87, [], rfl, rfl, by simp⟩
      (by intro x hx
          have : x = 59 := by simpa [bytes] using hx.symm
          rw [this]; rfl)
      hskip (by decide) (by decide),
    rfl⟩

/-! ## Self-references -/

theorem expanded_of_finishExpression {data : ChiselData} {S : List Bytes} {alts : List Regex}
    (hne : alts ≠ []) (h : ∀ x ∈ alts, Expanded data S x) :
    Expanded data S (finishExpression alts) := by
  match alts, hne, h with
  | [a], _, h => exact h a (List.mem_singleton.mpr rfl)
  | a :: b :: t, _, h => exact Expanded.or S _ (by simp) h

theorem expanded_of_finishTerm {data : ChiselData} {S : List Bytes} {factors : List Regex}
    {r r' : Reader} {ast : Regex}
    (h : ∀ x ∈ factors, Expanded data S x) (hf : finishTerm factors r = .ok (ast, r')) :
    Expanded data S ast := by
  match factors, h, hf with
  | [], _, hf => simp [Chisel.finishTerm] at hf
  | [a], h, hf =>
    simp only [Chisel.finishTerm, Result.ok.injEq, Prod.mk.injEq] at hf
    rw [← hf.1]; exact h a (List.mem_singleton.mpr rfl)
  | a :: b :: t, h, hf =>
    simp only [Chisel.finishTerm, Result.ok.injEq, Prod.mk.injEq] at hf
    rw [← hf.1]; exact Expanded.chain S _ (by simp) h

theorem expanded_append {data : ChiselData} {S : List Bytes} {xs : List Regex} {y : Regex}
    (h : ∀ x ∈ xs, Expanded data S x) (hy : Expanded data S y) :
    ∀ x ∈ xs ++ [y], Expanded data S x := by
  intro x hx
  rcases List.mem_append.mp hx with hx | hx
  · exact h x hx
  · rw [List.mem_singleton.mp hx]; exact hy

theorem expanded_all (data : ChiselData) (n : Nat) :
    (∀ S r ast r', parseExpression n data S r = .ok (ast, r') → Expanded data S ast) ∧
    (∀ S a r ast r', parseExpressionLoop n data S a r = .ok (ast, r') → a ≠ [] →
      (∀ x ∈ a, Expanded data S x) → Expanded data S ast) ∧
    (∀ S r ast r', parseTerm n data S r = .ok (ast, r') → Expanded data S ast) ∧
    (∀ S a r ast r', parseTermLoop n data S a r = .ok (ast, r') →
      (∀ x ∈ a, Expanded data S x) → Expanded data S ast) ∧
    (∀ S r ast r', parseFactor n data S r = .ok (ast, r') → Expanded data S ast) ∧
    (∀ S r ast r', parseAtom n data S r = .ok (ast, r') → Expanded data S ast) ∧
    (∀ v S ast, createConstructValueWithStack n data v S = .ok ast → Expanded data S ast) := by
  induction n with
  | zero =>
    refine ⟨?_, ?_, ?_, ?_, ?_, ?_, ?_⟩
    · intro S r ast r' h; exact Result.noConfusion h
    · intro S a r ast r' h; exact Result.noConfusion h
    · intro S r ast r' h; exact Result.noConfusion h
    · intro S a r ast r' h; exact Result.noConfusion h
    · intro S r ast r' h; exact Result.noConfusion h
    · intro S r ast r' h; exact Result.noConfusion h
    · intro v S ast h; exact Result.noConfusion h
  | succ n ih =>
    obtain ⟨ihE, ihEL, ihT, ihTL, ihF, ihA, ihC⟩ := ih
    refine ⟨?_, ?_, ?_, ?_, ?_, ?_, ?_⟩
    · intro S r ast r' h
      rw [parseExpression] at h
      cases hT : parseTerm n data S r with
      | timeout => rw [hT] at h; exact Result.noConfusion h
      | error e => rw [hT] at h; exact Result.noConfusion h
      | ok p =>
        obtain ⟨left, r1⟩ := p
        rw [hT] at h
        exact ihEL S _ _ _ _ h (by simp) (by
          intro x hx; rw [List.mem_singleton.mp hx]; exact ihT S r left r1 hT)
    · intro S a r ast r' h hne ha
      rw [parseExpressionLoop] at h
      split at h
      · split at h
        · simp only [Result.ok.injEq, Prod.mk.injEq] at h
          rw [← h.1]; exact expanded_of_finishExpression hne ha
        · exact Result.noConfusion h
      · split at h
        · split at h
          · simp only [Result.ok.injEq, Prod.mk.injEq] at h
            rw [← h.1]; exact expanded_of_finishExpression hne ha
          · exact Result.noConfusion h
        · split at h
          · rename_i _ _ _ _ b r2 _ _
            cases hT : parseTerm n data S r2 with
            | timeout => rw [hT] at h; exact Result.noConfusion h
            | error e => rw [hT] at h; exact Result.noConfusion h
            | ok p =>
              obtain ⟨right, r3⟩ := p
              rw [hT] at h
              exact ihEL S _ _ _ _ h (by simp) (expanded_append ha (ihT S _ _ _ hT))
          · simp only [Result.ok.injEq, Prod.mk.injEq] at h
            rw [← h.1]; exact expanded_of_finishExpression hne ha
    · intro S r ast r' h
      rw [parseTerm] at h
      exact ihTL S _ _ _ _ h (by simp)
    · intro S a r ast r' h ha
      rw [parseTermLoop] at h
      split at h
      · split at h
        · exact expanded_of_finishTerm ha h
        · exact Result.noConfusion h
      · split at h
        · split at h
          · exact expanded_of_finishTerm ha h
          · exact Result.noConfusion h
        · split at h
          · exact expanded_of_finishTerm ha h
          · rename_i _ _ _ _ b r2 _ _
            cases hT : parseFactor n data S (UnreadByte r2).2 with
            | timeout => rw [hT] at h; exact Result.noConfusion h
            | error e => rw [hT] at h; exact Result.noConfusion h
            | ok p =>
              obtain ⟨factor, r3⟩ := p
              rw [hT] at h
              exact ihTL S _ _ _ _ h (expanded_append ha (ihF S _ _ _ hT))
    · intro S r ast r' h
      rw [parseFactor] at h
      cases hT : parseAtom n data S r with
      | timeout => rw [hT] at h; exact Result.noConfusion h
      | error e => rw [hT] at h; exact Result.noConfusion h
      | ok p =>
        obtain ⟨atom, r1⟩ := p
        rw [hT] at h
        have hA := ihA S _ _ _ hT
        dsimp only at h
        split at h
        · split at h
          · simp only [Result.ok.injEq, Prod.mk.injEq] at h
            rw [← h.1]; exact hA
          · exact Result.noConfusion h
        · split at h
          · split at h
            · simp only [Result.ok.injEq, Prod.mk.injEq] at h
              rw [← h.1]; exact hA
            · exact Result.noConfusion h
          · split at h
            · simp only [Result.ok.injEq, Prod.mk.injEq] at h
              rw [← h.1]; exact Expanded.multiplier S _ _ hA
            · split at h
              · simp only [Result.ok.injEq, Prod.mk.injEq] at h
                rw [← h.1]; exact Expanded.multiplier S _ _ hA
              · split at h
                · simp only [Result.ok.injEq, Prod.mk.injEq] at h
                  rw [← h.1]; exact Expanded.optional S _ hA
                · simp only [Result.ok.injEq, Prod.mk.injEq] at h
                  rw [← h.1]; exact hA
    · intro S r ast r' h
      rw [parseAtom] at h
      split at h
      · exact Result.noConfusion h
      · split at h
        · exact Result.noConfusion h
        · split at h
          · rename_i _ _ _ _ c r2 _ _
            cases hT : parseExpression n data S r2 with
            | timeout => rw [hT] at h; exact Result.noConfusion h
            | error e => rw [hT] at h; exact Result.noConfusion h
            | ok p =>
              obtain ⟨inner, r3⟩ := p
              rw [hT] at h
              dsimp only at h
              split at h
              · exact Result.noConfusion h
              · split at h
                · exact Result.noConfusion h
                · split at h
                  · exact Result.noConfusion h
                  · simp only [Result.ok.injEq, Prod.mk.injEq] at h
                    rw [← h.1]; exact ihE S _ _ _ hT
          · split at h
            · split at h
              split at h
              · rename_i _ token htok
                simp only [Result.ok.injEq, Prod.mk.injEq] at h
                rw [← h.1]; exact Expanded.unit S token (List.mem_of_find?_eq_some htok)
              · split at h
                · rename_i _ construct hcon
                  split at h
                  · rename_i hstack
                    simp only [Result.ok.injEq, Prod.mk.injEq] at h
                    rw [← h.1]
                    exact Expanded.placeholder S _ (by simpa using hstack)
                  · cases hT : createConstructValueWithStack n data construct.Value
                        (construct.Name :: S) with
                    | timeout => rw [hT] at h; exact Result.noConfusion h
                    | error e => rw [hT] at h; exact Result.noConfusion h
                    | ok p =>
                      rw [hT] at h
                      simp only [Result.ok.injEq, Prod.mk.injEq] at h
                      rw [← h.1]
                      have hp := List.find?_some hcon
                      simp only [beq_iff_eq] at hp
                      rw [← hp] at hcon
                      exact Expanded.nested S construct _ n hcon hT
                · exact Result.noConfusion h
            · exact Result.noConfusion h
    · intro v S ast h
      rw [createConstructValueWithStack] at h
      cases hT : parseExpression n data S (NewReader v) with
      | timeout => rw [hT] at h; exact Result.noConfusion h
      | error e => rw [hT] at h; exact Result.noConfusion h
      | ok p =>
        obtain ⟨result, r1⟩ := p
        rw [hT] at h
        simp only [Result.ok.injEq] at h
        rw [← h]; exact ihE S _ _ _ hT


theorem Expanded.of_occurs_nil {data : ChiselData} {S : List Bytes} {node ast : Regex}
    (ho : Occurs [] node ast) : Expanded data S ast → Expanded data S node := by
  generalize hanc : ([] : List Bytes) = anc at ho
  induction ho with
  | here node => exact id
  | nested c name _ _ => exact absurd hanc (by simp)
  | chain c ch hx _ ih =>
    intro h
    cases h with
    | chain _ _ hall => exact ih hanc (hall _ hx)
  | or c ch hx _ ih =>
    intro h
    cases h with
    | or _ _ hall => exact ih hanc (hall _ hx)
  | captured _ _ ih => intro h; cases h
  | multiplier c b _ ih =>
    intro h
    cases h with
    | multiplier _ _ hi => exact ih hanc hi
  | optional c _ ih =>
    intro h
    cases h with
    | optional _ hi => exact ih hanc hi

/-- C27: the construct being resolved is not on the expansion stack. In the AST that
`CreateConstructValue` returns on a body, every `NestedRegex` written in the body itself
(under no other `NestedRegex`), a reference of the construct to itself included, has a
body that is not nil: the AST of the body text of the first unresolved construct of its
name, built with that name alone on the stack. A placeholder (body nil) lies under a
`NestedRegex` of its name. -/
theorem self_reference_is_expanded_once (fuel : Nat) (data : ChiselData) (value : Bytes)
    (ast : Regex) (h : CreateConstructValue fuel data value = .ok ast) :
    (∀ c name v, Occurs [] (.NestedRegex c name v) ast →
      ∃ construct body fuel1, v = some body ∧ construct.Name = name ∧
        data.SimpleConstructs.find? (fun c => c.Name == name) = some construct ∧
        createConstructValueWithStack fuel1 data construct.Value [name] = .ok body) ∧
    (∀ anc c name, Occurs anc (.NestedRegex c name none) ast → name ∈ anc) := by
  constructor
  · intro c name v ho
    have he : Expanded data [] ast := (expanded_all data fuel).2.2.2.2.2.2 value [] ast h
    have hn := Expanded.of_occurs_nil ho he
    cases hn with
    | placeholder _ hm => cases hm
    | nested construct body fuel1 hfind hbody =>
      exact ⟨construct, body, fuel1, rfl, rfl, hfind, hbody⟩
  · intro anc c name ho
    have hs := Shape.of_occurs ho [] (shape_of_CreateConstructValue h)
    cases hs with
    | placeholder _ _ hm => simpa using hm

/-- Instance of C27: the construct `e = P e Q | P Q;` over the tokens `P` and `Q`. -/
theorem self_reference_is_expanded_once_witness :
    CreateConstructValue 30 selfReferenceData (bytes "P e Q | P Q;") =
      .ok selfReferenceAst ∧
    PopulateConstructs 30 selfReferenceData =
      .ok { selfReferenceData with Constructs := [⟨bytes "e", some selfReferenceAst⟩] } ∧
    (∀ c name v, Occurs [] (.NestedRegex c name v) selfReferenceAst →
      ∃ construct body fuel1, v = some body ∧ construct.Name = name ∧
        selfReferenceData.SimpleConstructs.find? (fun c => c.Name == name) = some construct ∧
        createConstructValueWithStack fuel1 selfReferenceData construct.Value [name] =
          .ok body) ∧
    (∀ anc c name, Occurs anc (.NestedRegex c name none) selfReferenceAst → name ∈ anc) :=
  have h : CreateConstructValue 30 selfReferenceData (bytes "P e Q | P Q;") =
      .ok selfReferenceAst := rfl
  ⟨h, rfl, self_reference_is_expanded_once 30 selfReferenceData (bytes "P e Q | P Q;")
    selfReferenceAst h⟩

/-! ## A second postfix operator -/

theorem operator_facts {op : Nat} (h : op ∈ [42, 43, 63]) :
    IsSpace op = false ∧ op ≠ 40 ∧ isValidIdStarter op = false ∧ isValidId op = false ∧
      ¬ (op = 41 ∨ op = 124 ∨ op = 59) := by
  simp only [List.mem_cons, List.mem_singleton, List.not_mem_nil, or_false] at h
  rcases h with h | h | h <;> subst h <;> decide

/-- A postfix operator where an atom must start is an unexpected character. -/
theorem parseAtom_of_operator (k : Nat) (data : ChiselData) (S : List Bytes) (r : Reader)
    (op : Nat) (t : Bytes) (hd : r.rest.dropWhile IsSpace = op :: t)
    (hop : op ∈ [42, 43, 63]) :
    parseAtom (k + 1) data S r = .error (.unexpectedCharacter op) := by
  obtain ⟨_, h40, hid, _, _⟩ := operator_facts hop
  rw [parseAtom, skipWhitespace_of_dropWhile hd]
  simp only [ReadByte, if_neg h40, hid]
  rfl

/-- A postfix operator that the loop of `parseTerm` meets where a factor must start
makes `createConstructValueWithStack` fail. -/
theorem operator_before_a_factor_is_an_error (fuel : Nat) (data : ChiselData) (value : Bytes)
    (stack : List Bytes) (k : Nat) (S : List Bytes) (a : List Regex) (r : Reader)
    (op : Nat) (t : Bytes)
    (hreach : Relation.ReflTransGen (Calls data) (.create fuel value stack)
      (.termLoop (k + 3) S a r))
    (hd : r.rest.dropWhile IsSpace = op :: t) (hop : op ∈ [42, 43, 63]) :
    createConstructValueWithStack fuel data value stack =
      .error (.unexpectedCharacter op) := by
  obtain ⟨hsp, _, _, _, hterm⟩ := operator_facts hop
  have hd2 : (op :: t).dropWhile IsSpace = op :: t := by
    rw [List.dropWhile_cons_of_neg (by rw [hsp]; simp)]
  have hreach2 : Relation.ReflTransGen (Calls data) (.create fuel value stack)
      (.atom (k + 1) S ⟨op :: t, none⟩) :=
    hreach.trans <|
      Relation.ReflTransGen.head
        (Calls.termLoop_factor (k + 2) S a r ⟨op :: t, none⟩ ⟨t, some op⟩ op
          (skipWhitespace_of_dropWhile hd) rfl hterm) <|
      Relation.ReflTransGen.single (Calls.factor_atom (k + 1) S _)
  exact Calls.fails_up_trans hreach2 _ (parseAtom_of_operator k data S _ op t hd2 hop)

/-- The node that a postfix operator makes of an atom. -/
theorem parseFactor_token_operator (k : Nat) (data : ChiselData) (S : List Bytes)
    (ws : Bytes) (c : Nat) (cs tail : Bytes) (last : Option Nat) (tok : Token)
    (op : Nat) (t : Bytes)
    (hws : ∀ x ∈ ws, IsSpace x = true) (hc : isValidIdStarter c = true)
    (hcs : ∀ x ∈ cs, isValidId x = true) (htail : EndsIdentifier tail)
    (hd : tail.dropWhile IsSpace = op :: t) (hop : op ∈ [42, 43, 63])
    (hfind : data.Tokens.find? (fun token => TokenName token == c :: cs) = some tok) :
    ∃ factor, parseFactor (k + 2) data S ⟨ws ++ (c :: cs) ++ tail, last⟩ =
      .ok (factor, ⟨t, some op⟩) := by
  rw [parseFactor, parseAtom_identifier k data S ws c cs tail last hws hc hcs htail, hfind]
  dsimp only
  cases tail with
  | nil => simp at hd
  | cons x xs =>
    have hx : isValidId x = false := htail x (by simp)
    rw [readIdentifier_snd_of_stop c cs x xs hcs hx]
    have hs : skipWhitespace ⟨x :: xs, none⟩ = (none, ⟨op :: t, none⟩) :=
      skipWhitespace_of_dropWhile hd
    rw [hs]
    simp only [List.mem_cons, List.mem_singleton, List.not_mem_nil, or_false] at hop
    rcases hop with h | h | h <;> subst h <;> exact ⟨_, rfl⟩

/-- A token name with two postfix operators after it, met by the loop of `parseTerm`
anywhere in a body, makes `createConstructValueWithStack` fail on the second operator. -/
theorem second_operator_is_an_error (data : ChiselData) (tok : Token) (c : Nat)
    (cs w0 w1 ws : Bytes) (op1 op2 : Nat) (rest : Bytes)
    (hc : isValidIdStarter c = true) (hcs : ∀ x ∈ cs, isValidId x = true)
    (hfind : data.Tokens.find? (fun token => TokenName token == c :: cs) = some tok)
    (hw0 : ∀ x ∈ w0, IsSpace x = true)
    (hw1 : ∀ x ∈ w1, IsSpace x = true) (hws : ∀ x ∈ ws, IsSpace x = true)
    (hop1 : op1 ∈ [42, 43, 63]) (hop2 : op2 ∈ [42, 43, 63])
    (fuel : Nat) (value : Bytes) (stack : List Bytes) (k : Nat) (S : List Bytes)
    (a : List Regex) (r : Reader)
    (hreach : Relation.ReflTransGen (Calls data) (.create fuel value stack)
      (.termLoop (k + 4) S a r))
    (hrest : r.rest = w0 ++ ((c :: cs) ++ (w1 ++ op1 :: (ws ++ op2 :: rest)))) :
    createConstructValueWithStack fuel data value stack =
      .error (.unexpectedCharacter op2) := by
  obtain ⟨hsp1, _, _, hid1, _⟩ := operator_facts hop1
  obtain ⟨hsp2, _, _, _, _⟩ := operator_facts hop2
  have htail : EndsIdentifier (w1 ++ op1 :: (ws ++ op2 :: rest)) := by
    intro x hx
    cases w1 with
    | nil =>
      have : x = op1 := by simpa using hx.symm
      rw [this]; exact hid1
    | cons y ys =>
      have : x = y := by simpa using hx.symm
      rw [this]; exact isValidId_false_of_isSpace (hw1 y (by simp))
  have hd : (w1 ++ op1 :: (ws ++ op2 :: rest)).dropWhile IsSpace =
      op1 :: (ws ++ op2 :: rest) := dropWhile_append_stop hw1 hsp1
  obtain ⟨factor, hF⟩ := parseFactor_token_operator (k + 1) data S [] c cs
    (w1 ++ op1 :: (ws ++ op2 :: rest)) none tok op1 (ws ++ op2 :: rest)
    (fun x hx => absurd hx (List.not_mem_nil x)) hc hcs htail hd hop1 hfind
  have hd0 : r.rest.dropWhile IsSpace =
      c :: (cs ++ (w1 ++ op1 :: (ws ++ op2 :: rest))) := by
    rw [hrest, List.cons_append]
    exact dropWhile_append_stop hw0 (isSpace_false_of_isValidIdStarter hc)
  have hreach2 : Relation.ReflTransGen (Calls data) (.create fuel value stack)
      (.termLoop (k + 3) S (a ++ [factor]) ⟨ws ++ op2 :: rest, some op1⟩) :=
    hreach.trans <| Relation.ReflTransGen.single
      (Calls.termLoop_next (k + 3) S a r
        ⟨c :: (cs ++ (w1 ++ op1 :: (ws ++ op2 :: rest))), none⟩
        ⟨cs ++ (w1 ++ op1 :: (ws ++ op2 :: rest)), some c⟩ c factor
        ⟨ws ++ op2 :: rest, some op1⟩
        (skipWhitespace_of_dropWhile hd0) rfl
        (not_terminator_of_isValidIdStarter hc)
        (by simpa using hF))
  exact operator_before_a_factor_is_an_error fuel data value stack k S _ _ op2 rest hreach2
    (dropWhile_append_stop hws hsp2) hop2

/-- C28: a factor takes one postfix operator at most. For an identifier that names a
token, followed (after whitespace or none) by an operator `*`, `+` or `?` and (after
whitespace or none) by a second one, the parse fails with "unexpected character", the
second operator, whatever follows: the loop of `parseTerm` takes the second operator
for the start of the next factor. So `CreateConstructValue` fails on a body that starts
so, and `createConstructValueWithStack` on every body in which the loop of `parseTerm`
gets to such a place. -/
theorem second_postfix_operator_is_rejected (data : ChiselData) (tok : Token) (c : Nat)
    (cs w1 ws : Bytes) (op1 op2 : Nat) (rest : Bytes)
    (hc : isValidIdStarter c = true) (hcs : ∀ x ∈ cs, isValidId x = true)
    (hfind : data.Tokens.find? (fun token => TokenName token == c :: cs) = some tok)
    (hw1 : ∀ x ∈ w1, IsSpace x = true) (hws : ∀ x ∈ ws, IsSpace x = true)
    (hop1 : op1 ∈ [42, 43, 63]) (hop2 : op2 ∈ [42, 43, 63]) :
    (∀ k : Nat,
      CreateConstructValue (k + 7) data ((c :: cs) ++ (w1 ++ op1 :: (ws ++ op2 :: rest))) =
        .error (.unexpectedCharacter op2)) ∧
    (∀ (fuel : Nat) (value : Bytes) (stack : List Bytes) (k : Nat) (S : List Bytes)
      (a : List Regex) (r : Reader) (w0 : Bytes),
      Relation.ReflTransGen (Calls data) (.create fuel value stack)
        (.termLoop (k + 4) S a r) →
      (∀ x ∈ w0, IsSpace x = true) →
      r.rest = w0 ++ ((c :: cs) ++ (w1 ++ op1 :: (ws ++ op2 :: rest))) →
      createConstructValueWithStack fuel data value stack =
        .error (.unexpectedCharacter op2)) := by
  refine ⟨fun k => ?_, fun fuel value stack k S a r w0 hreach hw0 hrest => ?_⟩
  · exact second_operator_is_an_error data tok c cs [] w1 ws op1 op2 rest hc hcs hfind
      (fun x hx => absurd hx (List.not_mem_nil x)) hw1 hws hop1 hop2 (k + 7) _ [] k [] [] _
      (Relation.ReflTransGen.head (Calls.create_expression (k + 6) _ _) <|
        Relation.ReflTransGen.head (Calls.expression_term (k + 5) _ _) <|
        Relation.ReflTransGen.single (Calls.term_loop (k + 4) _ _)) rfl
  · exact second_operator_is_an_error data tok c cs w0 w1 ws op1 op2 rest hc hcs hfind
      hw0 hw1 hws hop1 hop2 fuel value stack k S a r hreach hrest

/-- Instance of C28: the bodies `D??;`, `D**;`, `D+*;` and `D? ?;` over `sampleData`,
and the body `(D D+*);`, where the operators follow the second atom of a group. -/
theorem second_postfix_operator_is_rejected_witness :
    sampleData.Tokens.find? (fun token => TokenName token == 68 :: []) =
      some (.LiteralToken (bytes "D") (bytes "x") 0) ∧
    CreateConstructValue (0 + 7) sampleData (bytes "D??;") = .error (.unexpectedCharacter 63) ∧
    CreateConstructValue (0 + 7) sampleData (bytes "D**;") = .error (.unexpectedCharacter 42) ∧
    CreateConstructValue (0 + 7) sampleData (bytes "D+*;") = .error (.unexpectedCharacter 42) ∧
    CreateConstructValue (0 + 7) sampleData (bytes "D? ?;") =
      .error (.unexpectedCharacter 63) ∧
    createConstructValueWithStack 13 sampleData (bytes "(D D+*);") [] =
      .error (.unexpectedCharacter 42) :=
  ⟨rfl,
    (second_postfix_operator_is_rejected sampleData _ 68 [] [] [] 63 63 (bytes ";")
      (by decide) (by decide) rfl (by decide) (by decide) (by decide) (by decide)).1 0,
    (second_postfix_operator_is_rejected sampleData _ 68 [] [] [] 42 42 (bytes ";")
      (by decide) (by decide) rfl (by decide) (by decide) (by decide) (by decide)).1 0,
    (second_postfix_operator_is_rejected sampleData _ 68 [] [] [] 43 42 (bytes ";")
      (by decide) (by decide) rfl (by decide) (by decide) (by decide) (by decide)).1 0,
    (second_postfix_operator_is_rejected sampleData _ 68 [] [] (bytes " ") 63 63 (bytes ";")
      (by decide) (by decide) rfl (by decide) (by decide) (by decide) (by decide)).1 0,
    (second_postfix_operator_is_rejected sampleData _ 68 [] [] [] 43 42 (bytes ");")
      (by decide) (by decide) rfl (by decide) (by decide) (by decide) (by decide)).2
      13 (bytes "(D D+*);") [] 0 []
      [.UnitRegex Counter.zero (.LiteralToken (bytes "D") (bytes "x") 0)]
      ⟨bytes "D+*);", none⟩ []
      (Relation.ReflTransGen.head (Calls.create_expression 12 _ _) <|
        Relation.ReflTransGen.head (Calls.expression_term 11 _ _) <|
        Relation.ReflTransGen.head (Calls.term_loop 10 _ _) <|
        Relation.ReflTransGen.head
          (Calls.termLoop_factor 9 [] [] (NewReader (bytes "(D D+*);"))
            ⟨bytes "(D D+*);", none⟩ ⟨bytes "D D+*);", some 40⟩ 40 rfl rfl (by decide)) <|
        Relation.ReflTransGen.head (Calls.factor_atom 8 _ _) <|
        Relation.ReflTransGen.head
          (Calls.atom_expression 7 [] _ ⟨bytes "(D D+*);", none⟩
            ⟨bytes "D D+*);", some 40⟩ rfl rfl) <|
        Relation.ReflTransGen.head (Calls.expression_term 6 _ _) <|
        Relation.ReflTransGen.head (Calls.term_loop 5 _ _) <|
        Relation.ReflTransGen.single
          (Calls.termLoop_next 4 [] [] ⟨bytes "D D+*);", some 40⟩
            ⟨bytes "D D+*);", none⟩ ⟨bytes " D+*);", some 68⟩ 68
            (.UnitRegex Counter.zero (.LiteralToken (bytes "D") (bytes "x") 0))
            ⟨bytes "D+*);", none⟩ rfl rfl (by decide) rfl))
      (by decide) rfl⟩

/-! ## The text of a body -/

theorem constructReaderLoop_ok : ∀ (inp : Bytes) (slash : Bool) (buf : Bytes)
    (last : Option Nat) (s : Bytes) (r' : Reader),
    constructReaderLoop slash buf inp last = (s, none, r') →
    ∃ kept : Bytes, s = buf ++ kept ++ [59] ∧ 59 ∉ kept ∧ 92 ∉ kept := by
  intro inp
  induction inp with
  | nil => intro slash buf last s r' h; simp [constructReaderLoop] at h
  | cons c cs ih =>
    intro slash buf last s r' h
    rw [constructReaderLoop] at h
    by_cases h1 : slash = true
    · rw [if_pos h1] at h
      exact ih _ _ _ _ _ h
    rw [if_neg h1] at h
    by_cases h2 : c = 92
    · rw [if_pos h2] at h
      exact ih _ _ _ _ _ h
    rw [if_neg h2] at h
    by_cases h3 : c = 59
    · rw [if_pos h3] at h
      refine ⟨[], ?_, by simp, by simp⟩
      simp only [Prod.mk.injEq] at h
      rw [← h.1, h3]; simp
    rw [if_neg h3] at h
    obtain ⟨kept, hs, h59, h92⟩ := ih _ _ _ _ _ h
    refine ⟨c :: kept, ?_, ?_, ?_⟩
    · rw [hs]; simp
    · simp only [List.mem_cons, not_or]; exact ⟨fun e => h3 e.symm, h59⟩
    · simp only [List.mem_cons, not_or]; exact ⟨fun e => h2 e.symm, h92⟩

theorem constructReaderLoop_fails : ∀ (inp : Bytes) (slash : Bool) (buf : Bytes)
    (last : Option Nat), unterminated slash inp = true →
    (constructReaderLoop slash buf inp last).1 = [] ∧
      (constructReaderLoop slash buf inp last).2.1 = some Error.EOF := by
  intro inp
  induction inp with
  | nil => intro slash buf last _; simp [constructReaderLoop]
  | cons c cs ih =>
    intro slash buf last h
    rw [constructReaderLoop]
    cases slash with
    | true =>
      rw [unterminated] at h
      simp only [if_true]
      exact ih _ _ _ h
    | false =>
      rw [unterminated] at h
      simp only [Bool.false_eq_true, if_false]
      by_cases h2 : c = 92
      · rw [if_pos h2] at h ⊢
        exact ih _ _ _ h
      rw [if_neg h2] at h ⊢
      by_cases h3 : c = 59
      · rw [if_pos h3] at h; exact absurd h (by simp)
      rw [if_neg h3] at h ⊢
      exact ih _ _ _ h

theorem constructReaderLoop_succeeds : ∀ (inp : Bytes) (slash : Bool) (buf : Bytes)
    (last : Option Nat), unterminated slash inp = false →
    (constructReaderLoop slash buf inp last).2.1 = none := by
  intro inp
  induction inp with
  | nil => intro slash buf last h; simp [unterminated] at h
  | cons c cs ih =>
    intro slash buf last h
    rw [constructReaderLoop]
    cases slash with
    | true =>
      rw [unterminated] at h
      simp only [if_true]
      exact ih _ _ _ h
    | false =>
      rw [unterminated] at h
      simp only [Bool.false_eq_true, if_false]
      by_cases h2 : c = 92
      · rw [if_pos h2] at h ⊢
        exact ih _ _ _ h
      rw [if_neg h2] at h ⊢
      by_cases h3 : c = 59
      · rw [if_pos h3]
      rw [if_neg h3] at h ⊢
      exact ih _ _ _ h

theorem constructReader_ok {r : Reader} {s : Bytes} {r' : Reader}
    (h : constructReader r = (s, none, r')) : IsBodyText s := by
  rw [constructReader] at h
  rcases hs : skipWhitespace r with ⟨oe, r1⟩
  rw [hs] at h
  cases oe with
  | some e => simp at h
  | none =>
    obtain ⟨kept, hk, h59, h92⟩ := constructReaderLoop_ok _ _ _ _ _ _ h
    exact ⟨kept, by simpa using hk, h59, h92⟩

theorem skipWhitespaceLoop_of_spaces : ∀ (ws : Bytes) (last : Option Nat),
    (∀ x ∈ ws, IsSpace x = true) →
    ∃ b, skipWhitespaceLoop ws last = ⟨[], b⟩ ∧
      (b = last ∧ ws = [] ∨ ∃ x, b = some x ∧ IsSpace x = true) := by
  intro ws
  induction ws with
  | nil => intro last _; exact ⟨last, rfl, Or.inl ⟨rfl, rfl⟩⟩
  | cons w ws ih =>
    intro last h
    have hw : IsSpace w = true := h w (List.mem_cons_self _ _)
    rw [skipWhitespaceLoop, if_pos hw]
    obtain ⟨b, hb, hcase⟩ := ih (some w) (fun x hx => h x (List.mem_cons_of_mem _ hx))
    refine ⟨b, hb, Or.inr ?_⟩
    rcases hcase with ⟨hbl, _⟩ | hx
    · exact ⟨w, hbl, hw⟩
    · exact hx

theorem unterminated_of_spaces : ∀ (ws : Bytes) (t : Bytes),
    (∀ x ∈ ws, IsSpace x = true) → unterminated false (ws ++ t) = unterminated false t := by
  intro ws
  induction ws with
  | nil => intro t _; rfl
  | cons w ws ih =>
    intro t h
    have hw : IsSpace w = true := h w (List.mem_cons_self _ _)
    have h92 : w ≠ 92 := by intro e; rw [e] at hw; exact absurd hw (by decide)
    have h59 : w ≠ 59 := by intro e; rw [e] at hw; exact absurd hw (by decide)
    rw [List.cons_append, unterminated, if_neg h92, if_neg h59]
    exact ih t (fun x hx => h x (List.mem_cons_of_mem _ hx))

theorem constructReader_fails {r : Reader} (hun : unterminated false r.rest = true)
    (hlast : r.rest = [] → r.lastByte ≠ some 59) :
    (constructReader r).1 = [] ∧ (constructReader r).2.1 ≠ none := by
  rw [constructReader]
  rcases hdrop : r.rest.dropWhile IsSpace with _ | ⟨c, t⟩
  · have hall : ∀ x ∈ r.rest, IsSpace x = true := by
      intro x hx
      have := List.dropWhile_eq_nil_iff.mp hdrop
      exact this x hx
    obtain ⟨b, hb, hcase⟩ := skipWhitespaceLoop_of_spaces r.rest r.lastByte hall
    rw [skipWhitespace, hb]
    cases b with
    | none => simp [UnreadByte]
    | some x =>
      have hx : x ≠ 59 := by
        rcases hcase with ⟨hbl, hnil⟩ | ⟨y, hy, hsp⟩
        · intro e; rw [e] at hbl; exact hlast hnil hbl.symm
        · intro e
          rw [Option.some.injEq] at hy
          rw [← hy, e] at hsp; exact absurd hsp (by decide)
      have hu : unterminated false [x] = true := by
        rw [unterminated]
        by_cases h2 : x = 92
        · rw [if_pos h2]; rfl
        · rw [if_neg h2, if_neg hx]; rfl
      have := constructReaderLoop_fails [x] false [] none hu
      simp only [UnreadByte]
      exact ⟨this.1, by rw [this.2]; simp⟩
  · have hsplit : r.rest = r.rest.takeWhile IsSpace ++ c :: t := by
      rw [← hdrop]; exact (List.takeWhile_append_dropWhile _ _).symm
    have hu : unterminated false (c :: t) = true := by
      rw [hsplit, unterminated_of_spaces _ _
        (fun x hx => List.mem_takeWhile_imp hx)] at hun
      exact hun
    rw [skipWhitespace_of_dropWhile hdrop]
    have := constructReaderLoop_fails (c :: t) false [] none hu
    exact ⟨this.1, by rw [this.2]; simp⟩

theorem PopulateConstructsLoop_simpleConstructs (fuel : Nat) :
    ∀ (cs : List SimpleConstruct) (d d' : ChiselData),
      PopulateConstructsLoop fuel d cs = .ok d' → d'.SimpleConstructs = d.SimpleConstructs := by
  intro cs
  induction cs with
  | nil => intro d d' h; rw [PopulateConstructsLoop] at h; injection h with h; rw [← h]
  | cons c cs ih =>
    intro d d' h
    rw [PopulateConstructsLoop] at h
    split at h
    · exact absurd h (by simp)
    · exact absurd h (by simp)
    · have := ih _ _ h
      exact this

theorem ReadAndWriteLoop_bodies (unquote : Bytes → Option Bytes) :
    ∀ (fuel : Nat) (data : ChiselData) (r : Reader) (data' : ChiselData),
      (∀ c ∈ data.SimpleConstructs, IsBodyText c.Value) →
      ReadAndWriteLoop unquote fuel data r = .ok data' →
      ∀ c ∈ data'.SimpleConstructs, IsBodyText c.Value := by
  intro fuel
  induction fuel with
  | zero => intro data r data' _ h; rw [ReadAndWriteLoop] at h; exact absurd h (by simp)
  | succ n ih =>
    intro data r data' hdata h
    rw [ReadAndWriteLoop] at h
    rcases hs : syntaxReader r with ⟨token, oe, r1⟩
    cases oe with
    | some e =>
      simp only [hs] at h
      injection h with h
      rw [← h]; exact hdata
    | none =>
      simp only [hs] at h
      by_cases h1 : token = bytes ";"
      · simp only [if_pos h1] at h
        exact ih _ _ _ hdata h
      simp only [if_neg h1] at h
      by_cases h2 : token = bytes "prefix"
      · simp only [if_pos h2] at h
        rcases hsc : scopeReader 123 125 r1 with ⟨scope, oe, r2⟩
        cases oe with
        | some e => simp [hsc] at h
        | none =>
          simp only [hsc] at h
          refine ih _ _ _ ?_ h
          exact hdata
      simp only [if_neg h2] at h
      by_cases h3 : token = bytes "suffix"
      · simp only [if_pos h3] at h
        rcases hsc : scopeReader 123 125 r1 with ⟨scope, oe, r2⟩
        cases oe with
        | some e => simp [hsc] at h
        | none =>
          simp only [hsc] at h
          refine ih _ _ _ ?_ h
          exact hdata
      simp only [if_neg h3] at h
      by_cases h4 : token = bytes "tok"
      · simp only [if_pos h4] at h
        cases hct : CreateTokens unquote n r1 with
        | timeout => simp [hct] at h
        | error e => simp [hct] at h
        | ok p =>
          simp only [hct] at h
          refine ih _ _ _ ?_ h
          exact hdata
      simp only [if_neg h4] at h
      by_cases h5 : token = bytes "skip"
      · simp only [if_pos h5] at h
        cases hct : CreateTokens unquote n r1 with
        | timeout => simp [hct] at h
        | error e => simp [hct] at h
        | ok p =>
          simp only [hct] at h
          refine ih _ _ _ ?_ h
          exact hdata
      simp only [if_neg h5] at h
      by_cases h6 : syntaxTokenType token = .ID
      · simp only [if_pos h6] at h
        rcases hs2 : syntaxReader r1 with ⟨eq, oe, r2⟩
        cases oe with
        | some e => simp [hs2] at h
        | none =>
          simp only [hs2] at h
          by_cases h7 : syntaxTokenType eq ≠ .EQ
          · simp [if_pos h7] at h
          simp only [if_neg h7] at h
          rcases hc : constructReader r2 with ⟨c, oe, r3⟩
          cases oe with
          | some e => simp [hc] at h
          | none =>
            simp only [hc] at h
            refine ih _ _ _ ?_ h
            intro x hx
            simp only [ChiselData.AddSimpleConstruct, List.mem_append, List.mem_singleton] at hx
            rcases hx with hx | hx
            · exact hdata x hx
            · rw [hx]; exact constructReader_ok hc
      simp only [if_neg h6] at h
      exact ih _ _ _ hdata h

theorem ReadAndWrite_bodies (unquote : Bytes → Option Bytes) (fuel : Nat) (file : Bytes)
    (data : ChiselData) (h : ReadAndWrite unquote fuel file = .ok data) :
    ∀ c ∈ data.SimpleConstructs, IsBodyText c.Value := by
  rw [ReadAndWrite] at h
  cases hl : ReadAndWriteLoop unquote fuel ⟨[], [], [], [], [], []⟩ (NewReader file) with
  | timeout => simp [hl] at h
  | error e => simp [hl] at h
  | ok d =>
    simp only [hl] at h
    rw [PopulateConstructs] at h
    rw [PopulateConstructsLoop_simpleConstructs fuel _ _ _ h]
    exact ReadAndWriteLoop_bodies unquote fuel _ _ _ (fun c hc => absurd hc (List.not_mem_nil c)) hl

/-- C29: the text that `constructReader` returns. A string that it returns without
error ends with `;`, holds no other `;` and holds no `\`; once `skipWhitespace` has
succeeded it returns without error exactly when a `;` that no `\` escapes is among the
bytes still to read; on a reader whose remaining input holds no such `;` (and that has
not, with the input used up, a `;` as the last byte read, which `skipWhitespace` would
put back) it returns the empty string and an error; and in the model that `ReadAndWrite`
hands to `WriteFile` the body text of every unresolved construct is such a string. -/
theorem constructReader_returns_a_terminated_body (r : Reader)
    (unquote : Bytes → Option Bytes) (fuel : Nat) (file : Bytes) :
    (∀ s r', constructReader r = (s, none, r') → IsBodyText s) ∧
    (∀ r1, skipWhitespace r = (none, r1) →
      ((constructReader r).2.1 = none ↔ unterminated false r1.rest = false)) ∧
    (unterminated false r.rest = true → (r.rest = [] → r.lastByte ≠ some 59) →
      (constructReader r).1 = [] ∧ (constructReader r).2.1 ≠ none) ∧
    (∀ data, ReadAndWrite unquote fuel file = .ok data →
      ∀ c ∈ data.SimpleConstructs, IsBodyText c.Value) := by
  refine ⟨fun s r' h => constructReader_ok h, fun r1 hs => ?_,
    fun hun hlast => constructReader_fails hun hlast,
    fun data h => ReadAndWrite_bodies unquote fuel file data h⟩
  rw [constructReader, hs]
  constructor
  · intro h
    cases hu : unterminated false r1.rest with
    | false => rfl
    | true =>
      rw [(constructReaderLoop_fails r1.rest false [] r1.lastByte hu).2] at h
      exact absurd h (by simp)
  · intro hu
    exact constructReaderLoop_succeeds r1.rest false [] r1.lastByte hu

/-- Instance of C29: the input `a \; b ; rest`, the input ` a \; b ` that ends before
a `;` is read, and the file `tok A r = A \; A;`. -/
theorem constructReader_returns_a_terminated_body_witness :
    constructReader (NewReader (bytes "a " ++ [92, 59] ++ bytes " b ; rest")) =
      (bytes "a  b ;", none, ⟨bytes " rest", some 59⟩) ∧
    IsBodyText (bytes "a  b ;") ∧
    unterminated false (bytes " a " ++ [92, 59] ++ bytes " b ") = true ∧
    ((constructReader (NewReader (bytes " a " ++ [92, 59] ++ bytes " b "))).1 = [] ∧
      (constructReader (NewReader (bytes " a " ++ [92, 59] ++ bytes " b "))).2.1 ≠ none) ∧
    ReadAndWrite (fun _ => none) 12 (bytes "tok A r = A " ++ [92, 59] ++ bytes " A;") =
      .ok bodyTextData ∧
    bodyTextData.SimpleConstructs = [⟨bytes "r", bytes "A  A;"⟩] ∧
    ∀ c ∈ bodyTextData.SimpleConstructs, IsBodyText c.Value :=
  have h1 : constructReader (NewReader (bytes "a " ++ [92, 59] ++ bytes " b ; rest")) =
      (bytes "a  b ;", none, ⟨bytes " rest", some 59⟩) := rfl
  have h2 : ReadAndWrite (fun _ => none) 12
      (bytes "tok A r = A " ++ [92, 59] ++ bytes " A;") = .ok bodyTextData := rfl
  ⟨h1,
    (constructReader_returns_a_terminated_body
      (NewReader (bytes "a " ++ [92, 59] ++ bytes " b ; rest")) (fun _ => none) 0 []).1
      _ _ h1,
    rfl,
    (constructReader_returns_a_terminated_body
      (NewReader (bytes " a " ++ [92, 59] ++ bytes " b ")) (fun _ => none) 0 []).2.2.1
      rfl (fun h => absurd h (by decide)),
    h2, rfl,
    (constructReader_returns_a_terminated_body (NewReader []) (fun _ => none) 12
      (bytes "tok A r = A " ++ [92, 59] ++ bytes " A;")).2.2.2 _ h2⟩

end Chisel
